import Mathlib

/-!
# Histogram index construction and histogram building (oneAPI / SYCL plugin)

Shallow embedding of `plugin/updater_oneapi/hist_util_oneapi.cc` and
`plugin/sycl/common/hist_util.h`.

Conventions of the embedding

* `bst_float` feature values and cut values are exact rationals (`ℚ`); the
  order on finite floats is the order of the rationals they denote.
* Device arrays are lists, read with `List.getD _ _ 0` and written with
  `List.set`.
* `uint32_t` and `size_t` arithmetic wraps around where the code computes a value
  that can leave the range: sums and products are reduced modulo `2 ^ 32` /
  `2 ^ 64`, differences go through `subU32` / `predU64`. Counters and array
  positions that are bounded by the size of an allocated array are plain `Nat`.
* A `parallel_for` whose work items write pairwise disjoint locations (or only
  perform atomic additions) is run as a sequential loop over its index range.
* A function that can fail a fatal check (`CHECK`, `CHECK_EQ`) or divide an
  integer by zero returns an `Option` (or a `Checked` state); `none` is the
  failure.
-/

set_option linter.unusedVariables false

namespace xgboost

/-! ## Data model -/

/-- Sparse-page cell `xgboost::Entry`: feature index and feature value. -/
structure Entry where
  index : Nat
  fvalue : ℚ
deriving DecidableEq, Repr

/-- The modulus of `uint32_t` arithmetic. -/
def u32 : Nat := 2 ^ 32

/-- The modulus of `size_t` arithmetic. -/
def u64 : Nat := 2 ^ 64

/-- The difference `a - b` in `uint32_t` arithmetic, for operands below `2 ^ 32`: it
wraps around when `a < b`. -/
def subU32 (a b : Nat) : Nat := if b ≤ a then a - b else a + u32 - b

/-- The value `a - 1` in `size_t` arithmetic: `0 - 1` wraps to `2 ^ 64 - 1`. -/
def predU64 (a : Nat) : Nat := if a = 0 then u64 - 1 else a - 1

/-! ## `SearchBin` -/

/-- The loop of `std::upper_bound` (libstdc++ `__upper_bound`): `first` and `len`
are the loop variables, the first argument bounds the number of iterations. -/
def upperBoundLoop (cut_values : List ℚ) (val : ℚ) : Nat → Nat → Nat → Nat
  | 0, first, _ => first
  | fuel + 1, first, len =>
    if len = 0 then first
    else
      let half := len / 2
      let middle := first + half
      if val < cut_values.getD middle 0 then
        upperBoundLoop cut_values val fuel first half
      else
        upperBoundLoop cut_values val fuel (middle + 1) (len - half - 1)

/-- The call `std::upper_bound(cut_values + first, cut_values + last, val)`, as an
index into `cut_values`. The length of the range bounds the iterations, since
every iteration at least halves it. -/
def upper_bound (cut_values : List ℚ) (first last : Nat) (val : ℚ) : Nat :=
  upperBoundLoop cut_values val (last - first) first (last - first)

/-- Embedding of `SearchBin(cut_values, cut_ptrs, e)`. -/
def SearchBin (cut_values : List ℚ) (cut_ptrs : List Nat) (e : Entry) : Nat :=
  let beg := cut_ptrs.getD e.index 0
  let end_ := cut_ptrs.getD (e.index + 1) 0
  let it := upper_bound cut_values beg end_ e.fvalue
  let idx := it % u32
  if idx = end_ then subU32 idx 1 else idx

/-- Every entry of `cut_ptrs` is a `uint32_t`. -/
def PtrsU32 (cut_ptrs : List Nat) : Prop := ∀ p ∈ cut_ptrs, p < u32

/-- The offsets in `cut_ptrs` are monotone non-decreasing. -/
def PtrsMonotone (cut_ptrs : List Nat) : Prop :=
  ∀ i j, i ≤ j → j < cut_ptrs.length → cut_ptrs.getD i 0 ≤ cut_ptrs.getD j 0

/-- Every feature owns at least one bin. -/
def SlicesNonEmpty (cut_ptrs : List Nat) : Prop :=
  ∀ f, f + 1 < cut_ptrs.length → cut_ptrs.getD f 0 < cut_ptrs.getD (f + 1) 0

/-- The cut values at positions `[lo, hi)` are sorted ascending. -/
def SliceSorted (cut_values : List ℚ) (lo hi : Nat) : Prop :=
  ∀ i j, lo ≤ i → i ≤ j → j < hi → cut_values.getD i 0 ≤ cut_values.getD j 0

/-- Total number of bins, `cut.Ptrs().back()`. -/
def totalBins (cut_ptrs : List Nat) : Nat := cut_ptrs.getD (cut_ptrs.length - 1) 0

/-! ## `mergeSort` -/

/-- A counted loop `for (j = lo; j < hi; ++j) body`, threading the state. -/
def forLoop {σ : Type} (lo hi : Nat) (body : Nat → σ → σ) (s : σ) : σ :=
  (List.range' lo (hi - lo)).foldl (fun st j => body j st) s

/-- The `while (left_pos < mid || right_pos < finish)` loop of `mergeSort`: merges
`begin[left_pos, mid)` and `begin[right_pos, finish)` into `buf` from `pos` on.
The first argument bounds the number of iterations. -/
def mergeLoop {α : Type} [Inhabited α] (lt : α → α → Bool) (a : List α) (mid finish : Nat) :
    Nat → Nat → Nat → Nat → List α → List α
  | 0, _, _, _, buf => buf
  | fuel + 1, left_pos, right_pos, pos, buf =>
    if left_pos < mid ∨ right_pos < finish then
      if left_pos < mid ∧
          (right_pos = finish ∨ lt (a.getD left_pos default) (a.getD right_pos default) = true) then
        mergeLoop lt a mid finish fuel (left_pos + 1) right_pos (pos + 1)
          (buf.set pos (a.getD left_pos default))
      else
        mergeLoop lt a mid finish fuel left_pos (right_pos + 1) (pos + 1)
          (buf.set pos (a.getD right_pos default))
    else buf

/-- The `for (cur_block = 0; cur_block + block_len < total_len; cur_block += 2 * block_len)`
loop of `mergeSort`, on the pair `(begin, buf)`. -/
def mergeBlocks {α : Type} [Inhabited α] (lt : α → α → Bool) (total_len block_len : Nat) :
    Nat → Nat → List α × List α → List α × List α
  | 0, _, s => s
  | fuel + 1, cur_block, s =>
    if cur_block + block_len < total_len then
      let start := cur_block
      let mid := start + block_len
      let finish := if mid + block_len < total_len then mid + block_len else total_len
      let buf := mergeLoop lt s.1 mid finish (finish - start) start mid start s.2
      let a := forLoop start finish (fun i a => a.set i (buf.getD i default)) s.1
      mergeBlocks lt total_len block_len fuel (cur_block + 2 * block_len) (a, buf)
    else s

/-- The `for (block_len = 1; block_len < total_len; block_len <<= 1)` loop of
`mergeSort`. -/
def mergePasses {α : Type} [Inhabited α] (lt : α → α → Bool) (total_len : Nat) :
    Nat → Nat → List α × List α → List α × List α
  | 0, _, s => s
  | fuel + 1, block_len, s =>
    if block_len < total_len then
      mergePasses lt total_len fuel (block_len * 2)
        (mergeBlocks lt total_len block_len total_len 0 s)
    else s

/-- Embedding of `mergeSort(begin, end, buf)`: `a` is the range `[begin, end)`, `buf`
the scratch range; the result is the final content of both. The comparison
`begin[left_pos] < begin[right_pos]` is the parameter `lt`. Both loops advance by
at least one position per iteration, so `total_len` bounds their iterations. -/
def mergeSort {α : Type} [Inhabited α] (lt : α → α → Bool) (a buf : List α) :
    List α × List α :=
  mergePasses lt a.length a.length 1 (a, buf)

/-! ## The index and the matrix -/

/-- `BinTypeSize::kUint8BinsTypeSize`, the size in bytes of `uint8_t`. -/
def kUint8BinsTypeSize : Nat := 1

/-- `BinTypeSize::kUint16BinsTypeSize`, the size in bytes of `uint16_t`. -/
def kUint16BinsTypeSize : Nat := 2

/-- `BinTypeSize::kUint32BinsTypeSize`, the size in bytes of `uint32_t`. -/
def kUint32BinsTypeSize : Nat := 4

/-- `std::vector::resize(n, v)`: keeps the first `n` elements, pads with `v`. -/
def vecResize {α : Type} (l : List α) (n : Nat) (v : α) : List α :=
  l.take n ++ List.replicate (n - l.length) v

/-- Embedding of `struct Index`. The byte buffer `data_` is kept as its size in bytes
`data_size` together with `cells`, its content viewed as unsigned integers of
`binTypeSize_` bytes (what `data<BinIdxType>()` and `func_` see). -/
structure Index where
  data_size : Nat := 0
  cells : List Nat := []
  offset_ : List Nat := []
  binTypeSize_ : Nat := kUint8BinsTypeSize
  p_ : Nat := 1
deriving DecidableEq, Repr

/-- `Index::operator[]`. -/
def Index.get (ix : Index) (i : Nat) : Nat :=
  if ¬ ix.offset_.isEmpty then (ix.cells.getD i 0 + ix.offset_.getD (i % ix.p_) 0) % u32
  else ix.cells.getD i 0

/-- `Index::SetBinTypeSize`. -/
def Index.SetBinTypeSize (ix : Index) (binTypeSize : Nat) : Index :=
  { ix with binTypeSize_ := binTypeSize }

/-- `Index::Size`. -/
def Index.Size (ix : Index) : Nat := ix.data_size / ix.binTypeSize_

/-- `Index::Resize(nBytesData)`; the view has as many cells as fit in the bytes. -/
def Index.Resize (ix : Index) (nBytesData : Nat) : Index :=
  { ix with data_size := nBytesData,
            cells := vecResize ix.cells (nBytesData / ix.binTypeSize_) 0 }

/-- `Index::ResizeOffset`. -/
def Index.ResizeOffset (ix : Index) (nDisps : Nat) : Index :=
  { ix with offset_ := vecResize ix.offset_ nDisps 0, p_ := nDisps }

/-- Embedding of `xgboost::common::HistogramCuts`. -/
structure HistogramCuts where
  cut_values_ : List ℚ
  cut_ptrs_ : List Nat
  min_vals_ : List ℚ
deriving DecidableEq, Repr

/-- The input matrix as the device wrapper shows it: the CSR arrays, and the column
count and density flag of the underlying `DMatrix`. -/
structure DeviceMatrix where
  data : List Entry
  row_ptr : List Nat
  num_col_ : Nat
  is_dense : Bool
deriving DecidableEq, Repr

/-- Embedding of `GHistIndexMatrixOneAPI` / `GHistIndexMatrix`. -/
structure GHistIndexMatrix where
  row_ptr : List Nat := []
  index : Index := {}
  hit_count : List Nat := []
  cut : HistogramCuts := ⟨[], [], []⟩
  max_num_bins : Nat := 0
  nbins : Nat := 0
  nfeatures : Nat := 0
  row_stride : Nat := 0
  isDense_ : Bool := false
deriving DecidableEq, Repr

/-- The value read when an entry is missing from the model of the entry array. -/
instance : Inhabited Entry := ⟨⟨0, 0⟩⟩

/-- The value of `offsets ? idx - offsets[j] : idx` after its conversion to
`BinIdxType`, a type of `w` bytes. -/
def SetIndexData.stored (w : Nat) (offsets : Option (List Nat)) (j idx : Nat) : Nat :=
  (match offsets with
    | some offs => subU32 idx (offs.getD j 0)
    | none => idx) % 2 ^ (8 * w)

/-- One iteration of the loop `for (bst_uint j = 0; j < size; ++j)` of `SetIndexData`,
on the pair `(index_data, hit_count)`: the bin of entry `ibegin + j` is stored at
`start + j`, narrowed to `w` bytes, and its hit count is incremented. -/
def SetIndexData.entryStep (w : Nat) (dmat_device : DeviceMatrix) (cut_values : List ℚ)
    (cut_ptrs : List Nat) (offsets : Option (List Nat)) (ibegin start j : Nat)
    (st : List Nat × List Nat) : List Nat × List Nat :=
  let idx := SearchBin cut_values cut_ptrs (dmat_device.data.getD (ibegin + j) default)
  (st.1.set (start + j) (SetIndexData.stored w offsets j idx),
    st.2.set idx (st.2.getD idx 0 + 1))

/-- Work item `i` of the `parallel_for` of `SetIndexData`. In the sparse case
(`offsets = none`, the null pointer) the row's range is sorted by `mergeSort`, whose
scratch range is `sort_data + start`, and the rest of the stride is filled with
`nbins`. The row pointer of a CSR matrix is non-decreasing, so `iend - ibegin` does
not wrap, and a row has fewer than `2 ^ 32` entries, so the `bst_uint` counter `j`
reaches `size`. -/
def SetIndexData.rowKernel (w : Nat) (dmat_device : DeviceMatrix) (cut_values : List ℚ)
    (cut_ptrs : List Nat) (nbins row_stride : Nat) (offsets : Option (List Nat)) (i : Nat)
    (st : List Nat × List Nat) : List Nat × List Nat :=
  let ibegin := dmat_device.row_ptr.getD i 0
  let iend := dmat_device.row_ptr.getD (i + 1) 0
  let size := iend - ibegin
  let start := i * row_stride
  let st1 := forLoop 0 size
    (SetIndexData.entryStep w dmat_device cut_values cut_ptrs offsets ibegin start) st
  match offsets with
  | some _ => st1
  | none =>
    let sorted := (mergeSort (fun x y : Nat => decide (x < y))
      ((st1.1.drop start).take size) (List.replicate size 0)).1
    let index_data1 := st1.1.take start ++ sorted ++ st1.1.drop (start + size)
    (forLoop size row_stride (fun j d => d.set (start + j) (nbins % 2 ^ (8 * w))) index_data1,
      st1.2)

/-- Embedding of `SetIndexData<BinIdxType>` with `sizeof(BinIdxType) = w`, on the pair
`(index_data, hit_count)`. Work item `i` of the `parallel_for` writes
`index_data[i * row_stride + j]` for the `j` of its own row only, and adds to
`hit_count` atomically, so the work items are run in the order of their ids. -/
def SetIndexData (w : Nat) (index_data hit_count : List Nat) (dmat_device : DeviceMatrix)
    (cut_values : List ℚ) (cut_ptrs : List Nat) (nbins row_stride : Nat)
    (offsets : Option (List Nat)) : List Nat × List Nat :=
  let num_rows := dmat_device.row_ptr.length - 1
  forLoop 0 num_rows
    (SetIndexData.rowKernel w dmat_device cut_values cut_ptrs nbins row_stride offsets)
    (index_data, hit_count)

/-- Embedding of `ResizeIndex(n_offsets, n_index, isDense)`. `max_num_bins - 1` and the
byte counts are `size_t` values. -/
def ResizeIndex (m : GHistIndexMatrix) (n_offsets n_index : Nat) (isDense : Bool) :
    GHistIndexMatrix :=
  let mb1 := predU64 m.max_num_bins
  if mb1 ≤ 255 ∧ isDense = true then
    { m with index := (m.index.SetBinTypeSize kUint8BinsTypeSize).Resize ((1 * n_index) % u64) }
  else if (mb1 > 255 ∧ mb1 ≤ 65535) ∧ isDense = true then
    { m with index := (m.index.SetBinTypeSize kUint16BinsTypeSize).Resize ((2 * n_index) % u64) }
  else
    { m with index := (m.index.SetBinTypeSize kUint32BinsTypeSize).Resize ((4 * n_index) % u64) }

/-- The loop of `Init` that computes `row_stride`, the largest number of entries of a
row; the offsets of the sparse page are the row pointer of the device matrix. -/
def Init.rowStride (row_offset : List Nat) : Nat :=
  forLoop 1 row_offset.length (fun i row_stride =>
    max row_stride (row_offset.getD i 0 - row_offset.getD (i - 1) 0)) 0

/-- The first part of `Init`, up to and including the call of `ResizeIndex`. The cuts
`cut` are what `SketchOnDMatrix` returned; `max_num_bins = max_bins` converts the
`int` to `size_t`. -/
def Init.resized (m : GHistIndexMatrix) (p_fmat_device : DeviceMatrix) (cut : HistogramCuts)
    (max_bins : Int) : GHistIndexMatrix :=
  let nbins := cut.cut_ptrs_.getD (cut.cut_ptrs_.length - 1) 0
  let isDense := p_fmat_device.is_dense
  let row_stride := Init.rowStride p_fmat_device.row_ptr
  let m1 : GHistIndexMatrix :=
    { row_ptr := p_fmat_device.row_ptr, index := m.index,
      hit_count := vecResize m.hit_count nbins 0, cut := cut,
      max_num_bins := (max_bins % (u64 : Int)).toNat, nbins := nbins,
      nfeatures := p_fmat_device.num_col_, row_stride := row_stride, isDense_ := isDense }
  let n_offsets := cut.cut_ptrs_.length - 1
  let n_rows := p_fmat_device.row_ptr.length - 1
  let n_index := (n_rows * row_stride) % u64
  ResizeIndex m1 n_offsets n_index isDense

/-- The block `if (isDense) { index.ResizeOffset(n_offsets); ... offsets[i] = cut.Ptrs()[i]; }`
of `Init`. -/
def Init.fillOffsets (index : Index) (cut : HistogramCuts) : Index :=
  let n_offsets := cut.cut_ptrs_.length - 1
  let index1 := index.ResizeOffset n_offsets
  { data_size := index1.data_size, cells := index1.cells,
    offset_ := forLoop 0 n_offsets (fun i offsets => offsets.set i (cut.cut_ptrs_.getD i 0))
      index1.offset_,
    binTypeSize_ := index1.binTypeSize_, p_ := index1.p_ }

/-- Embedding of `Init(qu, p_fmat_device, max_bins)`. `none` is the failure of
`CHECK_GT(cut.Values().size(), 0U)` or of `CHECK_EQ(curent_bin_size,
kUint32BinsTypeSize)`. -/
def Init (m : GHistIndexMatrix) (p_fmat_device : DeviceMatrix) (cut : HistogramCuts)
    (max_bins : Int) : Option GHistIndexMatrix :=
  let m2 := Init.resized m p_fmat_device cut max_bins
  if ¬ (cut.cut_values_.length > 0) then none
  else if p_fmat_device.is_dense = true then
    let index := Init.fillOffsets m2.index cut
    let offsets := some index.offset_
    let curent_bin_size := index.binTypeSize_
    if curent_bin_size = kUint8BinsTypeSize ∨ curent_bin_size = kUint16BinsTypeSize ∨
        curent_bin_size = kUint32BinsTypeSize then
      let r := SetIndexData curent_bin_size index.cells m2.hit_count p_fmat_device
        cut.cut_values_ cut.cut_ptrs_ m2.nbins m2.row_stride offsets
      some { row_ptr := m2.row_ptr,
             index := { data_size := index.data_size, cells := r.1, offset_ := index.offset_,
                        binTypeSize_ := index.binTypeSize_, p_ := index.p_ },
             hit_count := r.2, cut := m2.cut, max_num_bins := m2.max_num_bins,
             nbins := m2.nbins, nfeatures := m2.nfeatures, row_stride := m2.row_stride,
             isDense_ := m2.isDense_ }
    else none
  else
    let r := SetIndexData kUint32BinsTypeSize m2.index.cells m2.hit_count p_fmat_device
      cut.cut_values_ cut.cut_ptrs_ m2.nbins m2.row_stride none
    some { row_ptr := m2.row_ptr,
           index := { data_size := m2.index.data_size, cells := r.1,
                      offset_ := m2.index.offset_, binTypeSize_ := m2.index.binTypeSize_,
                      p_ := m2.index.p_ },
           hit_count := r.2, cut := m2.cut, max_num_bins := m2.max_num_bins,
           nbins := m2.nbins, nfeatures := m2.nfeatures, row_stride := m2.row_stride,
           isDense_ := m2.isDense_ }

/-- Embedding of `GetFeatureCounts(counts)`. -/
def GetFeatureCounts (m : GHistIndexMatrix) (counts : List Nat) : List Nat :=
  let nfeature := m.cut.cut_ptrs_.length - 1
  forLoop 0 nfeature (fun fid counts =>
    let ibegin := m.cut.cut_ptrs_.getD fid 0
    let iend := m.cut.cut_ptrs_.getD (fid + 1) 0
    forLoop ibegin iend (fun i counts =>
      counts.set fid (counts.getD fid 0 + m.hit_count.getD i 0)) counts) counts


/-! ## Notions used in the statements -/

/-- The entries of row `i` of the CSR input. -/
def rowEntries (dmat : DeviceMatrix) (i : Nat) : List Entry :=
  (dmat.data.drop (dmat.row_ptr.getD i 0)).take
    (dmat.row_ptr.getD (i + 1) 0 - dmat.row_ptr.getD i 0)

/-- All non-missing entries of the CSR input, `data[row_ptr[0] .. row_ptr[nrows])`. -/
def allEntries (dmat : DeviceMatrix) : List Entry :=
  (dmat.data.drop (dmat.row_ptr.getD 0 0)).take
    (dmat.row_ptr.getD (dmat.row_ptr.length - 1) 0 - dmat.row_ptr.getD 0 0)

/-- The row pointer is non-decreasing and stays within the entry array. -/
def RowPtrValid (dmat : DeviceMatrix) : Prop :=
  0 < dmat.row_ptr.length ∧
  (∀ i, i + 1 < dmat.row_ptr.length → dmat.row_ptr.getD i 0 ≤ dmat.row_ptr.getD (i + 1) 0) ∧
  dmat.row_ptr.getD (dmat.row_ptr.length - 1) 0 ≤ dmat.data.length

/-- The number of entries of row `i`, `size = iend - ibegin`. -/
def rowSize (dmat : DeviceMatrix) (i : Nat) : Nat :=
  dmat.row_ptr.getD (i + 1) 0 - dmat.row_ptr.getD i 0

/-- The atomic increment `atomic_fetch_add(hit_count_acc[idx], 1)` as a function. -/
def hitAdd (hit_count : List Nat) (idx : Nat) : List Nat :=
  hit_count.set idx (hit_count.getD idx 0 + 1)

/-- The sum of a list of counters. -/
def sumList (l : List Nat) : Nat := l.foldl (· + ·) 0

/-- The sum `hit_count[lo] + ... + hit_count[hi - 1]`. -/
def binRangeSum (hit_count : List Nat) (lo hi : Nat) : Nat :=
  forLoop lo hi (fun i acc => acc + hit_count.getD i 0) 0

/-! ## Functional form of one merge pass (used to state what `mergeSort` computes) -/

/-- One pass of `mergeSort` on lists: consecutive chunks of `block_len` elements are
merged pairwise with `List.merge`; a final chunk without a right neighbour is kept. -/
def mergeChunks {α : Type} (lt : α → α → Bool) (block_len : Nat) : Nat → List α → List α
  | 0, l => l
  | fuel + 1, l =>
    if block_len < l.length then
      List.merge (l.take block_len) ((l.drop block_len).take block_len) lt ++
        mergeChunks lt block_len fuel (l.drop (2 * block_len))
    else l

/-- Lists made of sorted chunks of `block_len` elements (the last one possibly
shorter). -/
inductive ChunkSorted {α : Type} (r : α → α → Prop) (block_len : Nat) : List α → Prop
  | last (l : List α) : l.length ≤ block_len → l.Pairwise r → ChunkSorted r block_len l
  | cons (c rest : List α) : c.length = block_len → c.Pairwise r → rest ≠ [] →
      ChunkSorted r block_len rest → ChunkSorted r block_len (c ++ rest)


/-! ## Histogram building -/

/-- The iterations of a strided loop `for (i = lo; i < hi; i += step)`, for
`step ≥ 1`. (A work item with `step = 0` does not exist: the `nd_range` is then
empty.) -/
def strideList (lo hi step : Nat) : List Nat :=
  (List.range ((hi - lo + step - 1) / step)).map (fun t => lo + t * step)

/-- A strided loop `for (i = lo; i < hi; i += step) body`, threading the state. -/
def forStride {σ : Type} (lo hi step : Nat) (body : Nat → σ → σ) (s : σ) : σ :=
  (strideList lo hi step).foldl (fun st i => body i st) s

/-- The update `buf[k] += v` on an array of floating-point accumulators, in exact
arithmetic. -/
def addAt (buf : List ℚ) (k : Nat) (v : ℚ) : List ℚ :=
  buf.set k (buf.getD k 0 + v)

/-- The number of blocks of both build kernels,
`std::min(max_nblocks, size / min_block_size + !!(size % min_block_size))` with
`max_nblocks = hist_buffer.Size() / (nbins * two)` and `min_block_size = 128`;
`hist_buffer_size` counts gradient pairs. -/
def numBlocks (hist_buffer_size nbins size : Nat) : Nat :=
  min (hist_buffer_size / (nbins * 2)) (size / 128 + (if size % 128 ≠ 0 then 1 else 0))

/-- The scatter phase of work group `block` of `BuildHistDenseKernel`: its work
items `feat < feat_local` first zero the private region of the block, and after
the barrier add the gradient pairs of the rows `block, block + nblocks, ...`, each
work item for the features `feat, feat + feat_local, ...`. The work items of a
group touch disjoint accumulators (bins of the features they own), so they are run
one after the other. -/
def BuildHistDenseKernel.scatter (pgh : List ℚ) (rid : List Nat)
    (gradient_index offsets : List Nat) (nbins n_features feat_local nblocks block : Nat)
    (hist_buffer_data : List ℚ) : List ℚ :=
  let size := rid.length
  let hist_local := block * nbins * 2
  let zeroed := forLoop 0 feat_local (fun feat buf =>
    forStride feat (2 * nbins) feat_local (fun j buf => buf.set (hist_local + j) 0) buf)
    hist_buffer_data
  forLoop 0 feat_local (fun feat buf =>
    forStride block size nblocks (fun i buf =>
      let icol_start := n_features * rid.getD i 0
      let idx_gh := 2 * rid.getD i 0
      forStride feat n_features feat_local (fun j buf =>
        let idx_bin := (2 * ((gradient_index.getD (icol_start + j) 0 + offsets.getD j 0) % u32))
          % u32
        addAt (addAt buf (hist_local + idx_bin) (pgh.getD idx_gh 0))
          (hist_local + (idx_bin + 1)) (pgh.getD (idx_gh + 1) 0)) buf) buf) zeroed

/-- The reduction phase shared by both build kernels: for every bin the per-block
partial sums are added up and written to the destination row. -/
def BuildHist.reduce (nbins nblocks : Nat) (hist_buffer_data hist_data : List ℚ) : List ℚ :=
  forLoop 0 nbins (fun i hist_data =>
    let idx_bin := 2 * i
    let gsum := forLoop 0 nblocks (fun j gsum =>
      gsum + hist_buffer_data.getD (j * nbins * 2 + idx_bin) 0) 0
    let hsum := forLoop 0 nblocks (fun j hsum =>
      hsum + hist_buffer_data.getD (j * nbins * 2 + idx_bin + 1) 0) 0
    (hist_data.set idx_bin gsum).set (idx_bin + 1) hsum) hist_data

/-- The two kernels that `BuildHistDenseKernel<FPType, BinIdxType>` submits once the
host has computed the block count, in exact arithmetic, on the pair
`(hist, hist_buffer)` of flat accumulator arrays (two per bin). `pgh` is the flat
array of gradient pairs, `rid` the row ids of the node, `gradient_index` the cells
of the index, `max_feat_local` the device's maximal work-group size. With
`blocks_local = 1` the adjustment `if (nblocks % blocks_local != 0)` never fires. -/
def BuildHistDenseKernel.kernels (pgh : List ℚ) (rid : List Nat) (gradient_index offsets : List Nat)
    (nbins n_features max_feat_local : Nat) (hist hist_buffer : List ℚ) :
    List ℚ × List ℚ :=
  let size := rid.length
  let nblocks := numBlocks (hist_buffer.length / 2) nbins size
  let feat_local := if n_features < max_feat_local then n_features else max_feat_local
  let hist_buffer1 := forLoop 0 nblocks
    (BuildHistDenseKernel.scatter pgh rid gradient_index offsets nbins n_features feat_local
      nblocks) hist_buffer
  (BuildHist.reduce nbins nblocks hist_buffer1 hist, hist_buffer1)

/-- Embedding of `BuildHistDenseKernel<FPType, BinIdxType>`. Before it submits its
kernels the host computes `max_nblocks = hist_buffer.Size() / (nbins * two)` and
`block_size = size / nblocks + !!(size % nblocks)`; `none` is an integer division
by zero in one of the two. -/
def BuildHistDenseKernel (pgh : List ℚ) (rid : List Nat) (gradient_index offsets : List Nat)
    (nbins n_features max_feat_local : Nat) (hist hist_buffer : List ℚ) :
    Option (List ℚ × List ℚ) :=
  let size := rid.length
  if nbins * 2 = 0 then none
  else
    let nblocks := numBlocks (hist_buffer.length / 2) nbins size
    if nblocks = 0 then none
    else
      some (BuildHistDenseKernel.kernels pgh rid gradient_index offsets nbins n_features
        max_feat_local hist hist_buffer)

/-- The global bin `stored_index[nfeatures * rid[i] + j] + offsets[j]` of feature `j`
in the row at subset position `i`. -/
def denseBin (rid gradient_index offsets : List Nat) (n_features i j : Nat) : Nat :=
  gradient_index.getD (n_features * rid.getD i 0 + j) 0 + offsets.getD j 0

/-- The offsets into the private region that the work items of a group zero. -/
def zeroList (nbins feat_local : Nat) : List Nat :=
  (List.range' 0 feat_local).flatMap (fun feat => strideList feat (2 * nbins) feat_local)

/-- The accumulator updates `(address, value)` of work group `block` of the dense
kernel, in the order in which the work items are run. -/
def denseOps (pgh : List ℚ) (rid gradient_index offsets : List Nat)
    (nbins n_features feat_local nblocks block : Nat) : List (Nat × ℚ) :=
  (List.range' 0 feat_local).flatMap (fun feat =>
    (strideList block rid.length nblocks).flatMap (fun i =>
      (strideList feat n_features feat_local).flatMap (fun j =>
        [(block * nbins * 2 +
            (2 * ((gradient_index.getD (n_features * rid.getD i 0 + j) 0 + offsets.getD j 0)
              % u32)) % u32,
          pgh.getD (2 * rid.getD i 0) 0),
         (block * nbins * 2 +
            ((2 * ((gradient_index.getD (n_features * rid.getD i 0 + j) 0 + offsets.getD j 0)
              % u32)) % u32 + 1),
          pgh.getD (2 * rid.getD i 0 + 1) 0)])))

/-- The zeroing kernel of `BuildHistSparseKernel`: work item `(i, j)` of the range
`(nblocks, nbins)` clears the two accumulators of bin `j` in the region of block
`i`. -/
def BuildHistSparseKernel.zero (nbins nblocks : Nat) (hist_buffer_data : List ℚ) : List ℚ :=
  forLoop 0 nblocks (fun i buf =>
    forLoop 0 nbins (fun j buf =>
      (buf.set (2 * (i * nbins + j)) 0).set (2 * (i * nbins + j) + 1) 0) buf) hist_buffer_data

/-- The scatter phase of work group `block` of `BuildHistSparseKernel`: the group
owns the rows at the positions `[block * block_size, min((block + 1) * block_size,
size))` of the subset, and work item `col_id` adds, for each of them, the gradient
pair to the bins stored in the slots `col_id, col_id + feat_local, ...` of the row,
skipping the slots whose value is not below `nbins` (the padding). The barrier at
each row keeps the work items of a group on the same row, and the bins of one row
differ from slot to slot, so the work items are run one after the other. -/
def BuildHistSparseKernel.scatter (pgh : List ℚ) (rid : List Nat) (gradient_index : List Nat)
    (nbins row_stride feat_local block_size block : Nat) (hist_buffer_data : List ℚ) :
    List ℚ :=
  let size := rid.length
  let start := block * block_size
  let end_ := if (block + 1) * block_size > size then size else (block + 1) * block_size
  let hist_local := block * nbins * 2
  forLoop 0 feat_local (fun col_id buf =>
    forLoop start end_ (fun i buf =>
      let icol_start := row_stride * rid.getD i 0
      let idx_gh := 2 * rid.getD i 0
      forStride col_id row_stride feat_local (fun j buf =>
        let idx_bin := gradient_index.getD (icol_start + j) 0
        if idx_bin < nbins then
          let idx_bin2 := (idx_bin * 2) % u32
          addAt (addAt buf (hist_local + idx_bin2) (pgh.getD idx_gh 0))
            (hist_local + (idx_bin2 + 1)) (pgh.getD (idx_gh + 1) 0)
        else buf) buf) buf) hist_buffer_data

/-- The three kernels that `BuildHistSparseKernel<FPType>` submits once the host has
computed the block count and the block size, in exact arithmetic, on the pair
`(hist, hist_buffer)` of flat accumulator arrays. `gradient_index` is the index
read as `uint32_t` cells, `row_stride` the slots per row. A group of no work item
(`feat_local = 0`) adds nothing. -/
def BuildHistSparseKernel.kernels (pgh : List ℚ) (rid : List Nat) (gradient_index : List Nat)
    (nbins row_stride max_feat_local : Nat) (hist hist_buffer : List ℚ) : List ℚ × List ℚ :=
  let size := rid.length
  let nblocks := numBlocks (hist_buffer.length / 2) nbins size
  let block_size := size / nblocks + (if size % nblocks ≠ 0 then 1 else 0)
  let hist_buffer0 := BuildHistSparseKernel.zero nbins nblocks hist_buffer
  let feat_local := if row_stride < max_feat_local then row_stride else max_feat_local
  let hist_buffer1 := forLoop 0 nblocks
    (BuildHistSparseKernel.scatter pgh rid gradient_index nbins row_stride feat_local
      block_size) hist_buffer0
  (BuildHist.reduce nbins nblocks hist_buffer1 hist, hist_buffer1)

/-- Embedding of `BuildHistSparseKernel<FPType>`. Before it submits its kernels the
host computes `max_nblocks = hist_buffer.Size() / (nbins * two)` and
`block_size = size / nblocks + !!(size % nblocks)`; `none` is an integer division
by zero in one of the two. -/
def BuildHistSparseKernel (pgh : List ℚ) (rid : List Nat) (gradient_index : List Nat)
    (nbins row_stride max_feat_local : Nat) (hist hist_buffer : List ℚ) :
    Option (List ℚ × List ℚ) :=
  let size := rid.length
  if nbins * 2 = 0 then none
  else
    let nblocks := numBlocks (hist_buffer.length / 2) nbins size
    if nblocks = 0 then none
    else
      some (BuildHistSparseKernel.kernels pgh rid gradient_index nbins row_stride
        max_feat_local hist hist_buffer)

/-- Embedding of `BuildHistDispatchKernel<FPType, BinIdxType>`. -/
def BuildHistDispatchKernel (pgh : List ℚ) (rid : List Nat) (gmat : GHistIndexMatrix)
    (isDense : Bool) (max_feat_local : Nat) (hist hist_buffer : List ℚ) :
    Option (List ℚ × List ℚ) :=
  if isDense = true then
    BuildHistDenseKernel pgh rid gmat.index.cells gmat.index.offset_ gmat.nbins gmat.nfeatures
      max_feat_local hist hist_buffer
  else
    BuildHistSparseKernel pgh rid gmat.index.cells gmat.nbins gmat.row_stride max_feat_local
      hist hist_buffer

/-- Embedding of `BuildHistKernel<FPType>`: the switch on the cell width; `none` is
the `CHECK(false)` of its default branch, or the failure of the kernel function
called. -/
def BuildHistKernel (pgh : List ℚ) (rid : List Nat) (gmat : GHistIndexMatrix)
    (isDense : Bool) (max_feat_local : Nat) (hist hist_buffer : List ℚ) :
    Option (List ℚ × List ℚ) :=
  if gmat.index.binTypeSize_ = kUint8BinsTypeSize then
    BuildHistDispatchKernel pgh rid gmat isDense max_feat_local hist hist_buffer
  else if gmat.index.binTypeSize_ = kUint16BinsTypeSize then
    BuildHistDispatchKernel pgh rid gmat isDense max_feat_local hist hist_buffer
  else if gmat.index.binTypeSize_ = kUint32BinsTypeSize then
    BuildHistDispatchKernel pgh rid gmat isDense max_feat_local hist hist_buffer
  else none

/-- Embedding of `GHistBuilderOneAPI<GradientSumT>::BuildHist`. The result is the
pair `(hist, hist_buffer)` after the call, `none` when the call does not return
normally. -/
def BuildHist (pgh : List ℚ) (rid : List Nat) (gmat : GHistIndexMatrix) (isDense : Bool)
    (max_feat_local : Nat) (hist hist_buffer : List ℚ) : Option (List ℚ × List ℚ) :=
  BuildHistKernel pgh rid gmat isDense max_feat_local hist hist_buffer

/-! ## Histogram rows and the subtraction trick -/

/-- Outcome of a routine guarded by fatal checks (`CHECK_EQ`): it runs to completion
and leaves the state `s`, or a check fails while the state is `s`. -/
inductive Checked (σ : Type) where
  | ok (s : σ)
  | fatal (s : σ)
deriving DecidableEq, Repr

/-- `GHistRow::Size()`, the number of gradient pairs of a histogram row; a row is
kept as the flat array of its floating-point values, two per pair, the view that
`reinterpret_cast<GradientSumT*>(row.Data())` gives. -/
def GHistRow.Size (row : List ℚ) : Nat := row.length / 2

/-- Embedding of `SubtractionHist(qu, dst, src1, src2, size)`. The three references
are positions in the collection `rows` of histogram rows, so that they may alias.
Work item `i` reads and writes position `i` only. -/
def SubtractionHist (rows : List (List ℚ)) (dst src1 src2 size : Nat) : List (List ℚ) :=
  forLoop 0 (2 * size) (fun i rows =>
    rows.set dst ((rows.getD dst []).set i
      ((rows.getD src1 []).getD i 0 - (rows.getD src2 []).getD i 0))) rows

/-- Embedding of `GHistBuilderOneAPI<GradientSumT>::SubtractionTrick(self, sibling,
parent)`. -/
def SubtractionTrick (rows : List (List ℚ)) (self sibling parent : Nat) :
    Checked (List (List ℚ)) :=
  let size := GHistRow.Size (rows.getD self [])
  if GHistRow.Size (rows.getD sibling []) ≠ size then Checked.fatal rows
  else if GHistRow.Size (rows.getD parent []) ≠ size then Checked.fatal rows
  else Checked.ok (SubtractionHist rows self parent sibling size)

/-- Stability of a sort with strict order `lt`, in the spec's words: elements that
compare equal (neither is less than the other) keep the relative order they have
in the input. -/
def StableFor {α : Type} (lt : α → α → Bool) (input output : List α) : Prop :=
  ∀ x, output.filter (fun y => !lt x y && !lt y x) = input.filter (fun y => !lt x y && !lt y x)

/-- The accumulator updates `(address, value)` of work group `block` of the sparse
kernel, in the order in which the work items are run. -/
def sparseOps (pgh : List ℚ) (rid gradient_index : List Nat)
    (nbins row_stride feat_local block_size block : Nat) : List (Nat × ℚ) :=
  (List.range' 0 feat_local).flatMap (fun col_id =>
    (List.range' (block * block_size)
      ((if (block + 1) * block_size > rid.length then rid.length
        else (block + 1) * block_size) - block * block_size)).flatMap (fun i =>
      (strideList col_id row_stride feat_local).flatMap (fun j =>
        if gradient_index.getD (row_stride * rid.getD i 0 + j) 0 < nbins then
          [(block * nbins * 2 +
              (gradient_index.getD (row_stride * rid.getD i 0 + j) 0 * 2) % u32,
            pgh.getD (2 * rid.getD i 0) 0),
           (block * nbins * 2 +
              ((gradient_index.getD (row_stride * rid.getD i 0 + j) 0 * 2) % u32 + 1),
            pgh.getD (2 * rid.getD i 0 + 1) 0)]
        else [])))

/-- What row `r` adds to channel `ch` (`0` the gradient, `1` the hessian) of bin `b`
on the dense path: its value once per feature whose decoded bin is `b`. -/
def denseRowTerm (pgh : List ℚ) (gradient_index offsets : List Nat) (n_features b ch r : Nat) :
    ℚ :=
  ((List.range n_features).map (fun j =>
    if gradient_index.getD (n_features * r + j) 0 + offsets.getD j 0 = b
      then pgh.getD (2 * r + ch) 0 else 0)).sum

/-- What row `r` adds to channel `ch` of bin `b` on the sparse path: its value once
per slot of the row that holds `b`. -/
def sparseRowTerm (pgh : List ℚ) (gradient_index : List Nat) (row_stride b ch r : Nat) : ℚ :=
  ((List.range row_stride).map (fun j =>
    if gradient_index.getD (row_stride * r + j) 0 = b then pgh.getD (2 * r + ch) 0 else 0)).sum

/-- The value of channel `ch` of bin `b` of the histogram of the rows `rid`: the sum
of what each listed row adds. -/
def histValue (pgh : List ℚ) (gmat : GHistIndexMatrix) (isDense : Bool) (rid : List Nat)
    (b ch : Nat) : ℚ :=
  (rid.map (fun r =>
    if isDense = true then
      denseRowTerm pgh gmat.index.cells gmat.index.offset_ gmat.nfeatures b ch r
    else sparseRowTerm pgh gmat.index.cells gmat.row_stride b ch r)).sum

/-- The conditions on a matrix and a row subset under which `BuildHist` stays within
its arrays: a cell width of 1, 2 or 4 bytes, at least one bin, `2 * nbins` within
`uint32_t`, and on the dense path at least one feature and every decoded bin of the
listed rows below `nbins`. -/
def BuildValid (gmat : GHistIndexMatrix) (isDense : Bool) (rid : List Nat) : Prop :=
  (gmat.index.binTypeSize_ = kUint8BinsTypeSize ∨ gmat.index.binTypeSize_ = kUint16BinsTypeSize ∨
    gmat.index.binTypeSize_ = kUint32BinsTypeSize) ∧
  0 < gmat.nbins ∧ 2 * gmat.nbins ≤ u32 ∧
  (isDense = true → 0 < gmat.nfeatures ∧ ∀ r ∈ rid, ∀ j, j < gmat.nfeatures →
    gmat.index.cells.getD (gmat.nfeatures * r + j) 0 + gmat.index.offset_.getD j 0 < gmat.nbins)

/-- Embedding of `ParallelGHistBuilder::Reset(nblocks)`: the scratch buffer is resized
to `nblocks * nbins_ * 2` gradient pairs, two floating-point values each. Only the
size matters to the build kernels, which clear what they read; the resize is taken
to keep the leading elements, as `std::vector::resize` does. -/
def ParallelGHistBuilder.Reset (nbins_ : Nat) (hist_device_buffer_ : List ℚ) (nblocks : Nat) :
    List ℚ :=
  vecResize hist_device_buffer_ (2 * (nblocks * nbins_ * 2)) 0

/-- The accumulator index `a` lies in the private region of block `k`,
`[k * 2 * nbins, (k + 1) * 2 * nbins)`, and within a scratch buffer of `len`
floating-point values. -/
def InBlockRegion (nbins len k a : Nat) : Prop :=
  k * (2 * nbins) ≤ a ∧ a < (k + 1) * (2 * nbins) ∧ a < len

/-! ## The collection of histogram rows -/

/-- Embedding of `HistCollection`: the bin count and the rows, each row the flat array
of its floating-point values. -/
structure HistCollection where
  nbins_ : Nat := 0
  data_ : List (List ℚ) := []

/-- Modelled from the spec: `USMVector::ResizeAsync(qu, size_new, v)`, whose code is
not among the sources. The spec says that a row is created "zero-filled, length
`nbins`" on first access; accordingly the vector gets `size_new` gradient pairs,
those it did not hold before being `v`. -/
def USMVector.ResizeAsync (row : List ℚ) (size_new : Nat) (v : ℚ × ℚ) : List ℚ :=
  row.take (2 * size_new) ++
    (List.replicate (size_new - row.length / 2) [v.1, v.2]).flatten

/-- Embedding of `HistCollection::Init(qu, nbins)`. -/
def HistCollection.Init (hc : HistCollection) (nbins : Nat) : HistCollection :=
  if hc.nbins_ ≠ nbins then { nbins_ := nbins, data_ := [] } else hc

/-- `HistCollection::operator[](nid)`. -/
def HistCollection.get (hc : HistCollection) (nid : Nat) : List ℚ :=
  hc.data_.getD nid []

/-- Embedding of `HistCollection::AddHistRow(nid)`. The node id is a `bst_uint`, so
`nid + 1` is computed in `uint32_t`. -/
def HistCollection.AddHistRow (hc : HistCollection) (nid : Nat) : HistCollection :=
  let data1 := if nid ≥ hc.data_.length then vecResize hc.data_ ((nid + 1) % u32) [] else hc.data_
  { nbins_ := hc.nbins_,
    data_ := data1.set nid (USMVector.ResizeAsync (data1.getD nid []) hc.nbins_ (0, 0)) }

/-! ## `mergeSort` with checked accesses -/

/-- The `while` loop of `mergeSort` (see `mergeLoop`) with every access checked:
`none` when `begin` or `buf` is read or written at an index that is not below
`total_len`, or when the loop has not ended within the bound on its iterations.
The comparison reads `begin[left_pos]` and `begin[right_pos]` only when
`left_pos < mid` and `right_pos != finish`. -/
def mergeLoopChecked {α : Type} [Inhabited α] (lt : α → α → Bool) (total_len : Nat)
    (a : List α) (mid finish : Nat) : Nat → Nat → Nat → Nat → List α → Option (List α)
  | 0, left_pos, right_pos, _, buf =>
    if left_pos < mid ∨ right_pos < finish then none else some buf
  | fuel + 1, left_pos, right_pos, pos, buf =>
    if left_pos < mid ∨ right_pos < finish then
      if (left_pos < mid ∧ right_pos ≠ finish) ∧ ¬ (left_pos < total_len ∧ right_pos < total_len)
      then none
      else if left_pos < mid ∧
          (right_pos = finish ∨ lt (a.getD left_pos default) (a.getD right_pos default) = true) then
        if left_pos < total_len ∧ pos < total_len then
          mergeLoopChecked lt total_len a mid finish fuel (left_pos + 1) right_pos (pos + 1)
            (buf.set pos (a.getD left_pos default))
        else none
      else
        if right_pos < total_len ∧ pos < total_len then
          mergeLoopChecked lt total_len a mid finish fuel left_pos (right_pos + 1) (pos + 1)
            (buf.set pos (a.getD right_pos default))
        else none
    else some buf

/-- The loop `for (i = start; i < finish; i++) begin[i] = buf[i]` of `mergeSort` with
every access checked against `total_len`. -/
def copyBackChecked {α : Type} [Inhabited α] (total_len start finish : Nat) (a buf : List α) :
    Option (List α) :=
  forLoop start finish (fun i st =>
    match st with
    | none => none
    | some a => if i < total_len then some (a.set i (buf.getD i default)) else none) (some a)

/-- The loop over the blocks of `mergeSort` (see `mergeBlocks`) with every access
checked; `none` also when the loop has not ended within the bound on its
iterations. -/
def mergeBlocksChecked {α : Type} [Inhabited α] (lt : α → α → Bool) (total_len block_len : Nat) :
    Nat → Nat → List α × List α → Option (List α × List α)
  | 0, cur_block, s => if cur_block + block_len < total_len then none else some s
  | fuel + 1, cur_block, s =>
    if cur_block + block_len < total_len then
      let start := cur_block
      let mid := start + block_len
      let finish := if mid + block_len < total_len then mid + block_len else total_len
      match mergeLoopChecked lt total_len s.1 mid finish (finish - start) start mid start s.2 with
      | none => none
      | some buf =>
        match copyBackChecked total_len start finish s.1 buf with
        | none => none
        | some a =>
          mergeBlocksChecked lt total_len block_len fuel (cur_block + 2 * block_len) (a, buf)
    else some s

/-- The loop over the block lengths of `mergeSort` (see `mergePasses`) with every
access checked; `none` also when the loop has not ended within the bound on its
iterations. -/
def mergePassesChecked {α : Type} [Inhabited α] (lt : α → α → Bool) (total_len : Nat) :
    Nat → Nat → List α × List α → Option (List α × List α)
  | 0, block_len, s => if block_len < total_len then none else some s
  | fuel + 1, block_len, s =>
    if block_len < total_len then
      match mergeBlocksChecked lt total_len block_len total_len 0 s with
      | none => none
      | some s1 => mergePassesChecked lt total_len fuel (block_len * 2) s1
    else some s

/-- Embedding of `mergeSort(begin, end, buf)` with every access to `begin` and `buf`
checked against `[0, end - begin)` and every loop checked against its iteration
bound: the result is `some` of the final content when the call ends without an
access outside the range. -/
def mergeSortChecked {α : Type} [Inhabited α] (lt : α → α → Bool) (a buf : List α) :
    Option (List α × List α) :=
  mergePassesChecked lt a.length a.length 1 (a, buf)

/-! ## Small inputs on which the theorems are instantiated -/

/-- Two features, with cuts `[1, 2]` and `[5]`. -/
def exampleCuts : HistogramCuts := ⟨[1, 2, 5], [0, 2, 3], [0, 4]⟩

/-- Four sparse rows: `[(f0,0),(f1,6)]`, `[(f0,2)]`, `[(f1,4),(f0,3)]`, `[]`. -/
def exampleSparse : DeviceMatrix :=
  ⟨[⟨0, 0⟩, ⟨1, 6⟩, ⟨0, 2⟩, ⟨1, 4⟩, ⟨0, 3⟩], [0, 2, 3, 5, 5], 2, false⟩

/-- Three dense rows over the two features. -/
def exampleDense : DeviceMatrix :=
  ⟨[⟨0, 0⟩, ⟨1, 6⟩, ⟨0, 2⟩, ⟨1, 4⟩, ⟨0, 3⟩, ⟨1, 5⟩], [0, 2, 4, 6], 2, true⟩

/-- The input of the end-to-end scenario: the rows `[(f0, 0.5), (f1, 6.0)]`,
`[(f0, 1.5)]`, `[(f0, 2.5), (f1, 4.0)]`, `[]`. -/
def scenarioMatrix : DeviceMatrix :=
  ⟨[⟨0, Rat.mk' 1 2 (by decide) (by decide)⟩, ⟨1, 6⟩, ⟨0, Rat.mk' 3 2 (by decide) (by decide)⟩,
    ⟨0, Rat.mk' 5 2 (by decide) (by decide)⟩, ⟨1, 4⟩], [0, 2, 3, 5, 5], 2, false⟩

/-- The cuts of the end-to-end scenario, `f0: [1.0, 2.0]`, `f1: [5.0]`. -/
def scenarioCuts : HistogramCuts := ⟨[1, 2, 5], [0, 2, 3], [0, 4]⟩

/-- The gradient pairs `(1,1), (2,1), (3,1), (4,1)` of the end-to-end scenario, as
the flat array the kernels read. -/
def scenarioGpair : List ℚ := [1, 1, 2, 1, 3, 1, 4, 1]

/-- The matrix that `Init` builds from the end-to-end scenario with `max_bins = 256`:
three bins, two slots per row, the padding value `3`. -/
def scenarioBinned : GHistIndexMatrix :=
  { row_ptr := [0, 2, 3, 5, 5],
    index := { data_size := 32, cells := [0, 2, 1, 3, 1, 2, 3, 3], offset_ := [],
               binTypeSize_ := 4, p_ := 1 },
    hit_count := [1, 2, 2], cut := scenarioCuts, max_num_bins := 256, nbins := 3,
    nfeatures := 2, row_stride := 2, isDense_ := false }

/-- The matrix that `Init` builds from the dense example with `max_bins = 256`. -/
def exampleDenseBinned : GHistIndexMatrix :=
  { row_ptr := [0, 2, 4, 6],
    index := { data_size := 6, cells := [0, 0, 1, 0, 1, 0], offset_ := [0, 2],
               binTypeSize_ := 1, p_ := 2 },
    hit_count := [1, 2, 3], cut := exampleCuts, max_num_bins := 256, nbins := 3,
    nfeatures := 2, row_stride := 2, isDense_ := true }

/-! # Theorems -/

/-! ### Facts about the binary search -/

theorem upperBoundLoop_range (cv : List ℚ) (v : ℚ) :
    ∀ fuel first len, len ≤ fuel →
      first ≤ upperBoundLoop cv v fuel first len ∧
      upperBoundLoop cv v fuel first len ≤ first + len := by
  intro fuel
  induction fuel with
  | zero =>
    intro first len h
    simp [upperBoundLoop]
  | succ n ih =>
    intro first len h
    unfold upperBoundLoop
    by_cases hl : len = 0
    · simp [hl]
    · simp only [hl, if_false]
      have hhalf : len / 2 < len := Nat.div_lt_self (Nat.pos_of_ne_zero hl) (by decide)
      split
      · have := ih first (len / 2) (by omega)
        omega
      · have := ih (first + len / 2 + 1) (len - len / 2 - 1) (by omega)
        omega

theorem upperBoundLoop_sorted (cv : List ℚ) (v : ℚ) :
    ∀ fuel first len, len ≤ fuel → SliceSorted cv first (first + len) →
      (∀ i, first ≤ i → i < upperBoundLoop cv v fuel first len → cv.getD i 0 ≤ v) ∧
      (∀ i, upperBoundLoop cv v fuel first len ≤ i → i < first + len → v < cv.getD i 0) := by
  intro fuel
  induction fuel with
  | zero =>
    intro first len h _
    have : len = 0 := by omega
    subst this
    simp only [upperBoundLoop]
    exact ⟨fun i h1 h2 => by omega, fun i h1 h2 => by omega⟩
  | succ n ih =>
    intro first len h hs
    unfold upperBoundLoop
    by_cases hl : len = 0
    · simp only [hl, if_true]
      exact ⟨fun i h1 h2 => by omega, fun i h1 h2 => by omega⟩
    · simp only [hl, if_false]
      have hhalf : len / 2 < len := Nat.div_lt_self (Nat.pos_of_ne_zero hl) (by decide)
      split
      · rename_i hlt
        have hs1 : SliceSorted cv first (first + len / 2) :=
          fun i j h1 h2 h3 => hs i j h1 h2 (by omega)
        obtain ⟨ihl, ihr⟩ := ih first (len / 2) (by omega) hs1
        refine ⟨ihl, fun i h1 h2 => ?_⟩
        by_cases hi : i < first + len / 2
        · exact ihr i h1 hi
        · exact lt_of_lt_of_le hlt (hs _ i (by omega) (by omega) h2)
      · rename_i hge
        have hs1 : SliceSorted cv (first + len / 2 + 1)
            (first + len / 2 + 1 + (len - len / 2 - 1)) :=
          fun i j h1 h2 h3 => hs i j (by omega) h2 (by omega)
        obtain ⟨ihl, ihr⟩ := ih (first + len / 2 + 1) (len - len / 2 - 1) (by omega) hs1
        refine ⟨fun i h1 h2 => ?_, fun i h1 h2 => ihr i h1 (by omega)⟩
        by_cases hi : first + len / 2 + 1 ≤ i
        · exact ihl i hi h2
        · exact le_trans (hs i _ h1 (by omega) (by omega)) (not_lt.mp hge)

theorem upperBoundLoop_all_le (cv : List ℚ) (v : ℚ) :
    ∀ fuel first len, len ≤ fuel →
      (∀ i, first ≤ i → i < first + len → cv.getD i 0 ≤ v) →
      upperBoundLoop cv v fuel first len = first + len := by
  intro fuel
  induction fuel with
  | zero =>
    intro first len h _
    have : len = 0 := by omega
    subst this
    simp [upperBoundLoop]
  | succ n ih =>
    intro first len h hall
    unfold upperBoundLoop
    by_cases hl : len = 0
    · simp [hl]
    · simp only [hl, if_false]
      have hhalf : len / 2 < len := Nat.div_lt_self (Nat.pos_of_ne_zero hl) (by decide)
      have hmid : ¬ v < cv.getD (first + len / 2) 0 :=
        not_lt.mpr (hall _ (by omega) (by omega))
      simp only [hmid, if_false]
      rw [ih (first + len / 2 + 1) (len - len / 2 - 1) (by omega)
        (fun i h1 h2 => hall i (by omega) (by omega))]
      omega

theorem getD_lt_u32 {cut_ptrs : List Nat} (h : PtrsU32 cut_ptrs) {i : Nat}
    (hi : i < cut_ptrs.length) : cut_ptrs.getD i 0 < u32 := by
  apply h
  rw [List.getD_eq_getElem _ _ hi]
  exact List.getElem_mem hi

/-- With a non-empty slice the clamp of `SearchBin` never wraps: the result is the
upper-bound position, or the last position of the slice when the search ran off
the end. -/
theorem SearchBin_eq (cv : List ℚ) (cut_ptrs : List Nat) (e : Entry)
    (hu : cut_ptrs.getD (e.index + 1) 0 < u32)
    (hne : cut_ptrs.getD e.index 0 < cut_ptrs.getD (e.index + 1) 0) :
    SearchBin cv cut_ptrs e =
      if upper_bound cv (cut_ptrs.getD e.index 0) (cut_ptrs.getD (e.index + 1) 0) e.fvalue
          = cut_ptrs.getD (e.index + 1) 0
      then cut_ptrs.getD (e.index + 1) 0 - 1
      else upper_bound cv (cut_ptrs.getD e.index 0) (cut_ptrs.getD (e.index + 1) 0)
        e.fvalue := by
  have hr := upperBoundLoop_range cv e.fvalue
    (cut_ptrs.getD (e.index + 1) 0 - cut_ptrs.getD e.index 0) (cut_ptrs.getD e.index 0)
    (cut_ptrs.getD (e.index + 1) 0 - cut_ptrs.getD e.index 0) le_rfl
  unfold SearchBin
  simp only
  unfold upper_bound at *
  generalize upperBoundLoop cv e.fvalue _ _ _ = r at hr ⊢
  generalize cut_ptrs.getD (e.index + 1) 0 = hi at *
  generalize cut_ptrs.getD e.index 0 = lo at *
  have hrlt : r < u32 := by omega
  rw [Nat.mod_eq_of_lt hrlt]
  by_cases h : r = hi
  · simp only [h, if_true]
    rw [subU32, if_pos (by omega)]
  · simp only [h, if_false]

/-! ### Claims about `SearchBin` -/

/-- C1 (as stated, refuted): with cuts `[1, 2]` for a single feature and the value
`1`, equal to the first cut, `SearchBin` returns bin `1`, whose lower boundary
`cut_values[0] = 1` is not strictly below the value: the value equal to a cut is
not placed in the bin whose upper boundary is that cut. -/
theorem SearchBin_tie_counterexample :
    SlicesNonEmpty [0, 2] ∧ SliceSorted [1, 2] 0 2 ∧
    (∃ i, 0 ≤ i ∧ i < 2 ∧ (1 : ℚ) ≤ ([1, 2] : List ℚ).getD i 0) ∧
    SearchBin [1, 2] [0, 2] ⟨0, 1⟩ = 1 ∧
    ¬ ((1 : ℚ) ≤ ([1, 2] : List ℚ).getD (SearchBin [1, 2] [0, 2] ⟨0, 1⟩) 0 ∧
       (SearchBin [1, 2] [0, 2] ⟨0, 1⟩ ≠ 0 →
         ([1, 2] : List ℚ).getD (SearchBin [1, 2] [0, 2] ⟨0, 1⟩ - 1) 0 < 1)) := by
  have hb : SearchBin [1, 2] [0, 2] ⟨0, 1⟩ = 1 := by decide
  refine ⟨?_, ?_, ⟨0, le_rfl, by decide, by decide⟩, hb, ?_⟩
  · intro f hf
    have hf2 : f + 1 < 2 := hf
    have : f = 0 := by omega
    subst this
    decide
  · intro i j _ hij hj
    interval_cases j <;> interval_cases i <;> decide
  · rw [hb]
    intro h
    exact absurd (h.2 (by decide)) (by decide)

/-- C1 (amended): for a feature `f` with a non-empty slice sorted ascending and a
value `v` that does not exceed all cuts of `f`, the bin `b` returned by `SearchBin`
satisfies `v ≤ cut_values[b]`, strictly unless `b` is the last bin of the slice,
and, when `b` is not the first bin of the slice, `cut_values[b-1] ≤ v`: a value
equal to a cut falls in the bin whose lower boundary is that cut. -/
theorem SearchBin_bin_bounds (cv : List ℚ) (cut_ptrs : List Nat) (f : Nat) (v : ℚ)
    (hu : PtrsU32 cut_ptrs) (hf : f + 1 < cut_ptrs.length)
    (hne : cut_ptrs.getD f 0 < cut_ptrs.getD (f + 1) 0)
    (hs : SliceSorted cv (cut_ptrs.getD f 0) (cut_ptrs.getD (f + 1) 0))
    (hv : ∃ i, cut_ptrs.getD f 0 ≤ i ∧ i < cut_ptrs.getD (f + 1) 0 ∧ v ≤ cv.getD i 0) :
    v ≤ cv.getD (SearchBin cv cut_ptrs ⟨f, v⟩) 0 ∧
    (SearchBin cv cut_ptrs ⟨f, v⟩ + 1 < cut_ptrs.getD (f + 1) 0 →
      v < cv.getD (SearchBin cv cut_ptrs ⟨f, v⟩) 0) ∧
    (SearchBin cv cut_ptrs ⟨f, v⟩ ≠ cut_ptrs.getD f 0 →
      cv.getD (SearchBin cv cut_ptrs ⟨f, v⟩ - 1) 0 ≤ v) := by
  have hrange := upperBoundLoop_range cv v
    (cut_ptrs.getD (f + 1) 0 - cut_ptrs.getD f 0) (cut_ptrs.getD f 0)
    (cut_ptrs.getD (f + 1) 0 - cut_ptrs.getD f 0) le_rfl
  have hspec := upperBoundLoop_sorted cv v
    (cut_ptrs.getD (f + 1) 0 - cut_ptrs.getD f 0) (cut_ptrs.getD f 0)
    (cut_ptrs.getD (f + 1) 0 - cut_ptrs.getD f 0) le_rfl
    (by rw [Nat.add_sub_cancel' (le_of_lt hne)]; exact hs)
  rw [SearchBin_eq cv cut_ptrs ⟨f, v⟩ (getD_lt_u32 hu hf) hne]
  simp only
  unfold upper_bound
  generalize upperBoundLoop cv v _ _ _ = r at hrange hspec
  generalize cut_ptrs.getD (f + 1) 0 = hi at *
  generalize cut_ptrs.getD f 0 = lo at *
  rw [Nat.add_sub_cancel' (le_of_lt hne)] at hrange hspec
  obtain ⟨i, hi1, hi2, hi3⟩ := hv
  by_cases h : r = hi
  · simp only [h, if_true]
    subst h
    refine ⟨?_, fun hlt => by omega, fun hb => hspec.1 _ (by omega) (by omega)⟩
    exact le_trans hi3 (hs i _ hi1 (by omega) (by omega))
  · simp only [h, if_false]
    have hlt : r < hi := by omega
    exact ⟨le_of_lt (hspec.2 r le_rfl hlt), fun _ => hspec.2 r le_rfl hlt,
      fun hb => hspec.1 _ (by omega) (by omega)⟩

/-- Witness of `SearchBin_bin_bounds`: cuts `[1, 2]` of one feature, value `1`. -/
theorem SearchBin_bin_bounds_witness :
    (1 : ℚ) ≤ ([1, 2] : List ℚ).getD (SearchBin [1, 2] [0, 2] ⟨0, 1⟩) 0 ∧
    (SearchBin [1, 2] [0, 2] ⟨0, 1⟩ + 1 < ([0, 2] : List Nat).getD (0 + 1) 0 →
      (1 : ℚ) < ([1, 2] : List ℚ).getD (SearchBin [1, 2] [0, 2] ⟨0, 1⟩) 0) ∧
    (SearchBin [1, 2] [0, 2] ⟨0, 1⟩ ≠ ([0, 2] : List Nat).getD 0 0 →
      ([1, 2] : List ℚ).getD (SearchBin [1, 2] [0, 2] ⟨0, 1⟩ - 1) 0 ≤ 1) :=
  SearchBin_bin_bounds [1, 2] [0, 2] 0 1
    (by intro p hp; simp at hp; rcases hp with rfl | rfl <;> decide)
    (by decide) (by decide)
    (by
      intro i j _ hij hj
      have hj2 : j < 2 := hj
      interval_cases j <;> interval_cases i <;> decide)
    ⟨0, by decide, by decide, by decide⟩

/-- The bin of an entry lies in the slice of its feature, hence below `nbins`. -/
theorem searchBin_range (cv : List ℚ) (cut_ptrs : List Nat) (f : Nat) (v : ℚ)
    (hu : PtrsU32 cut_ptrs) (hm : PtrsMonotone cut_ptrs) (hne : SlicesNonEmpty cut_ptrs)
    (hf : f + 1 < cut_ptrs.length) :
    cut_ptrs.getD f 0 ≤ SearchBin cv cut_ptrs ⟨f, v⟩ ∧
    SearchBin cv cut_ptrs ⟨f, v⟩ < cut_ptrs.getD (f + 1) 0 ∧
    SearchBin cv cut_ptrs ⟨f, v⟩ < totalBins cut_ptrs := by
  have hlt := hne f hf
  have hlast : cut_ptrs.getD (f + 1) 0 ≤ totalBins cut_ptrs :=
    hm (f + 1) (cut_ptrs.length - 1) (by omega) (by omega)
  have hrange := upperBoundLoop_range cv v
    (cut_ptrs.getD (f + 1) 0 - cut_ptrs.getD f 0) (cut_ptrs.getD f 0)
    (cut_ptrs.getD (f + 1) 0 - cut_ptrs.getD f 0) le_rfl
  rw [SearchBin_eq cv cut_ptrs ⟨f, v⟩ (getD_lt_u32 hu hf) hlt]
  simp only
  unfold upper_bound
  generalize upperBoundLoop cv v _ _ _ = r at hrange
  split <;> omega

/-- C2: with monotone `cut_ptrs` (entries of type `uint32_t`) and non-empty feature
slices, for every feature `f < nfeatures` and every value `v`, `SearchBin` returns
a bin `b` with `cut_ptrs[f] ≤ b < cut_ptrs[f+1]`, and `b < nbins =
cut_ptrs[nfeatures]`: a real bin never equals the padding sentinel. -/
theorem SearchBin_in_feature_range (cv : List ℚ) (cut_ptrs : List Nat) (f : Nat) (v : ℚ)
    (hu : PtrsU32 cut_ptrs) (hm : PtrsMonotone cut_ptrs) (hne : SlicesNonEmpty cut_ptrs)
    (hf : f + 1 < cut_ptrs.length) :
    cut_ptrs.getD f 0 ≤ SearchBin cv cut_ptrs ⟨f, v⟩ ∧
    SearchBin cv cut_ptrs ⟨f, v⟩ < cut_ptrs.getD (f + 1) 0 ∧
    SearchBin cv cut_ptrs ⟨f, v⟩ < totalBins cut_ptrs :=
  searchBin_range cv cut_ptrs f v hu hm hne hf

/-- Witness of `SearchBin_in_feature_range`: two features with cuts `[1, 2]` and
`[5]`, the value `6` on feature `1`. -/
theorem SearchBin_in_feature_range_witness :
    ([0, 2, 3] : List Nat).getD 1 0 ≤ SearchBin [1, 2, 5] [0, 2, 3] ⟨1, 6⟩ ∧
    SearchBin [1, 2, 5] [0, 2, 3] ⟨1, 6⟩ < ([0, 2, 3] : List Nat).getD (1 + 1) 0 ∧
    SearchBin [1, 2, 5] [0, 2, 3] ⟨1, 6⟩ < totalBins [0, 2, 3] :=
  SearchBin_in_feature_range [1, 2, 5] [0, 2, 3] 1 6
    (by intro p hp; simp at hp; rcases hp with rfl | rfl | rfl <;> decide)
    (by
      intro i j hij hj
      have hj3 : j < 3 := hj
      interval_cases j <;> interval_cases i <;> decide)
    (by
      intro f hf
      have hf3 : f + 1 < 3 := hf
      have hf2 : f < 2 := by omega
      interval_cases f <;> decide)
    (by decide)

/-- C3: for a feature `f` with a non-empty slice and a value `v` greater than
every cut value of `f`, `SearchBin` returns the last bin of the slice,
`cut_ptrs[f+1] - 1` (sortedness of the slice is not needed). -/
theorem SearchBin_above_all_cuts (cv : List ℚ) (cut_ptrs : List Nat) (f : Nat) (v : ℚ)
    (hu : PtrsU32 cut_ptrs) (hf : f + 1 < cut_ptrs.length)
    (hne : cut_ptrs.getD f 0 < cut_ptrs.getD (f + 1) 0)
    (hv : ∀ i, cut_ptrs.getD f 0 ≤ i → i < cut_ptrs.getD (f + 1) 0 → cv.getD i 0 < v) :
    SearchBin cv cut_ptrs ⟨f, v⟩ = cut_ptrs.getD (f + 1) 0 - 1 := by
  have hall := upperBoundLoop_all_le cv v
    (cut_ptrs.getD (f + 1) 0 - cut_ptrs.getD f 0) (cut_ptrs.getD f 0)
    (cut_ptrs.getD (f + 1) 0 - cut_ptrs.getD f 0) le_rfl
    (fun i h1 h2 => le_of_lt (hv i h1 (by omega)))
  rw [SearchBin_eq cv cut_ptrs ⟨f, v⟩ (getD_lt_u32 hu hf) hne]
  simp only
  unfold upper_bound
  rw [hall, Nat.add_sub_cancel' (le_of_lt hne)]
  simp

/-- Witness of `SearchBin_above_all_cuts`: cuts `[1, 2]`, value `5`. -/
theorem SearchBin_above_all_cuts_witness :
    SearchBin [1, 2] [0, 2] ⟨0, 5⟩ = ([0, 2] : List Nat).getD (0 + 1) 0 - 1 :=
  SearchBin_above_all_cuts [1, 2] [0, 2] 0 5
    (by intro p hp; simp at hp; rcases hp with rfl | rfl <;> decide)
    (by decide) (by decide)
    (by
      intro i _ hi
      have hi2 : i < 2 := hi
      interval_cases i <;> decide)

/-! ### `ResizeIndex` -/

theorem vecResize_length {α : Type} (l : List α) (n : Nat) (v : α) :
    (vecResize l n v).length = n := by
  simp only [vecResize, List.length_append, List.length_take, List.length_replicate]
  omega

theorem u64_eq : u64 = 18446744073709551616 := by norm_num [u64]

theorem predU64_pos (n : Nat) (h1 : 1 ≤ n) : predU64 n = n - 1 := by
  rw [predU64, if_neg (by omega)]

/-- The width `ResizeIndex` selects, as a function of `max_num_bins - 1`. -/
theorem ResizeIndex_index (m : GHistIndexMatrix) (n_offsets n_index : Nat)
    (isDense : Bool) (h2 : 1 ≤ m.max_num_bins)
    (hn : 4 * n_index < u64) (w : Nat)
    (hw : w = if m.max_num_bins - 1 ≤ 255 ∧ isDense = true then 1
      else if (m.max_num_bins - 1 > 255 ∧ m.max_num_bins - 1 ≤ 65535) ∧ isDense = true then 2
      else 4) :
    (ResizeIndex m n_offsets n_index isDense).index =
      { m.index with binTypeSize_ := w, data_size := w * n_index,
                     cells := vecResize m.index.cells n_index 0 } := by
  have hmb : predU64 m.max_num_bins = m.max_num_bins - 1 := predU64_pos _ h2
  have e1 : (1 * n_index) % u64 = 1 * n_index := Nat.mod_eq_of_lt (by omega)
  have e2 : (2 * n_index) % u64 = 2 * n_index := Nat.mod_eq_of_lt (by omega)
  have e4 : (4 * n_index) % u64 = 4 * n_index := Nat.mod_eq_of_lt (by omega)
  rw [ResizeIndex]
  simp only []
  rw [hmb, e1, e2, e4]
  by_cases h8 : m.max_num_bins - 1 ≤ 255 ∧ isDense = true
  · rw [if_pos h8] at hw
    rw [if_pos h8]
    subst hw
    simp only [Index.Resize, Index.SetBinTypeSize, kUint8BinsTypeSize, Nat.div_one, one_mul]
  · rw [if_neg h8] at hw
    rw [if_neg h8]
    by_cases h16 : (m.max_num_bins - 1 > 255 ∧ m.max_num_bins - 1 ≤ 65535) ∧ isDense = true
    · rw [if_pos h16] at hw
      rw [if_pos h16]
      subst hw
      simp only [Index.Resize, Index.SetBinTypeSize, kUint16BinsTypeSize, Nat.mul_div_cancel_left n_index (by decide : 0 < 2)]
    · rw [if_neg h16] at hw
      rw [if_neg h16]
      subst hw
      simp only [Index.Resize, Index.SetBinTypeSize, kUint32BinsTypeSize, Nat.mul_div_cancel_left n_index (by decide : 0 < 4)]


/-- C5 (as stated, refuted): for `n_index = 2 ^ 62` on a sparse matrix with
`max_num_bins = 2` the byte count `sizeof(uint32_t) * n_index` wraps to `0` in
`size_t`, so the index is left with `Size() = 0`, not `n_index`. -/
theorem ResizeIndex_size_counterexample :
    (2 : Nat) ≤ ({ max_num_bins := 2 } : GHistIndexMatrix).max_num_bins ∧
    (ResizeIndex { max_num_bins := 2 } 1 (2 ^ 62) false).index.binTypeSize_ = 4 ∧
    (ResizeIndex { max_num_bins := 2 } 1 (2 ^ 62) false).index.Size ≠ 2 ^ 62 := by
  have h0 : (ResizeIndex { max_num_bins := 2 } 1 (2 ^ 62) false).index.Size = 0 := by decide
  refine ⟨by decide, by decide, ?_⟩
  rw [h0]
  norm_num

/-- C5 (amended): for every `max_num_bins ≥ 2` in the range of `int` and every
`n_index` whose byte count `4 * n_index` fits `size_t`, `ResizeIndex` on a dense
matrix selects the smallest width `w` in `{1, 2, 4}` bytes with
`max_num_bins - 1 ≤ 2 ^ (8 w) - 1`, on a sparse matrix selects 4 bytes, and in both
cases leaves the index with `Size() = n_index` and byte size `w * n_index`. -/
theorem ResizeIndex_width_and_size (m : GHistIndexMatrix) (n_offsets n_index : Nat)
    (isDense : Bool) (h2 : 2 ≤ m.max_num_bins) (hint : m.max_num_bins < 2 ^ 31)
    (hn : 4 * n_index < u64) :
    (isDense = true →
      (ResizeIndex m n_offsets n_index isDense).index.binTypeSize_ ∈ [1, 2, 4] ∧
      m.max_num_bins - 1 ≤
        2 ^ (8 * (ResizeIndex m n_offsets n_index isDense).index.binTypeSize_) - 1 ∧
      ∀ w ∈ [1, 2, 4], m.max_num_bins - 1 ≤ 2 ^ (8 * w) - 1 →
        (ResizeIndex m n_offsets n_index isDense).index.binTypeSize_ ≤ w) ∧
    (isDense = false → (ResizeIndex m n_offsets n_index isDense).index.binTypeSize_ = 4) ∧
    (ResizeIndex m n_offsets n_index isDense).index.Size = n_index ∧
    (ResizeIndex m n_offsets n_index isDense).index.data_size =
      (ResizeIndex m n_offsets n_index isDense).index.binTypeSize_ * n_index ∧
    (ResizeIndex m n_offsets n_index isDense).index.cells.length = n_index := by
  have hint2 : m.max_num_bins < 2147483648 := by norm_num at hint; exact hint
  rw [ResizeIndex_index m n_offsets n_index isDense (by omega) hn _ rfl]
  simp only [Index.Size, vecResize_length]
  have p8 : (2 : Nat) ^ (8 * 1) - 1 = 255 := by norm_num
  have p16 : (2 : Nat) ^ (8 * 2) - 1 = 65535 := by norm_num
  have p32 : (2 : Nat) ^ (8 * 4) - 1 = 4294967295 := by norm_num
  have hmem : ∀ w : Nat, w ∈ [1, 2, 4] → w = 1 ∨ w = 2 ∨ w = 4 := by
    intro w hw
    simpa using hw
  by_cases h8 : m.max_num_bins - 1 ≤ 255 ∧ isDense = true
  · rw [if_pos h8]
    refine ⟨fun _ => ⟨by simp, by rw [p8]; exact h8.1, ?_⟩, fun h => ?_, by simp, trivial, trivial⟩
    · intro w hw _
      rcases hmem w hw with rfl | rfl | rfl <;> omega
    · rw [h8.2] at h; cases h
  · rw [if_neg h8]
    by_cases h16 : (m.max_num_bins - 1 > 255 ∧ m.max_num_bins - 1 ≤ 65535) ∧ isDense = true
    · rw [if_pos h16]
      refine ⟨fun _ => ⟨by simp, by rw [p16]; exact h16.1.2, ?_⟩, fun h => ?_, by omega,
        trivial, trivial⟩
      · intro w hw hc
        rcases hmem w hw with rfl | rfl | rfl
        · rw [p8] at hc; omega
        · omega
        · omega
      · rw [h16.2] at h; cases h
    · rw [if_neg h16]
      refine ⟨fun hd => ⟨by simp, by rw [p32]; omega, ?_⟩, fun _ => rfl, by omega,
        trivial, trivial⟩
      intro w hw hc
      rcases hmem w hw with rfl | rfl | rfl
      · rw [p8] at hc
        exact absurd ⟨hc, hd⟩ h8
      · rw [p16] at hc
        have : m.max_num_bins - 1 > 255 := by
          by_contra hcon
          exact h8 ⟨by omega, hd⟩
        exact absurd ⟨⟨this, hc⟩, hd⟩ h16
      · omega

/-- Witness of `ResizeIndex_width_and_size`: `max_num_bins = 300`, six cells, dense. -/
theorem ResizeIndex_width_and_size_witness :
    (ResizeIndex { max_num_bins := 300 } 2 6 true).index.binTypeSize_ = 2 ∧
    (ResizeIndex { max_num_bins := 300 } 2 6 true).index.Size = 6 :=
  ⟨by decide,
   (ResizeIndex_width_and_size { max_num_bins := 300 } 2 6 true
      (by decide) (by decide) (by decide)).2.2.1⟩

/-! ### `forLoop` -/

theorem forLoop_empty {σ : Type} (lo hi : Nat) (body : Nat → σ → σ) (s : σ) (h : hi ≤ lo) :
    forLoop lo hi body s = s := by
  simp [forLoop, Nat.sub_eq_zero_of_le h]

theorem forLoop_succ {σ : Type} (lo hi : Nat) (body : Nat → σ → σ) (s : σ) (h : lo ≤ hi) :
    forLoop lo (hi + 1) body s = body hi (forLoop lo hi body s) := by
  unfold forLoop
  have e : hi + 1 - lo = (hi - lo) + 1 := by omega
  rw [e, List.range'_concat, List.foldl_append]
  simp only [List.foldl_cons, List.foldl_nil, Nat.one_mul]
  rw [Nat.add_sub_cancel' h]

theorem forLoop_first {σ : Type} (lo hi : Nat) (body : Nat → σ → σ) (s : σ) (h : lo < hi) :
    forLoop lo hi body s = forLoop (lo + 1) hi body (body lo s) := by
  unfold forLoop
  have e : hi - lo = (hi - (lo + 1)) + 1 := by omega
  rw [e, List.range'_succ]
  simp only [List.foldl_cons]

/-- Induction principle for counted loops: an invariant that holds before the loop
and is preserved by every iteration holds after it. -/
theorem forLoop_induction {σ : Type} (P : Nat → σ → Prop) (lo hi : Nat) (body : Nat → σ → σ)
    (s : σ) (hle : lo ≤ hi) (h0 : P lo s)
    (hstep : ∀ j st, lo ≤ j → j < hi → P j st → P (j + 1) (body j st)) :
    P hi (forLoop lo hi body s) := by
  induction hi with
  | zero =>
    have : lo = 0 := by omega
    subst this
    rw [forLoop_empty _ _ _ _ le_rfl]
    exact h0
  | succ n ih =>
    by_cases h : lo = n + 1
    · subst h
      rw [forLoop_empty _ _ _ _ le_rfl]
      exact h0
    · have hln : lo ≤ n := by omega
      rw [forLoop_succ _ _ _ _ hln]
      exact hstep n _ hln (by omega)
        (ih hln (fun j st h1 h2 hp => hstep j st h1 (by omega) hp))

/-! ### List surgery -/

theorem drop_take_cons {α : Type} (l : List α) (d : α) (i n : Nat) (hi : i < n)
    (hn : n ≤ l.length) :
    (l.drop i).take (n - i) = l.getD i d :: (l.drop (i + 1)).take (n - (i + 1)) := by
  have hil : i < l.length := by omega
  rw [List.drop_eq_getElem_cons hil, List.getD_eq_getElem _ _ hil]
  have e : n - i = (n - (i + 1)) + 1 := by omega
  rw [e, List.take_succ_cons]

theorem take_set_succ {α : Type} (l : List α) (x : α) (i : Nat) (hi : i < l.length) :
    (l.set i x).take (i + 1) = l.take i ++ [x] := by
  rw [List.set_eq_take_append_cons_drop, if_pos hi]
  have hl : (l.take i).length = i := by rw [List.length_take]; omega
  rw [List.take_append_eq_append_take, hl]
  simp [List.take_take]

theorem drop_set_gt {α : Type} (l : List α) (x : α) (i k : Nat) (hik : i < k) :
    (l.set i x).drop k = l.drop k :=
  List.drop_set_of_lt x l hik

/-! ### The merge loop computes `List.merge` -/

theorem mergeLoop_spec {α : Type} [Inhabited α] (lt : α → α → Bool) (a : List α)
    (mid finish : Nat) (hmf : mid ≤ a.length) (hfa : finish ≤ a.length) :
    ∀ fuel left right pos (buf : List α),
      left ≤ mid → right ≤ finish → (mid - left) + (finish - right) ≤ fuel →
      pos + (mid - left) + (finish - right) ≤ buf.length →
      mergeLoop lt a mid finish fuel left right pos buf =
        buf.take pos ++
          List.merge ((a.drop left).take (mid - left)) ((a.drop right).take (finish - right)) lt
          ++ buf.drop (pos + (mid - left) + (finish - right)) := by
  intro fuel
  induction fuel with
  | zero =>
    intro left right pos buf hl hr hfuel hbuf
    have e1 : mid - left = 0 := by omega
    have e2 : finish - right = 0 := by omega
    simp [mergeLoop, e1, e2]
  | succ n ih =>
    intro left right pos buf hl hr hfuel hbuf
    rw [mergeLoop]
    by_cases hcond : left < mid ∨ right < finish
    · rw [if_pos hcond]
      by_cases htake : left < mid ∧
          (right = finish ∨ lt (a.getD left default) (a.getD right default) = true)
      · rw [if_pos htake]
        obtain ⟨hlm, hrf⟩ := htake
        have hpos : pos < buf.length := by omega
        rw [ih (left + 1) right (pos + 1) _ (by omega) hr (by omega)
          (by rw [List.length_set]; omega)]
        rw [take_set_succ _ _ _ hpos, drop_set_gt _ _ _ _ (by omega)]
        rw [drop_take_cons a default left mid hlm hmf]
        have hmerge : List.merge (a.getD left default :: (a.drop (left + 1)).take (mid - (left + 1)))
            ((a.drop right).take (finish - right)) lt =
            a.getD left default :: List.merge ((a.drop (left + 1)).take (mid - (left + 1)))
              ((a.drop right).take (finish - right)) lt := by
          by_cases hrfin : right = finish
          · subst hrfin
            simp
          · have hrlt : right < finish := by omega
            have hlt : lt (a.getD left default) (a.getD right default) = true := by
              rcases hrf with h | h
              · exact absurd h hrfin
              · exact h
            rw [drop_take_cons a default right finish hrlt hfa]
            rw [List.cons_merge_cons, if_pos hlt]
        rw [hmerge]
        have e : pos + 1 + (mid - (left + 1)) + (finish - right) =
            pos + (mid - left) + (finish - right) := by omega
        rw [e]
        simp
      · rw [if_neg htake]
        have hrlt : right < finish := by
          rcases hcond with h | h
          · by_contra hc
            exact htake ⟨h, Or.inl (by omega)⟩
          · exact h
        have hpos : pos < buf.length := by omega
        rw [ih left (right + 1) (pos + 1) _ hl (by omega) (by omega)
          (by rw [List.length_set]; omega)]
        rw [take_set_succ _ _ _ hpos, drop_set_gt _ _ _ _ (by omega)]
        rw [drop_take_cons a default right finish hrlt hfa]
        have hmerge : List.merge ((a.drop left).take (mid - left))
            (a.getD right default :: (a.drop (right + 1)).take (finish - (right + 1))) lt =
            a.getD right default :: List.merge ((a.drop left).take (mid - left))
              ((a.drop (right + 1)).take (finish - (right + 1))) lt := by
          by_cases hlm : left < mid
          · rw [drop_take_cons a default left mid hlm hmf]
            have hnlt : ¬ lt (a.getD left default) (a.getD right default) = true :=
              fun h => htake ⟨hlm, Or.inr h⟩
            rw [List.cons_merge_cons, if_neg hnlt]
          · have e0 : mid - left = 0 := by omega
            simp [e0]
        rw [hmerge]
        have e : pos + 1 + (mid - left) + (finish - (right + 1)) =
            pos + (mid - left) + (finish - right) := by omega
        rw [e]
        simp
    · rw [if_neg hcond]
      have e1 : mid - left = 0 := by omega
      have e2 : finish - right = 0 := by omega
      simp [e1, e2]

theorem copyBack_spec {α : Type} [Inhabited α] (a buf : List α) (start finish : Nat)
    (hsf : start ≤ finish) (hfa : finish ≤ a.length) (hfb : finish ≤ buf.length) :
    forLoop start finish (fun i a => a.set i (buf.getD i default)) a =
      a.take start ++ (buf.drop start).take (finish - start) ++ a.drop finish := by
  refine forLoop_induction
    (fun j st => st = a.take start ++ (buf.drop start).take (j - start) ++ a.drop j)
    start finish _ a hsf ?_ ?_
  · simp
  · intro j st hj1 hj2 hst
    subst hst
    have hlen : (a.take start ++ (buf.drop start).take (j - start)).length = j := by
      simp only [List.length_append, List.length_take, List.length_drop]
      omega
    rw [List.set_append_right _ _ (by omega), hlen, Nat.sub_self]
    rw [List.drop_eq_getElem_cons (by omega : j < a.length), List.set_cons_zero]
    have e : j + 1 - start = (j - start) + 1 := by omega
    rw [e, List.take_succ, List.getElem?_drop, Nat.add_sub_cancel' hj1]
    rw [List.getD_eq_getElem _ _ (by omega : j < buf.length)]
    rw [List.getElem?_eq_getElem (by omega : j < buf.length)]
    simp

theorem mergeChunks_nil {α : Type} (lt : α → α → Bool) (bl fuel : Nat) :
    mergeChunks lt bl fuel ([] : List α) = [] := by
  cases fuel <;> simp [mergeChunks]

theorem mergeChunks_length {α : Type} (lt : α → α → Bool) (bl : Nat) :
    ∀ fuel (l : List α), (mergeChunks lt bl fuel l).length = l.length := by
  intro fuel
  induction fuel with
  | zero => intro l; rfl
  | succ n ih =>
    intro l
    rw [mergeChunks]
    split
    · simp only [List.length_append, List.length_merge, List.length_take, List.length_drop, ih]
      omega
    · rfl

theorem mergeChunks_perm {α : Type} (lt : α → α → Bool) (bl : Nat) :
    ∀ fuel (l : List α), (mergeChunks lt bl fuel l).Perm l := by
  intro fuel
  induction fuel with
  | zero => intro l; exact List.Perm.refl _
  | succ n ih =>
    intro l
    rw [mergeChunks]
    split
    · have h1 : l = l.take bl ++ ((l.drop bl).take bl ++ l.drop (2 * bl)) := by
        have : l.drop (2 * bl) = (l.drop bl).drop bl := by
          rw [List.drop_drop]; congr 1; omega
        rw [this, List.take_append_drop, List.take_append_drop]
      have h2 : (List.merge (l.take bl) ((l.drop bl).take bl) lt).Perm
          (l.take bl ++ (l.drop bl).take bl) := List.merge_perm_append lt
      have h3 := (h2.append (ih (l.drop (2 * bl))))
      refine h3.trans ?_
      rw [List.append_assoc]
      exact List.Perm.of_eq h1.symm
    · exact List.Perm.refl _


theorem mergeLoop_length {α : Type} [Inhabited α] (lt : α → α → Bool) (a : List α)
    (mid finish : Nat) :
    ∀ fuel left right pos (buf : List α),
      (mergeLoop lt a mid finish fuel left right pos buf).length = buf.length := by
  intro fuel
  induction fuel with
  | zero => intro left right pos buf; rfl
  | succ n ih =>
    intro left right pos buf
    rw [mergeLoop]
    split
    · split
      · rw [ih, List.length_set]
      · rw [ih, List.length_set]
    · rfl

/-- One merged pair of blocks: the state after the `while` loop and the copy back. -/
theorem mergeStep_spec {α : Type} [Inhabited α] (lt : α → α → Bool) (a buf : List α)
    (cur bl finish : Nat) (hfin : cur + bl ≤ finish) (hfa : finish ≤ a.length)
    (hfb : finish ≤ buf.length) :
    forLoop cur finish (fun i x => x.set i
        ((mergeLoop lt a (cur + bl) finish (finish - cur) cur (cur + bl) cur buf).getD i default)) a
      = a.take cur ++
          List.merge ((a.drop cur).take bl) ((a.drop (cur + bl)).take (finish - (cur + bl))) lt
          ++ a.drop finish := by
  have hspec := mergeLoop_spec lt a (cur + bl) finish (by omega) hfa (finish - cur) cur
    (cur + bl) cur buf (by omega) hfin (by omega) (by omega)
  have e1 : cur + bl - cur = bl := by omega
  rw [e1] at hspec
  rw [copyBack_spec a _ cur finish (by omega) hfa (by rw [mergeLoop_length]; exact hfb)]
  rw [hspec]
  have hl1 : (buf.take cur).length = cur := by rw [List.length_take]; omega
  have hl2 : (List.merge ((a.drop cur).take bl)
      ((a.drop (cur + bl)).take (finish - (cur + bl))) lt).length = finish - cur := by
    simp only [List.length_merge, List.length_take, List.length_drop]
    omega
  rw [List.append_assoc (buf.take cur), List.drop_left' hl1, List.take_left' hl2]

theorem mergeBlocks_spec {α : Type} [Inhabited α] (lt : α → α → Bool) (total_len bl : Nat)
    (hbl : 0 < bl) :
    ∀ fuel cur (s : List α × List α), s.1.length = total_len → total_len ≤ s.2.length →
      (mergeBlocks lt total_len bl fuel cur s).1 =
        s.1.take cur ++ mergeChunks lt bl fuel (s.1.drop cur) ∧
      total_len ≤ (mergeBlocks lt total_len bl fuel cur s).2.length := by
  intro fuel
  induction fuel with
  | zero =>
    intro cur s h1 h2
    simp [mergeBlocks, mergeChunks, h2]
  | succ n ih =>
    intro cur s h1 h2
    obtain ⟨a, buf⟩ := s
    simp only at h1 h2
    rw [mergeBlocks, mergeChunks]
    dsimp only
    by_cases hc : cur + bl < total_len
    · have hc2 : bl < (a.drop cur).length := by rw [List.length_drop]; omega
      rw [if_pos hc, if_pos hc2]
      have hfin1 : cur + bl ≤ (if cur + bl + bl < total_len then cur + bl + bl else total_len) := by
        split <;> omega
      have hfin2 : (if cur + bl + bl < total_len then cur + bl + bl else total_len) ≤ total_len := by
        split <;> omega
      generalize hF : (if cur + bl + bl < total_len then cur + bl + bl else total_len) = finish
        at hfin1 hfin2
      have hstep := mergeStep_spec lt a buf cur bl finish hfin1 (by omega) (by omega)
      rw [hstep]
      have hR : (a.drop (cur + bl)).take (finish - (cur + bl)) = ((a.drop cur).drop bl).take bl := by
        rw [List.drop_drop]
        by_cases h2b : cur + bl + bl < total_len
        · rw [if_pos h2b] at hF
          subst hF
          congr 1
          omega
        · rw [if_neg h2b] at hF
          subst hF
          rw [List.take_of_length_le (by rw [List.length_drop]; omega),
            List.take_of_length_le (by rw [List.length_drop]; omega)]
      rw [hR]
      generalize hM : List.merge ((a.drop cur).take bl) (((a.drop cur).drop bl).take bl) lt = M
      have hMlen : M.length = finish - cur := by
        rw [← hM]
        simp only [List.length_merge, List.length_take, List.length_drop]
        split at hF <;> omega
      have hlen' : (a.take cur ++ M ++ a.drop finish).length = total_len := by
        simp only [List.length_append, List.length_take, List.length_drop]
        omega
      obtain ⟨ih1, ih2⟩ := ih (cur + 2 * bl) (a.take cur ++ M ++ a.drop finish,
        mergeLoop lt a (cur + bl) finish (finish - cur) cur (cur + bl) cur buf) hlen'
        (by simp only; rw [mergeLoop_length]; exact h2)
      refine ⟨?_, ih2⟩
      rw [ih1]
      simp only
      have hpre : (a.take cur ++ M).length = finish := by
        simp only [List.length_append, List.length_take]
        omega
      by_cases h2b : cur + bl + bl < total_len
      · rw [if_pos h2b] at hF
        have hF' : finish = cur + 2 * bl := by omega
        subst hF'
        rw [List.take_left' hpre, List.drop_left' hpre, List.drop_drop, List.append_assoc]
      · rw [if_neg h2b] at hF
        have hd : a.drop finish = [] := List.drop_of_length_le (by omega)
        rw [hd, List.append_nil]
        have hle : (a.take cur ++ M).length ≤ cur + 2 * bl := by omega
        rw [List.take_of_length_le hle, List.drop_of_length_le hle]
        rw [List.drop_drop, List.drop_of_length_le (by omega : a.length ≤ cur + 2 * bl)]
        rw [List.append_assoc]
    · have hc2 : ¬ bl < (a.drop cur).length := by rw [List.length_drop]; omega
      rw [if_neg hc, if_neg hc2]
      simp [h2]


/-! ### Sortedness of the passes -/

theorem merge_lt_sorted {α : Type} [LinearOrder α] :
    ∀ (xs ys : List α), xs.Pairwise (· ≤ ·) → ys.Pairwise (· ≤ ·) →
      (List.merge xs ys (fun a b => decide (a < b))).Pairwise (· ≤ ·) := by
  intro xs
  induction xs with
  | nil => intro ys _ hy; simpa using hy
  | cons x xs ihx =>
    intro ys
    induction ys with
    | nil => intro hx _; simpa using hx
    | cons y ys ihy =>
      intro hx hy
      rw [List.cons_merge_cons]
      by_cases hxy : x < y
      · rw [if_pos (by simpa using hxy)]
        rw [List.pairwise_cons] at hx ⊢
        refine ⟨fun z hz => ?_, ihx (y :: ys) hx.2 hy⟩
        rcases List.mem_merge.mp hz with h | h
        · exact hx.1 z h
        · rcases List.mem_cons.mp h with h | h
          · subst h; exact le_of_lt hxy
          · exact le_trans (le_of_lt hxy) ((List.pairwise_cons.mp hy).1 z h)
      · rw [if_neg (by simpa using hxy)]
        have hyx : y ≤ x := not_lt.mp hxy
        rw [List.pairwise_cons] at hy ⊢
        refine ⟨fun z hz => ?_, ihy hx hy.2⟩
        rcases List.mem_merge.mp hz with h | h
        · rcases List.mem_cons.mp h with h | h
          · subst h; exact hyx
          · exact le_trans hyx ((List.pairwise_cons.mp hx).1 z h)
        · exact hy.1 z h

theorem chunkSorted_one {α : Type} (r : α → α → Prop) :
    ∀ l : List α, ChunkSorted r 1 l := by
  intro l
  induction l with
  | nil => exact ChunkSorted.last [] (by simp) List.Pairwise.nil
  | cons x rest ih =>
    by_cases h : rest = []
    · subst h
      exact ChunkSorted.last [x] (by simp) (List.pairwise_singleton r x)
    · exact ChunkSorted.cons [x] rest rfl (List.pairwise_singleton r x) h ih

theorem chunkSorted_short {α : Type} (r : α → α → Prop) (bl : Nat) (l : List α)
    (h : ChunkSorted r bl l) (hl : l.length ≤ bl) : l.Pairwise r := by
  cases h with
  | last _ _ hp => exact hp
  | cons c rest hc _ hne _ =>
    exfalso
    have : rest.length ≠ 0 := fun h0 => hne (List.length_eq_zero.mp h0)
    rw [List.length_append] at hl
    omega

theorem mergeChunks_chunkSorted {α : Type} [LinearOrder α] (bl : Nat) (hbl : 0 < bl) :
    ∀ fuel (l : List α), l.length ≤ fuel → ChunkSorted (· ≤ ·) bl l →
      ChunkSorted (· ≤ ·) (2 * bl) (mergeChunks (fun a b => decide (a < b)) bl fuel l) := by
  intro fuel
  induction fuel using Nat.strong_induction_on with
  | _ fuel ih =>
    intro l hlen hcs
    cases fuel with
    | zero =>
      have : l = [] := List.length_eq_zero.mp (by omega)
      subst this
      exact ChunkSorted.last [] (by simp) List.Pairwise.nil
    | succ n =>
      rw [mergeChunks]
      cases hcs with
      | last _ hshort hp =>
        rw [if_neg (by omega)]
        exact ChunkSorted.last l (by omega) hp
      | cons c rest hc hcp hne hrest =>
        have hrl : rest.length ≠ 0 := fun h0 => hne (List.length_eq_zero.mp h0)
        rw [if_pos (by rw [List.length_append]; omega)]
        rw [List.take_left' hc, List.drop_left' hc]
        have hdrop : (c ++ rest).drop (2 * bl) = rest.drop bl := by
          have : 2 * bl = c.length + bl := by omega
          rw [this, List.drop_append]
        rw [hdrop]
        cases hrest with
        | last _ hshort hp =>
          rw [List.take_of_length_le hshort, List.drop_of_length_le hshort, mergeChunks_nil,
            List.append_nil]
          exact ChunkSorted.last _ (by rw [List.length_merge]; omega) (merge_lt_sorted c rest hcp hp)
        | cons c2 rest2 hc2 hcp2 hne2 hrest2 =>
          rw [List.take_left' hc2, List.drop_left' hc2]
          have hlen2 : rest2.length ≤ n := by
            simp only [List.length_append] at hlen
            omega
          have hih := ih n (Nat.lt_succ_self n) rest2 hlen2 hrest2
          have hne' : mergeChunks (fun a b => decide (a < b)) bl n rest2 ≠ [] := by
            intro h0
            have := mergeChunks_length (fun a b : α => decide (a < b)) bl n rest2
            rw [h0] at this
            exact hne2 (List.length_eq_zero.mp this.symm)
          exact ChunkSorted.cons _ _ (by rw [List.length_merge]; omega)
            (merge_lt_sorted c c2 hcp hcp2) hne' hih

theorem mergePasses_perm {α : Type} [Inhabited α] (lt : α → α → Bool) (total_len : Nat) :
    ∀ fuel bl (s : List α × List α), 0 < bl → s.1.length = total_len →
      total_len ≤ s.2.length → (mergePasses lt total_len fuel bl s).1.Perm s.1 := by
  intro fuel
  induction fuel with
  | zero => intro bl s _ _ _; exact List.Perm.refl _
  | succ n ih =>
    intro bl s hbl h1 h2
    rw [mergePasses]
    split
    · obtain ⟨hs1, hs2⟩ := mergeBlocks_spec lt total_len bl hbl total_len 0 s h1 h2
      have hperm : (mergeBlocks lt total_len bl total_len 0 s).1.Perm s.1 := by
        rw [hs1]
        simpa using mergeChunks_perm lt bl total_len s.1
      exact (ih (bl * 2) _ (by omega) (by rw [hperm.length_eq, h1]) hs2).trans hperm
    · exact List.Perm.refl _

theorem mergePasses_sorted {α : Type} [Inhabited α] [LinearOrder α] (total_len : Nat) :
    ∀ fuel bl (s : List α × List α), 0 < bl → s.1.length = total_len →
      total_len ≤ s.2.length → total_len ≤ bl + fuel → ChunkSorted (· ≤ ·) bl s.1 →
      (mergePasses (fun a b => decide (a < b)) total_len fuel bl s).1.Pairwise (· ≤ ·) := by
  intro fuel
  induction fuel with
  | zero =>
    intro bl s _ h1 _ hf hcs
    exact chunkSorted_short _ bl s.1 hcs (by omega)
  | succ n ih =>
    intro bl s hbl h1 h2 hf hcs
    rw [mergePasses]
    split
    · obtain ⟨hs1, hs2⟩ := mergeBlocks_spec (fun a b : α => decide (a < b)) total_len bl hbl
        total_len 0 s h1 h2
      have hcs' : ChunkSorted (· ≤ ·) (bl * 2)
          (mergeBlocks (fun a b : α => decide (a < b)) total_len bl total_len 0 s).1 := by
        rw [hs1, Nat.mul_comm]
        simpa using mergeChunks_chunkSorted bl hbl total_len s.1 (by omega) hcs
      have hlen' : (mergeBlocks (fun a b : α => decide (a < b)) total_len bl total_len 0 s).1.length
          = total_len := by
        rw [hs1]
        simp [mergeChunks_length, h1]
      exact ih (bl * 2) _ (by omega) hlen' hs2 (by omega) hcs'
    · rename_i hnot
      exact chunkSorted_short _ bl s.1 hcs (by omega)

/-- The sorted range is a permutation of the input range. -/
theorem mergeSort_perm {α : Type} [Inhabited α] (lt : α → α → Bool) (a buf : List α)
    (h : a.length ≤ buf.length) : (mergeSort lt a buf).1.Perm a :=
  mergePasses_perm lt a.length a.length 1 (a, buf) (by decide) rfl h

/-- On a linear order with the comparison `<`, `mergeSort` leaves the range sorted
ascending. -/
theorem mergeSort_sorted {α : Type} [Inhabited α] [LinearOrder α] (a buf : List α)
    (h : a.length ≤ buf.length) :
    (mergeSort (fun x y => decide (x < y)) a buf).1.Pairwise (· ≤ ·) :=
  mergePasses_sorted a.length a.length 1 (a, buf) (by decide) rfl h (by omega)
    (chunkSorted_one _ a)


/-! ### `SetIndexData`: the hit counts -/

theorem forLoop_snd {σ τ : Type} (lo hi : Nat) (body : Nat → σ × τ → σ × τ) (g : Nat → τ → τ)
    (s : σ × τ) (h : ∀ j st, (body j st).2 = g j st.2) :
    (forLoop lo hi body s).2 = forLoop lo hi g s.2 := by
  unfold forLoop
  generalize List.range' lo (hi - lo) = js
  induction js generalizing s with
  | nil => rfl
  | cons j js ih =>
    simp only [List.foldl_cons]
    rw [ih, h]

theorem forLoop_fst {σ τ : Type} (lo hi : Nat) (body : Nat → σ × τ → σ × τ) (g : Nat → σ → σ)
    (s : σ × τ) (h : ∀ j st, (body j st).1 = g j st.1) :
    (forLoop lo hi body s).1 = forLoop lo hi g s.1 := by
  unfold forLoop
  generalize List.range' lo (hi - lo) = js
  induction js generalizing s with
  | nil => rfl
  | cons j js ih =>
    simp only [List.foldl_cons]
    rw [ih, h]

/-- A loop that reads `data[ibegin + j]` for `j < size` is a fold over that range of
`data`. -/
theorem forLoop_getD_eq_foldl {σ : Type} (data : List Entry) (F : Entry → σ → σ)
    (ibegin size : Nat) (s : σ) (h : ibegin + size ≤ data.length) :
    forLoop 0 size (fun j st => F (data.getD (ibegin + j) default) st) s =
      ((data.drop ibegin).take size).foldl (fun st e => F e st) s := by
  induction size with
  | zero => simp [forLoop]
  | succ n ih =>
    rw [forLoop_succ _ _ _ _ (Nat.zero_le n), ih (by omega)]
    rw [List.take_succ, List.foldl_append, List.getElem?_drop]
    rw [List.getD_eq_getElem _ _ (by omega : ibegin + n < data.length)]
    rw [List.getElem?_eq_getElem (by omega : ibegin + n < data.length)]
    simp

theorem rowKernel_snd (w : Nat) (dmat : DeviceMatrix) (cv : List ℚ) (cp : List Nat)
    (nbins rs : Nat) (offsets : Option (List Nat)) (i : Nat) (st : List Nat × List Nat)
    (h : dmat.row_ptr.getD i 0 ≤ dmat.row_ptr.getD (i + 1) 0)
    (hd : dmat.row_ptr.getD (i + 1) 0 ≤ dmat.data.length) :
    (SetIndexData.rowKernel w dmat cv cp nbins rs offsets i st).2 =
      (rowEntries dmat i).foldl (fun hc e => hitAdd hc (SearchBin cv cp e)) st.2 := by
  have hloop : (forLoop 0 (dmat.row_ptr.getD (i + 1) 0 - dmat.row_ptr.getD i 0)
      (SetIndexData.entryStep w dmat cv cp offsets (dmat.row_ptr.getD i 0) (i * rs)) st).2 =
      (rowEntries dmat i).foldl (fun hc e => hitAdd hc (SearchBin cv cp e)) st.2 := by
    rw [forLoop_snd _ _ _ (fun j hc => hitAdd hc
      (SearchBin cv cp (dmat.data.getD (dmat.row_ptr.getD i 0 + j) default))) _
      (fun j st => rfl)]
    exact forLoop_getD_eq_foldl dmat.data (fun e hc => hitAdd hc (SearchBin cv cp e)) _ _ _
      (by omega)
  unfold SetIndexData.rowKernel
  cases offsets with
  | some offs => exact hloop
  | none => exact hloop

theorem rowPtr_mono (dmat : DeviceMatrix) (hv : RowPtrValid dmat) :
    ∀ i j, i ≤ j → j < dmat.row_ptr.length →
      dmat.row_ptr.getD i 0 ≤ dmat.row_ptr.getD j 0 := by
  intro i j hij hj
  induction j with
  | zero =>
    have : i = 0 := by omega
    subst this
    exact le_rfl
  | succ n ih =>
    by_cases h : i = n + 1
    · subst h; exact le_rfl
    · exact le_trans (ih (by omega) (by omega)) (hv.2.1 n hj)

/-- The hit counts after `SetIndexData`: one increment per non-missing entry, at the
bin `SearchBin` resolves for it. -/
theorem SetIndexData_snd (w : Nat) (index_data hit_count : List Nat) (dmat : DeviceMatrix)
    (cv : List ℚ) (cp : List Nat) (nbins rs : Nat) (offsets : Option (List Nat))
    (hv : RowPtrValid dmat) :
    (SetIndexData w index_data hit_count dmat cv cp nbins rs offsets).2 =
      (allEntries dmat).foldl (fun hc e => hitAdd hc (SearchBin cv cp e)) hit_count := by
  unfold SetIndexData
  have key : ∀ k, k < dmat.row_ptr.length →
      (forLoop 0 k (SetIndexData.rowKernel w dmat cv cp nbins rs offsets)
        (index_data, hit_count)).2 =
      ((dmat.data.drop (dmat.row_ptr.getD 0 0)).take
        (dmat.row_ptr.getD k 0 - dmat.row_ptr.getD 0 0)).foldl
        (fun hc e => hitAdd hc (SearchBin cv cp e)) hit_count := by
    intro k
    induction k with
    | zero => intro _; simp [forLoop]
    | succ n ih =>
      intro hk
      have h0n := rowPtr_mono dmat hv 0 n (Nat.zero_le n) (by omega)
      have hn1 := hv.2.1 n hk
      have hlast := rowPtr_mono dmat hv (n + 1) (dmat.row_ptr.length - 1) (by omega) (by omega)
      rw [forLoop_succ _ _ _ _ (Nat.zero_le n)]
      rw [rowKernel_snd _ _ _ _ _ _ _ _ _ hn1 (le_trans hlast hv.2.2), ih (by omega)]
      rw [← List.foldl_append]
      congr 1
      have e : dmat.row_ptr.getD (n + 1) 0 - dmat.row_ptr.getD 0 0 =
          (dmat.row_ptr.getD n 0 - dmat.row_ptr.getD 0 0) +
          (dmat.row_ptr.getD (n + 1) 0 - dmat.row_ptr.getD n 0) := by omega
      rw [e, List.take_add, List.drop_drop, rowEntries, Nat.add_sub_cancel' h0n]
  exact key (dmat.row_ptr.length - 1) (by have := hv.1; omega)

theorem hitAdd_length (hc : List Nat) (idx : Nat) : (hitAdd hc idx).length = hc.length := by
  simp [hitAdd]

theorem hitAdd_getD (hc : List Nat) (idx b : Nat) (h : idx < hc.length) :
    (hitAdd hc idx).getD b 0 = hc.getD b 0 + (if idx = b then 1 else 0) := by
  unfold hitAdd
  by_cases hb : idx = b
  · subst hb
    simp [List.getD_eq_getElem?_getD, List.getElem?_set_self h]
  · simp [List.getD_eq_getElem?_getD, List.getElem?_set_ne hb, hb]

theorem sumList_foldl (l : List Nat) (c : Nat) : l.foldl (· + ·) c = c + sumList l := by
  unfold sumList
  induction l generalizing c with
  | nil => simp
  | cons x xs ih =>
    simp only [List.foldl_cons]
    rw [ih, ih (0 + x)]
    omega

theorem sumList_cons (x : Nat) (l : List Nat) : sumList (x :: l) = x + sumList l := by
  unfold sumList
  simp only [List.foldl_cons]
  rw [sumList_foldl]
  simp [sumList]

theorem sumList_set (l : List Nat) (i v : Nat) (h : i < l.length) :
    sumList (l.set i v) + l.getD i 0 = sumList l + v := by
  induction l generalizing i with
  | nil => simp at h
  | cons x xs ih =>
    cases i with
    | zero =>
      simp only [List.set_cons_zero, sumList_cons, List.getD_cons_zero]
      omega
    | succ n =>
      simp only [List.set_cons_succ, sumList_cons, List.getD_cons_succ]
      have := ih n (by simpa using h)
      omega

theorem sumList_hitAdd (hc : List Nat) (idx : Nat) (h : idx < hc.length) :
    sumList (hitAdd hc idx) = sumList hc + 1 := by
  have := sumList_set hc idx (hc.getD idx 0 + 1) h
  unfold hitAdd
  omega

theorem sumList_replicate_zero (n : Nat) : sumList (List.replicate n 0) = 0 := by
  induction n with
  | zero => rfl
  | succ k ih => rw [List.replicate_succ, sumList_cons, ih]

/-- Folding increments over a list of entries whose bins are all in range: every
counter grows by the number of entries of its bin, the sum by the number of
entries. -/
theorem foldl_hitAdd (bin : Entry → Nat) (es : List Entry) (hc : List Nat)
    (h : ∀ e ∈ es, bin e < hc.length) :
    (es.foldl (fun hc e => hitAdd hc (bin e)) hc).length = hc.length ∧
    (∀ b, (es.foldl (fun hc e => hitAdd hc (bin e)) hc).getD b 0 =
      hc.getD b 0 + es.countP (fun e => bin e = b)) ∧
    sumList (es.foldl (fun hc e => hitAdd hc (bin e)) hc) = sumList hc + es.length := by
  induction es generalizing hc with
  | nil => simp
  | cons e es ih =>
    have he : bin e < hc.length := h e (List.mem_cons_self _ _)
    have hrest : ∀ e' ∈ es, bin e' < (hitAdd hc (bin e)).length := by
      intro e' he'
      rw [hitAdd_length]
      exact h e' (List.mem_cons_of_mem _ he')
    obtain ⟨h1, h2, h3⟩ := ih (hitAdd hc (bin e)) hrest
    simp only [List.foldl_cons]
    refine ⟨by rw [h1, hitAdd_length], fun b => ?_, ?_⟩
    · rw [h2 b, hitAdd_getD _ _ _ he, List.countP_cons]
      by_cases hb : bin e = b
      · simp [hb]; omega
      · simp [hb]
    · rw [h3, sumList_hitAdd _ _ he, List.length_cons]
      omega


/-! ### `Init` -/

theorem ResizeIndex_other (m : GHistIndexMatrix) (n_offsets n_index : Nat) (isDense : Bool) :
    (ResizeIndex m n_offsets n_index isDense).hit_count = m.hit_count ∧
    (ResizeIndex m n_offsets n_index isDense).cut = m.cut ∧
    (ResizeIndex m n_offsets n_index isDense).nbins = m.nbins ∧
    (ResizeIndex m n_offsets n_index isDense).row_stride = m.row_stride ∧
    (ResizeIndex m n_offsets n_index isDense).row_ptr = m.row_ptr ∧
    (ResizeIndex m n_offsets n_index isDense).nfeatures = m.nfeatures ∧
    (ResizeIndex m n_offsets n_index isDense).isDense_ = m.isDense_ ∧
    (ResizeIndex m n_offsets n_index isDense).max_num_bins = m.max_num_bins ∧
    (ResizeIndex m n_offsets n_index isDense).index.offset_ = m.index.offset_ := by
  rw [ResizeIndex]
  split
  · exact ⟨rfl, rfl, rfl, rfl, rfl, rfl, rfl, rfl, rfl⟩
  · split
    · exact ⟨rfl, rfl, rfl, rfl, rfl, rfl, rfl, rfl, rfl⟩
    · exact ⟨rfl, rfl, rfl, rfl, rfl, rfl, rfl, rfl, rfl⟩

theorem Init_resized_fields (m : GHistIndexMatrix) (dmat : DeviceMatrix) (cut : HistogramCuts)
    (max_bins : Int) :
    (Init.resized m dmat cut max_bins).hit_count =
      vecResize m.hit_count (totalBins cut.cut_ptrs_) 0 ∧
    (Init.resized m dmat cut max_bins).cut = cut ∧
    (Init.resized m dmat cut max_bins).nbins = totalBins cut.cut_ptrs_ ∧
    (Init.resized m dmat cut max_bins).row_stride = Init.rowStride dmat.row_ptr ∧
    (Init.resized m dmat cut max_bins).row_ptr = dmat.row_ptr ∧
    (Init.resized m dmat cut max_bins).nfeatures = dmat.num_col_ ∧
    (Init.resized m dmat cut max_bins).isDense_ = dmat.is_dense ∧
    (Init.resized m dmat cut max_bins).max_num_bins = (max_bins % (u64 : Int)).toNat ∧
    (Init.resized m dmat cut max_bins).index.offset_ = m.index.offset_ := by
  rw [Init.resized]
  exact ResizeIndex_other _ _ _ _

/-- When the checks pass, `Init` returns a matrix whose hit counts are the previous
counters resized to `nbins`, incremented once per non-missing entry at the bin of
that entry. -/
theorem Init_hit_count (m : GHistIndexMatrix) (dmat : DeviceMatrix) (cut : HistogramCuts)
    (max_bins : Int) (m' : GHistIndexMatrix) (h : Init m dmat cut max_bins = some m')
    (hv : RowPtrValid dmat) :
    m'.cut = cut ∧ m'.nbins = totalBins cut.cut_ptrs_ ∧
      m'.hit_count = (allEntries dmat).foldl
        (fun hc e => hitAdd hc (SearchBin cut.cut_values_ cut.cut_ptrs_ e))
        (vecResize m.hit_count (totalBins cut.cut_ptrs_) 0) := by
  have hf := Init_resized_fields m dmat cut max_bins
  rw [Init] at h
  dsimp only at h
  split at h
  · cases h
  · split at h
    · split at h
      · rw [← Option.some.inj h]
        dsimp only
        rw [SetIndexData_snd _ _ _ _ _ _ _ _ _ hv, hf.1]
        exact ⟨hf.2.1, hf.2.2.1, rfl⟩
      · cases h
    · rw [← Option.some.inj h]
      dsimp only
      rw [SetIndexData_snd _ _ _ _ _ _ _ _ _ hv, hf.1]
      exact ⟨hf.2.1, hf.2.2.1, rfl⟩


theorem ResizeIndex_binTypeSize (m : GHistIndexMatrix) (n_offsets n_index : Nat)
    (isDense : Bool) :
    (ResizeIndex m n_offsets n_index isDense).index.binTypeSize_ = kUint8BinsTypeSize ∨
    (ResizeIndex m n_offsets n_index isDense).index.binTypeSize_ = kUint16BinsTypeSize ∨
    (ResizeIndex m n_offsets n_index isDense).index.binTypeSize_ = kUint32BinsTypeSize := by
  rw [ResizeIndex]
  split
  · exact Or.inl rfl
  · split
    · exact Or.inr (Or.inl rfl)
    · exact Or.inr (Or.inr rfl)

/-- `Init` passes its checks as soon as the cut table holds at least one value. -/
theorem Init_succeeds (m : GHistIndexMatrix) (dmat : DeviceMatrix) (cut : HistogramCuts)
    (max_bins : Int) (hcv : 0 < cut.cut_values_.length) :
    ∃ m', Init m dmat cut max_bins = some m' := by
  rw [Init]
  dsimp only
  rw [if_neg (by omega)]
  split
  · rw [if_pos]
    · exact ⟨_, rfl⟩
    · rw [Init.resized]
      exact ResizeIndex_binTypeSize _ _ _ _
  · exact ⟨_, rfl⟩

theorem allEntries_length (dmat : DeviceMatrix) (hv : RowPtrValid dmat) :
    (allEntries dmat).length =
      dmat.row_ptr.getD (dmat.row_ptr.length - 1) 0 - dmat.row_ptr.getD 0 0 := by
  have h0 := rowPtr_mono dmat hv 0 (dmat.row_ptr.length - 1) (Nat.zero_le _)
    (by have := hv.1; omega)
  have := hv.2.2
  simp only [allEntries, List.length_take, List.length_drop]
  omega

theorem vecResize_nil_zero (n : Nat) : vecResize ([] : List Nat) n 0 = List.replicate n 0 := by
  simp [vecResize]

theorem getD_replicate_zero (n b : Nat) : (List.replicate n 0).getD b 0 = 0 := by
  rw [List.getD_eq_getElem?_getD]
  by_cases h : b < n
  · rw [List.getElem?_eq_getElem (by simpa using h)]
    simp
  · rw [List.getElem?_eq_none (by simpa using h)]
    rfl

/-- The hit counts of a matrix initialised from a fresh object. -/
theorem Init_fresh_hit_count (m : GHistIndexMatrix) (dmat : DeviceMatrix)
    (cut : HistogramCuts) (max_bins : Int) (m' : GHistIndexMatrix)
    (hfresh : m.hit_count = []) (hinit : Init m dmat cut max_bins = some m')
    (hv : RowPtrValid dmat) (hu : PtrsU32 cut.cut_ptrs_) (hm : PtrsMonotone cut.cut_ptrs_)
    (hne : SlicesNonEmpty cut.cut_ptrs_)
    (hfeat : ∀ e ∈ allEntries dmat, e.index + 1 < cut.cut_ptrs_.length) :
    m'.hit_count.length = totalBins cut.cut_ptrs_ ∧
    (∀ b, m'.hit_count.getD b 0 =
      (allEntries dmat).countP (fun e => SearchBin cut.cut_values_ cut.cut_ptrs_ e = b)) ∧
    sumList m'.hit_count = (allEntries dmat).length := by
  obtain ⟨_, _, hhc⟩ := Init_hit_count m dmat cut max_bins m' hinit hv
  rw [hfresh, vecResize_nil_zero] at hhc
  have hbin : ∀ e ∈ allEntries dmat,
      SearchBin cut.cut_values_ cut.cut_ptrs_ e < (List.replicate (totalBins cut.cut_ptrs_) 0).length := by
    intro e he
    rw [List.length_replicate]
    exact (searchBin_range cut.cut_values_ cut.cut_ptrs_ e.index e.fvalue hu hm hne
      (hfeat e he)).2.2
  obtain ⟨h1, h2, h3⟩ := foldl_hitAdd (SearchBin cut.cut_values_ cut.cut_ptrs_)
    (allEntries dmat) (List.replicate (totalBins cut.cut_ptrs_) 0) hbin
  rw [hhc]
  refine ⟨by rw [h1, List.length_replicate], fun b => ?_, ?_⟩
  · rw [h2 b, getD_replicate_zero, Nat.zero_add]
  · rw [h3, sumList_replicate_zero, Nat.zero_add]

/-- C8: for a freshly constructed matrix (`hit_count` empty), a CSR input with valid
feature indices and a cut table with non-empty feature slices (holding at least one
value, so that the check of `Init` passes), `Init` returns a matrix whose hit
counts sum to `row_ptr[nrows] - row_ptr[0]`, the number of non-missing entries, and
`hit_count[b]` is the number of entries that `SearchBin` maps to `b`. -/
theorem Init_hit_count_conservation (m : GHistIndexMatrix) (dmat : DeviceMatrix)
    (cut : HistogramCuts) (max_bins : Int)
    (hfresh : m.hit_count = []) (hcv : 0 < cut.cut_values_.length)
    (hv : RowPtrValid dmat) (hu : PtrsU32 cut.cut_ptrs_) (hm : PtrsMonotone cut.cut_ptrs_)
    (hne : SlicesNonEmpty cut.cut_ptrs_)
    (hfeat : ∀ e ∈ allEntries dmat, e.index + 1 < cut.cut_ptrs_.length) :
    ∃ m', Init m dmat cut max_bins = some m' ∧
      sumList m'.hit_count =
        dmat.row_ptr.getD (dmat.row_ptr.length - 1) 0 - dmat.row_ptr.getD 0 0 ∧
      ∀ b, m'.hit_count.getD b 0 =
        (allEntries dmat).countP (fun e => SearchBin cut.cut_values_ cut.cut_ptrs_ e = b) := by
  obtain ⟨m', hinit⟩ := Init_succeeds m dmat cut max_bins hcv
  obtain ⟨_, h2, h3⟩ := Init_fresh_hit_count m dmat cut max_bins m' hfresh hinit hv hu hm hne hfeat
  exact ⟨m', hinit, by rw [h3, allEntries_length dmat hv], h2⟩

/-! ### The example inputs are well formed -/

theorem exampleCuts_u32 : PtrsU32 exampleCuts.cut_ptrs_ := by
  intro p hp
  have : p = 0 ∨ p = 2 ∨ p = 3 := by simpa [exampleCuts] using hp
  rcases this with rfl | rfl | rfl <;> decide

theorem exampleCuts_monotone : PtrsMonotone exampleCuts.cut_ptrs_ := by
  intro i j hij hj
  have hj3 : j < 3 := hj
  interval_cases j <;> interval_cases i <;> decide

theorem exampleCuts_nonEmpty : SlicesNonEmpty exampleCuts.cut_ptrs_ := by
  intro f hf
  have hf3 : f + 1 < 3 := hf
  have hf2 : f < 2 := by omega
  interval_cases f <;> decide

theorem exampleSparse_valid : RowPtrValid exampleSparse := by
  refine ⟨by decide, ?_, by decide⟩
  intro i hi
  have hi5 : i + 1 < 5 := hi
  have hi4 : i < 4 := by omega
  interval_cases i <;> decide

theorem exampleDense_valid : RowPtrValid exampleDense := by
  refine ⟨by decide, ?_, by decide⟩
  intro i hi
  have hi4 : i + 1 < 4 := hi
  have hi3 : i < 3 := by omega
  interval_cases i <;> decide

theorem exampleSparse_features :
    ∀ e ∈ allEntries exampleSparse, e.index + 1 < exampleCuts.cut_ptrs_.length := by
  decide

theorem exampleDense_features :
    ∀ e ∈ allEntries exampleDense, e.index + 1 < exampleCuts.cut_ptrs_.length := by
  decide


/-- Witness of `Init_hit_count_conservation` on the sparse example. -/
theorem Init_hit_count_conservation_witness :
    ∃ m', Init {} exampleSparse exampleCuts 256 = some m' ∧
      sumList m'.hit_count =
        exampleSparse.row_ptr.getD (exampleSparse.row_ptr.length - 1) 0 -
          exampleSparse.row_ptr.getD 0 0 ∧
      ∀ b, m'.hit_count.getD b 0 =
        (allEntries exampleSparse).countP
          (fun e => SearchBin exampleCuts.cut_values_ exampleCuts.cut_ptrs_ e = b) :=
  Init_hit_count_conservation {} exampleSparse exampleCuts 256 rfl (by decide)
    exampleSparse_valid exampleCuts_u32 exampleCuts_monotone exampleCuts_nonEmpty
    exampleSparse_features

/-! ### `GetFeatureCounts` -/

theorem binRangeSum_succ (h : List Nat) (lo hi : Nat) (hle : lo ≤ hi) :
    binRangeSum h lo (hi + 1) = binRangeSum h lo hi + h.getD hi 0 := by
  unfold binRangeSum
  rw [forLoop_succ _ _ _ _ hle]

theorem binRangeSum_self (h : List Nat) (lo : Nat) : binRangeSum h lo lo = 0 := by
  unfold binRangeSum
  rw [forLoop_empty _ _ _ _ le_rfl]

theorem getD_set_self (c : List Nat) (i v : Nat) (h : i < c.length) :
    (c.set i v).getD i 0 = v := by
  rw [List.getD_eq_getElem?_getD, List.getElem?_set_self h]
  rfl

theorem getD_set_ne (c : List Nat) (i j v : Nat) (h : i ≠ j) :
    (c.set i v).getD j 0 = c.getD j 0 := by
  rw [List.getD_eq_getElem?_getD, List.getElem?_set_ne h, List.getD_eq_getElem?_getD]

/-- The inner loop of `GetFeatureCounts` adds the counters of one bin range to
`counts[fid]` and touches nothing else. -/
theorem featureLoop_spec (h c : List Nat) (fid lo hi : Nat) (hle : lo ≤ hi)
    (hfid : fid < c.length) :
    (forLoop lo hi (fun i counts => counts.set fid (counts.getD fid 0 + h.getD i 0)) c).length
      = c.length ∧
    (forLoop lo hi (fun i counts => counts.set fid (counts.getD fid 0 + h.getD i 0)) c).getD fid 0
      = c.getD fid 0 + binRangeSum h lo hi ∧
    ∀ g, g ≠ fid →
      (forLoop lo hi (fun i counts => counts.set fid (counts.getD fid 0 + h.getD i 0)) c).getD g 0
        = c.getD g 0 := by
  refine forLoop_induction
    (fun k st => st.length = c.length ∧ st.getD fid 0 = c.getD fid 0 + binRangeSum h lo k ∧
      ∀ g, g ≠ fid → st.getD g 0 = c.getD g 0)
    lo hi _ c hle ⟨rfl, by rw [binRangeSum_self]; rfl, fun _ _ => rfl⟩ ?_
  intro j st hj1 _ ⟨h1, h2, h3⟩
  refine ⟨by rw [List.length_set, h1], ?_, fun g hg => ?_⟩
  · rw [getD_set_self _ _ _ (by omega), h2, binRangeSum_succ _ _ _ hj1]
    omega
  · rw [getD_set_ne _ _ _ _ (Ne.symm hg), h3 g hg]

/-- What `GetFeatureCounts` leaves in `counts`: every feature counter grows by the
sum of the hit counts over the bin range of the feature. -/
theorem GetFeatureCounts_spec (m : GHistIndexMatrix) (counts : List Nat)
    (hlen : counts.length = m.cut.cut_ptrs_.length - 1)
    (hmono : ∀ f, f + 1 < m.cut.cut_ptrs_.length →
      m.cut.cut_ptrs_.getD f 0 ≤ m.cut.cut_ptrs_.getD (f + 1) 0) :
    (GetFeatureCounts m counts).length = counts.length ∧
    ∀ f, f < counts.length → (GetFeatureCounts m counts).getD f 0 =
      counts.getD f 0 +
        binRangeSum m.hit_count (m.cut.cut_ptrs_.getD f 0) (m.cut.cut_ptrs_.getD (f + 1) 0) := by
  unfold GetFeatureCounts
  dsimp only
  have key := forLoop_induction
    (fun k st => st.length = counts.length ∧
      (∀ f, f < k → st.getD f 0 = counts.getD f 0 +
        binRangeSum m.hit_count (m.cut.cut_ptrs_.getD f 0) (m.cut.cut_ptrs_.getD (f + 1) 0)) ∧
      ∀ f, k ≤ f → st.getD f 0 = counts.getD f 0)
    0 (m.cut.cut_ptrs_.length - 1)
    (fun fid counts =>
      forLoop (m.cut.cut_ptrs_.getD fid 0) (m.cut.cut_ptrs_.getD (fid + 1) 0)
        (fun i counts => counts.set fid (counts.getD fid 0 + m.hit_count.getD i 0)) counts)
    counts (Nat.zero_le _) ⟨rfl, fun f hf => absurd hf (Nat.not_lt_zero f), fun _ _ => rfl⟩ ?_
  · exact ⟨key.1, fun f hf => key.2.1 f (by omega)⟩
  · intro j st _ hj2 ⟨h1, h2, h3⟩
    obtain ⟨l1, l2, l3⟩ := featureLoop_spec m.hit_count st j (m.cut.cut_ptrs_.getD j 0)
      (m.cut.cut_ptrs_.getD (j + 1) 0) (hmono j (by omega)) (by omega)
    refine ⟨by rw [l1, h1], fun f hf => ?_, fun f hf => ?_⟩
    · by_cases hfj : f = j
      · subst hfj
        rw [l2, h3 f le_rfl]
      · rw [l3 f hfj, h2 f (by omega)]
    · rw [l3 f (by omega), h3 f (by omega)]

theorem countP_range_succ (bin : Entry → Nat) (es : List Entry) (lo hi : Nat) (hle : lo ≤ hi) :
    es.countP (fun e => lo ≤ bin e ∧ bin e < hi + 1) =
      es.countP (fun e => lo ≤ bin e ∧ bin e < hi) + es.countP (fun e => bin e = hi) := by
  induction es with
  | nil => rfl
  | cons e es ih =>
    simp only [List.countP_cons, ih]
    split_ifs with c1 c2 c3 <;> simp only [decide_eq_true_eq] at * <;> omega

/-- Summing per-bin entry counts over a bin range counts the entries whose bin lies
in the range. -/
theorem binRangeSum_countP (bin : Entry → Nat) (es : List Entry) (h : List Nat)
    (hh : ∀ b, h.getD b 0 = es.countP (fun e => bin e = b)) (lo hi : Nat) (hle : lo ≤ hi) :
    binRangeSum h lo hi = es.countP (fun e => lo ≤ bin e ∧ bin e < hi) := by
  induction hi with
  | zero =>
    have : lo = 0 := by omega
    subst this
    rw [binRangeSum_self]
    symm
    rw [List.countP_eq_zero]
    intro e _
    simp
  | succ n ih =>
    by_cases hl : lo = n + 1
    · subst hl
      rw [binRangeSum_self]
      symm
      rw [List.countP_eq_zero]
      intro e _
      simp only [decide_eq_true_eq]
      omega
    · rw [binRangeSum_succ _ _ _ (by omega), ih (by omega), hh n,
        countP_range_succ bin es lo n (by omega)]

theorem countP_congr_mem (es : List Entry) (p q : Entry → Bool)
    (h : ∀ e ∈ es, p e = q e) : es.countP p = es.countP q := by
  induction es with
  | nil => rfl
  | cons e es ih =>
    rw [List.countP_cons, List.countP_cons, h e (List.mem_cons_self _ _),
      ih (fun e' he' => h e' (List.mem_cons_of_mem _ he'))]

/-- With monotone offsets and non-empty slices, the bin of an entry lies in the range
of feature `f` exactly when the entry belongs to feature `f`. -/
theorem searchBin_in_range_iff (cv : List ℚ) (cp : List Nat) (hu : PtrsU32 cp)
    (hm : PtrsMonotone cp) (hne : SlicesNonEmpty cp) (e : Entry) (f : Nat)
    (he : e.index + 1 < cp.length) (hf : f + 1 < cp.length) :
    (cp.getD f 0 ≤ SearchBin cv cp e ∧ SearchBin cv cp e < cp.getD (f + 1) 0) ↔ e.index = f := by
  obtain ⟨h1, h2, _⟩ := searchBin_range cv cp e.index e.fvalue hu hm hne he
  have hb : SearchBin cv cp ⟨e.index, e.fvalue⟩ = SearchBin cv cp e := rfl
  rw [hb] at h1 h2
  constructor
  · intro ⟨a, b⟩
    by_contra hne'
    rcases Nat.lt_or_gt_of_ne hne' with hlt | hgt
    · have := hm (e.index + 1) f (by omega) (by omega)
      omega
    · have := hm (f + 1) e.index (by omega) (by omega)
      omega
  · intro h
    subst h
    exact ⟨h1, h2⟩

/-- C9: for a matrix initialised from a fresh object and a `counts` vector of length
`nfeatures` that is all zero on entry, `GetFeatureCounts` sets `counts[f]`, for
every feature `f`, to the sum of `hit_count[b]` over `b` in
`[cut_ptrs[f], cut_ptrs[f+1])`, which is the number of non-missing entries of the
matrix whose feature index is `f`. -/
theorem GetFeatureCounts_counts_entries (m : GHistIndexMatrix) (dmat : DeviceMatrix)
    (cut : HistogramCuts) (max_bins : Int)
    (hfresh : m.hit_count = []) (hcv : 0 < cut.cut_values_.length)
    (hv : RowPtrValid dmat) (hu : PtrsU32 cut.cut_ptrs_) (hm : PtrsMonotone cut.cut_ptrs_)
    (hne : SlicesNonEmpty cut.cut_ptrs_)
    (hfeat : ∀ e ∈ allEntries dmat, e.index + 1 < cut.cut_ptrs_.length) :
    ∃ m', Init m dmat cut max_bins = some m' ∧
      ∀ f, f + 1 < cut.cut_ptrs_.length →
        (GetFeatureCounts m' (List.replicate (cut.cut_ptrs_.length - 1) 0)).getD f 0 =
          binRangeSum m'.hit_count (cut.cut_ptrs_.getD f 0) (cut.cut_ptrs_.getD (f + 1) 0) ∧
        (GetFeatureCounts m' (List.replicate (cut.cut_ptrs_.length - 1) 0)).getD f 0 =
          (allEntries dmat).countP (fun e => e.index = f) := by
  obtain ⟨m', hinit⟩ := Init_succeeds m dmat cut max_bins hcv
  obtain ⟨hcut, _, _⟩ := Init_hit_count m dmat cut max_bins m' hinit hv
  obtain ⟨_, hcount, _⟩ :=
    Init_fresh_hit_count m dmat cut max_bins m' hfresh hinit hv hu hm hne hfeat
  refine ⟨m', hinit, fun f hf => ?_⟩
  have hspec := GetFeatureCounts_spec m' (List.replicate (cut.cut_ptrs_.length - 1) 0)
    (by rw [hcut, List.length_replicate])
    (by rw [hcut]; exact fun g hg => hm g (g + 1) (Nat.le_succ g) hg)
  have hval := hspec.2 f (by rw [List.length_replicate]; omega)
  rw [getD_replicate_zero, Nat.zero_add, hcut] at hval
  refine ⟨hval, ?_⟩
  rw [hval, binRangeSum_countP (SearchBin cut.cut_values_ cut.cut_ptrs_) (allEntries dmat)
    m'.hit_count hcount _ _ (hm f (f + 1) (Nat.le_succ f) hf)]
  apply countP_congr_mem
  intro e he
  have := searchBin_in_range_iff cut.cut_values_ cut.cut_ptrs_ hu hm hne e f (hfeat e he) hf
  by_cases hef : e.index = f
  · simp only [hef, decide_True, decide_eq_true_eq]
    exact this.mpr hef
  · simp only [hef, decide_False, decide_eq_false_iff_not]
    exact fun hc => hef (this.mp hc)

/-- Witness of `GetFeatureCounts_counts_entries` on the sparse example. -/
theorem GetFeatureCounts_counts_entries_witness :
    ∃ m', Init {} exampleSparse exampleCuts 256 = some m' ∧
      ∀ f, f + 1 < exampleCuts.cut_ptrs_.length →
        (GetFeatureCounts m' (List.replicate (exampleCuts.cut_ptrs_.length - 1) 0)).getD f 0 =
          binRangeSum m'.hit_count (exampleCuts.cut_ptrs_.getD f 0)
            (exampleCuts.cut_ptrs_.getD (f + 1) 0) ∧
        (GetFeatureCounts m' (List.replicate (exampleCuts.cut_ptrs_.length - 1) 0)).getD f 0 =
          (allEntries exampleSparse).countP (fun e => e.index = f) :=
  GetFeatureCounts_counts_entries {} exampleSparse exampleCuts 256 rfl (by decide)
    exampleSparse_valid exampleCuts_u32 exampleCuts_monotone exampleCuts_nonEmpty
    exampleSparse_features

/-! ### `SetIndexData`: the index -/

/-- A loop that stores `f j` at `start + j` for `lo ≤ j < hi` replaces that range of
the array. -/
theorem setRange_spec (d : List Nat) (f : Nat → Nat) (start lo hi : Nat) (hle : lo ≤ hi)
    (hlen : start + hi ≤ d.length) :
    forLoop lo hi (fun j x => x.set (start + j) (f j)) d =
      d.take (start + lo) ++ (List.range' lo (hi - lo)).map f ++ d.drop (start + hi) := by
  refine forLoop_induction
    (fun k st => st = d.take (start + lo) ++ (List.range' lo (k - lo)).map f ++ d.drop (start + k))
    lo hi _ d hle ?_ ?_
  · simp
  · intro j st hj1 hj2 hst
    subst hst
    have hl : (d.take (start + lo) ++ (List.range' lo (j - lo)).map f).length = start + j := by
      simp only [List.length_append, List.length_take, List.length_map, List.length_range']
      omega
    rw [List.set_append_right _ _ (by omega), hl, Nat.sub_self]
    rw [List.drop_eq_getElem_cons (by omega : start + j < d.length), List.set_cons_zero]
    have e : j + 1 - lo = (j - lo) + 1 := by omega
    rw [e, List.range'_concat, List.map_append]
    simp only [List.map_cons, List.map_nil, Nat.one_mul, List.append_assoc, List.singleton_append]
    rw [Nat.add_sub_cancel' hj1]
    rfl

theorem map_const_range' (lo n v : Nat) :
    (List.range' lo n).map (fun _ => v) = List.replicate n v := by
  induction n generalizing lo with
  | zero => rfl
  | succ k ih => rw [List.range'_succ, List.map_cons, ih, List.replicate_succ]

/-- The bins of the entries of a row, narrowed to `w` bytes, in input order. -/
theorem rowKernel_loop_fst (w : Nat) (dmat : DeviceMatrix) (cv : List ℚ) (cp : List Nat)
    (offsets : Option (List Nat)) (ibegin start size : Nat) (st : List Nat × List Nat)
    (hlen : start + size ≤ st.1.length) :
    (forLoop 0 size (SetIndexData.entryStep w dmat cv cp offsets ibegin start) st).1 =
      st.1.take start ++
        (List.range' 0 size).map (fun j => SetIndexData.stored w offsets j
          (SearchBin cv cp (dmat.data.getD (ibegin + j) default)))
        ++ st.1.drop (start + size) := by
  rw [forLoop_fst _ _ _ (fun j x => x.set (start + j) (SetIndexData.stored w offsets j
    (SearchBin cv cp (dmat.data.getD (ibegin + j) default)))) _ (fun j st => rfl)]
  rw [setRange_spec _ _ start 0 size (Nat.zero_le _) hlen]
  simp

/-- Dense work item: the range of the row is replaced by the stored values. -/
theorem rowKernel_fst_dense (w : Nat) (dmat : DeviceMatrix) (cv : List ℚ) (cp : List Nat)
    (nbins rs : Nat) (offs : List Nat) (i : Nat) (st : List Nat × List Nat)
    (hlen : i * rs + (dmat.row_ptr.getD (i + 1) 0 - dmat.row_ptr.getD i 0) ≤ st.1.length) :
    (SetIndexData.rowKernel w dmat cv cp nbins rs (some offs) i st).1 =
      st.1.take (i * rs) ++
        (List.range' 0 (dmat.row_ptr.getD (i + 1) 0 - dmat.row_ptr.getD i 0)).map
          (fun j => SetIndexData.stored w (some offs) j
            (SearchBin cv cp (dmat.data.getD (dmat.row_ptr.getD i 0 + j) default)))
        ++ st.1.drop (i * rs + (dmat.row_ptr.getD (i + 1) 0 - dmat.row_ptr.getD i 0)) := by
  rw [SetIndexData.rowKernel]
  exact rowKernel_loop_fst w dmat cv cp (some offs) _ _ _ st hlen

/-- The sorted bins of row `i`, as `mergeSort` leaves them in the sparse case. -/
theorem rowKernel_fst_sparse (w : Nat) (dmat : DeviceMatrix) (cv : List ℚ) (cp : List Nat)
    (nbins rs : Nat) (i : Nat) (st : List Nat × List Nat)
    (hsize : dmat.row_ptr.getD (i + 1) 0 - dmat.row_ptr.getD i 0 ≤ rs)
    (hlen : i * rs + rs ≤ st.1.length) :
    (SetIndexData.rowKernel w dmat cv cp nbins rs none i st).1 =
      st.1.take (i * rs) ++
        ((mergeSort (fun x y : Nat => decide (x < y))
          ((List.range' 0 (dmat.row_ptr.getD (i + 1) 0 - dmat.row_ptr.getD i 0)).map
            (fun j => SetIndexData.stored w none j
              (SearchBin cv cp (dmat.data.getD (dmat.row_ptr.getD i 0 + j) default))))
          (List.replicate (dmat.row_ptr.getD (i + 1) 0 - dmat.row_ptr.getD i 0) 0)).1 ++
         List.replicate (rs - (dmat.row_ptr.getD (i + 1) 0 - dmat.row_ptr.getD i 0))
           (nbins % 2 ^ (8 * w)))
        ++ st.1.drop (i * rs + rs) := by
  rw [SetIndexData.rowKernel]
  dsimp only
  generalize hsz : dmat.row_ptr.getD (i + 1) 0 - dmat.row_ptr.getD i 0 = size at hsize
  rw [rowKernel_loop_fst w dmat cv cp none _ _ _ st (by omega)]
  generalize hB : (List.range' 0 size).map (fun j => SetIndexData.stored w none j
      (SearchBin cv cp (dmat.data.getD (dmat.row_ptr.getD i 0 + j) default))) = B
  have hBl : B.length = size := by rw [← hB]; simp
  have hA : (st.1.take (i * rs)).length = i * rs := by rw [List.length_take]; omega
  have hseg : ((st.1.take (i * rs) ++ B ++ st.1.drop (i * rs + size)).drop (i * rs)).take size
      = B := by
    rw [List.append_assoc, List.drop_left' hA, List.take_left' hBl]
  have htk : (st.1.take (i * rs) ++ B ++ st.1.drop (i * rs + size)).take (i * rs)
      = st.1.take (i * rs) := by
    rw [List.append_assoc, List.take_left' hA]
  have hdr : (st.1.take (i * rs) ++ B ++ st.1.drop (i * rs + size)).drop (i * rs + size)
      = st.1.drop (i * rs + size) := by
    rw [List.drop_left' (by rw [List.length_append, hA, hBl])]
  rw [hseg, htk, hdr]
  generalize hS : (mergeSort (fun x y : Nat => decide (x < y)) B (List.replicate size 0)).1 = S
  have hSl : S.length = size := by
    rw [← hS, (mergeSort_perm _ B _ (by simp [hBl])).length_eq, hBl]
  have hAS : (st.1.take (i * rs) ++ S).length = i * rs + size := by
    rw [List.length_append, hA, hSl]
  rw [setRange_spec _ _ (i * rs) size rs hsize (by
    simp only [List.length_append, List.length_take, List.length_drop, hSl]
    omega)]
  rw [map_const_range', List.take_left' hAS]
  have hd2 : (st.1.take (i * rs) ++ S ++ st.1.drop (i * rs + size)).drop (i * rs + rs) =
      st.1.drop (i * rs + rs) := by
    have e : i * rs + rs = (st.1.take (i * rs) ++ S).length + (rs - size) := by omega
    rw [e, List.drop_append, List.drop_drop]
    congr 1
    omega
  rw [hd2]
  simp only [List.append_assoc]

theorem row_offset_le (i n rs : Nat) (h : i < n) : i * rs + rs ≤ n * rs := by
  have := Nat.mul_le_mul_right rs (Nat.succ_le_of_lt h)
  rw [Nat.succ_mul] at this
  exact this

/-- Work items that each replace the stride of their own row leave, after the
`parallel_for`, every stride as its work item wrote it. -/
theorem rows_spec (K : Nat → List Nat × List Nat → List Nat × List Nat)
    (seg : Nat → List Nat) (n rs : Nat) (s : List Nat × List Nat)
    (hs : s.1.length = n * rs) (hseg : ∀ i, i < n → (seg i).length = rs)
    (hK : ∀ i st, i < n → st.1.length = n * rs →
      (K i st).1 = st.1.take (i * rs) ++ seg i ++ st.1.drop (i * rs + rs)) :
    (forLoop 0 n K s).1.length = n * rs ∧
    ∀ i, i < n → ((forLoop 0 n K s).1.drop (i * rs)).take rs = seg i := by
  have key := forLoop_induction
    (fun k st => st.1.length = n * rs ∧ ∀ i, i < k → (st.1.drop (i * rs)).take rs = seg i)
    0 n K s (Nat.zero_le n) ⟨hs, fun i hi => absurd hi (Nat.not_lt_zero i)⟩ ?_
  · exact key
  · intro j st _ hj ⟨h1, h2⟩
    have hjn := row_offset_le j n rs hj
    have hT : (st.1.take (j * rs)).length = j * rs := by rw [List.length_take]; omega
    rw [hK j st hj h1]
    refine ⟨?_, fun i hi => ?_⟩
    · simp only [List.length_append, List.length_take, List.length_drop, hseg j hj]
      omega
    · by_cases hij : i = j
      · subst hij
        rw [List.append_assoc, List.drop_left' hT, List.take_left' (hseg i hj)]
      · have hlt : i < j := by omega
        have hji := row_offset_le i j rs hlt
        rw [List.append_assoc, List.drop_append_of_le_length (by omega),
          List.take_append_of_le_length (by rw [List.length_drop]; omega),
          List.drop_take, List.take_take, ← h2 i hlt]
        congr 1
        omega


/-- After the sparse `SetIndexData`, the stride of every row holds the sorted bins of
the row followed by the padding value. -/
theorem SetIndexData_sparse_rows (w : Nat) (index_data hit_count : List Nat)
    (dmat : DeviceMatrix) (cv : List ℚ) (cp : List Nat) (nbins rs : Nat)
    (hlen : index_data.length = (dmat.row_ptr.length - 1) * rs)
    (hsize : ∀ i, i + 1 < dmat.row_ptr.length → rowSize dmat i ≤ rs)
    (i : Nat) (hi : i + 1 < dmat.row_ptr.length) :
    ((SetIndexData w index_data hit_count dmat cv cp nbins rs none).1.drop (i * rs)).take rs =
      (mergeSort (fun x y : Nat => decide (x < y))
        ((List.range' 0 (rowSize dmat i)).map (fun j => SetIndexData.stored w none j
          (SearchBin cv cp (dmat.data.getD (dmat.row_ptr.getD i 0 + j) default))))
        (List.replicate (rowSize dmat i) 0)).1 ++
      List.replicate (rs - rowSize dmat i) (nbins % 2 ^ (8 * w)) := by
  rw [SetIndexData]
  refine (rows_spec (SetIndexData.rowKernel w dmat cv cp nbins rs none)
    (fun i => (mergeSort (fun x y : Nat => decide (x < y))
        ((List.range' 0 (rowSize dmat i)).map (fun j => SetIndexData.stored w none j
          (SearchBin cv cp (dmat.data.getD (dmat.row_ptr.getD i 0 + j) default))))
        (List.replicate (rowSize dmat i) 0)).1 ++
      List.replicate (rs - rowSize dmat i) (nbins % 2 ^ (8 * w)))
    (dmat.row_ptr.length - 1) rs (index_data, hit_count) hlen ?_ ?_).2 i (by omega)
  · intro k hk
    have hks := hsize k (by omega)
    rw [List.length_append, List.length_replicate,
      (mergeSort_perm _ _ _ (by simp)).length_eq]
    simp only [List.length_map, List.length_range']
    omega
  · intro k st hk hst
    have hks := hsize k (by omega)
    have hoff := row_offset_le k (dmat.row_ptr.length - 1) rs hk
    exact rowKernel_fst_sparse w dmat cv cp nbins rs k st hks (by omega)

/-- C6: for every sparse matrix built by `SetIndexData` (`offsets` null) into a span
of `nrows * row_stride` cells, with `row_stride` at least the size of every row,
and for every row, the bin ids stored in the row's first `size` positions form a
non-decreasing sequence, whatever the entries of the row and their order. -/
theorem SetIndexData_sparse_row_sorted (w : Nat) (index_data hit_count : List Nat)
    (dmat : DeviceMatrix) (cv : List ℚ) (cp : List Nat) (nbins rs : Nat)
    (hlen : index_data.length = (dmat.row_ptr.length - 1) * rs)
    (hsize : ∀ i, i + 1 < dmat.row_ptr.length → rowSize dmat i ≤ rs)
    (i : Nat) (hi : i + 1 < dmat.row_ptr.length) :
    (((SetIndexData w index_data hit_count dmat cv cp nbins rs none).1.drop (i * rs)).take
      (rowSize dmat i)).Pairwise (· ≤ ·) := by
  have hrow := SetIndexData_sparse_rows w index_data hit_count dmat cv cp nbins rs hlen hsize i hi
  have hks := hsize i hi
  have htake : ((SetIndexData w index_data hit_count dmat cv cp nbins rs none).1.drop (i * rs)).take
      (rowSize dmat i) =
      (((SetIndexData w index_data hit_count dmat cv cp nbins rs none).1.drop (i * rs)).take
        rs).take (rowSize dmat i) := by
    rw [List.take_take, Nat.min_eq_left hks]
  rw [htake, hrow, List.take_left' ((mergeSort_perm _ _ _ (by simp)).length_eq.trans (by simp))]
  exact mergeSort_sorted _ _ (by simp)

theorem exampleSparse_stride :
    ∀ i, i + 1 < exampleSparse.row_ptr.length → rowSize exampleSparse i ≤ 2 := by
  intro i hi
  have hi5 : i + 1 < 5 := hi
  have hi4 : i < 4 := by omega
  interval_cases i <;> decide

/-- Witness of `SetIndexData_sparse_row_sorted`: the third row of the sparse example,
whose entries come in the order feature 1, feature 0. -/
theorem SetIndexData_sparse_row_sorted_witness :
    (((SetIndexData 4 (List.replicate 8 0) [0, 0, 0] exampleSparse exampleCuts.cut_values_
        exampleCuts.cut_ptrs_ 3 2 none).1.drop (2 * 2)).take
      (rowSize exampleSparse 2)).Pairwise (· ≤ ·) :=
  SetIndexData_sparse_row_sorted 4 (List.replicate 8 0) [0, 0, 0] exampleSparse
    exampleCuts.cut_values_ exampleCuts.cut_ptrs_ 3 2 (by decide) exampleSparse_stride 2
    (by decide)

theorem mem_allEntries (dmat : DeviceMatrix) (hv : RowPtrValid dmat) (k : Nat)
    (h0 : dmat.row_ptr.getD 0 0 ≤ k)
    (h1 : k < dmat.row_ptr.getD (dmat.row_ptr.length - 1) 0) :
    dmat.data.getD k default ∈ allEntries dmat := by
  have hk : k < dmat.data.length := lt_of_lt_of_le h1 hv.2.2
  rw [allEntries, List.getD_eq_getElem _ _ hk, List.mem_iff_getElem]
  refine ⟨k - dmat.row_ptr.getD 0 0, ?_, ?_⟩
  · simp only [List.length_take, List.length_drop]
    omega
  · apply Option.some.inj
    rw [← List.getElem?_eq_getElem, ← List.getElem?_eq_getElem, List.getElem?_take,
      if_pos (by omega), List.getElem?_drop]
    congr 1
    omega

/-- The entry `j` of row `i` is one of the non-missing entries of the matrix. -/
theorem row_entry_mem (dmat : DeviceMatrix) (hv : RowPtrValid dmat) (i j : Nat)
    (hi : i + 1 < dmat.row_ptr.length) (hj : j < rowSize dmat i) :
    dmat.data.getD (dmat.row_ptr.getD i 0 + j) default ∈ allEntries dmat := by
  have h0 := rowPtr_mono dmat hv 0 i (Nat.zero_le i) (by omega)
  have h1 := rowPtr_mono dmat hv (i + 1) (dmat.row_ptr.length - 1) (by omega) (by omega)
  unfold rowSize at hj
  exact mem_allEntries dmat hv _ (by omega) (by omega)

theorem totalBins_lt_u32 (cp : List Nat) (hu : PtrsU32 cp) : totalBins cp < u32 := by
  unfold totalBins
  by_cases h : 0 < cp.length
  · exact getD_lt_u32 hu (by omega)
  · have : cp = [] := List.length_eq_zero.mp (by omega)
    subst this
    decide

theorem mod_u32_width (n : Nat) (h : n < u32) : n % 2 ^ (8 * kUint32BinsTypeSize) = n := by
  have e : (2 : Nat) ^ (8 * kUint32BinsTypeSize) = u32 := by
    rw [kUint32BinsTypeSize, u32]
  rw [e, Nat.mod_eq_of_lt h]

/-- C7: for every sparse matrix built by `SetIndexData` over 32-bit cells, with valid
feature indices and `nbins = cut_ptrs[nfeatures]`, and every row with `size`
non-missing entries, positions `size .. row_stride-1` of the row's stride all hold
the sentinel `nbins` and positions `0 .. size-1` all hold values `< nbins`; a row
with zero entries yields a stride consisting only of `nbins`. -/
theorem SetIndexData_sparse_padding (index_data hit_count : List Nat)
    (dmat : DeviceMatrix) (cv : List ℚ) (cp : List Nat) (rs : Nat)
    (hlen : index_data.length = (dmat.row_ptr.length - 1) * rs)
    (hsize : ∀ i, i + 1 < dmat.row_ptr.length → rowSize dmat i ≤ rs)
    (hv : RowPtrValid dmat) (hu : PtrsU32 cp) (hm : PtrsMonotone cp) (hne : SlicesNonEmpty cp)
    (hfeat : ∀ e ∈ allEntries dmat, e.index + 1 < cp.length)
    (i : Nat) (hi : i + 1 < dmat.row_ptr.length) :
    (∀ j, rowSize dmat i ≤ j → j < rs →
      (SetIndexData kUint32BinsTypeSize index_data hit_count dmat cv cp (totalBins cp) rs
        none).1.getD (i * rs + j) 0 = totalBins cp) ∧
    (∀ j, j < rowSize dmat i →
      (SetIndexData kUint32BinsTypeSize index_data hit_count dmat cv cp (totalBins cp) rs
        none).1.getD (i * rs + j) 0 < totalBins cp) ∧
    (rowSize dmat i = 0 →
      ((SetIndexData kUint32BinsTypeSize index_data hit_count dmat cv cp (totalBins cp) rs
        none).1.drop (i * rs)).take rs = List.replicate rs (totalBins cp)) := by
  have hrow := SetIndexData_sparse_rows kUint32BinsTypeSize index_data hit_count dmat cv cp
    (totalBins cp) rs hlen hsize i hi
  rw [mod_u32_width _ (totalBins_lt_u32 cp hu)] at hrow
  have hks := hsize i hi
  generalize hB : (List.range' 0 (rowSize dmat i)).map (fun j => SetIndexData.stored
      kUint32BinsTypeSize none j
      (SearchBin cv cp (dmat.data.getD (dmat.row_ptr.getD i 0 + j) default))) = B at hrow
  have hBl : B.length = rowSize dmat i := by rw [← hB]; simp
  have hperm := mergeSort_perm (fun x y : Nat => decide (x < y)) B
    (List.replicate (rowSize dmat i) 0) (by simp [hBl])
  generalize hS : (mergeSort (fun x y : Nat => decide (x < y)) B
    (List.replicate (rowSize dmat i) 0)).1 = S at hrow hperm
  have hSl : S.length = rowSize dmat i := by rw [hperm.length_eq, hBl]
  have hBlt : ∀ x ∈ B, x < totalBins cp := by
    intro x hx
    rw [← hB, List.mem_map] at hx
    obtain ⟨j, hj, rfl⟩ := hx
    have hj' : j < rowSize dmat i := by
      have := (List.mem_range'_1.mp hj).2
      omega
    have hmem := row_entry_mem dmat hv i j hi hj'
    have hb := (searchBin_range cv cp _ (dmat.data.getD (dmat.row_ptr.getD i 0 + j) default).fvalue
      hu hm hne (hfeat _ hmem)).2.2
    unfold SetIndexData.stored
    exact lt_of_le_of_lt (Nat.mod_le _ _) hb
  have hget : ∀ j, j < rs →
      (SetIndexData kUint32BinsTypeSize index_data hit_count dmat cv cp (totalBins cp) rs
        none).1.getD (i * rs + j) 0 = (S ++ List.replicate (rs - rowSize dmat i) (totalBins cp)).getD j 0 := by
    intro j hj
    rw [← hrow]
    simp only [List.getD_eq_getElem?_getD, List.getElem?_take, List.getElem?_drop, if_pos hj]
  refine ⟨fun j hj1 hj2 => ?_, fun j hj => ?_, fun h0 => ?_⟩
  · rw [hget j hj2, List.getD_eq_getElem?_getD, List.getElem?_append_right (by omega)]
    rw [List.getElem?_replicate, if_pos (by omega)]
    rfl
  · rw [hget j (by omega), List.getD_eq_getElem?_getD,
      List.getElem?_append_left (by omega), List.getElem?_eq_getElem (by omega)]
    exact hBlt _ (hperm.mem_iff.mp (List.getElem_mem _))
  · rw [hrow]
    have : S = [] := List.length_eq_zero.mp (by omega)
    rw [this, h0]
    simp

/-- Witness of `SetIndexData_sparse_padding`: the fourth row of the sparse example has
no entry and its stride holds the sentinel only. -/
theorem SetIndexData_sparse_padding_witness :
    ((SetIndexData kUint32BinsTypeSize (List.replicate 8 0) [0, 0, 0] exampleSparse
        exampleCuts.cut_values_ exampleCuts.cut_ptrs_ (totalBins exampleCuts.cut_ptrs_) 2
        none).1.drop (3 * 2)).take 2 = List.replicate 2 (totalBins exampleCuts.cut_ptrs_) :=
  (SetIndexData_sparse_padding (List.replicate 8 0) [0, 0, 0] exampleSparse
    exampleCuts.cut_values_ exampleCuts.cut_ptrs_ 2 (by decide) exampleSparse_stride
    exampleSparse_valid exampleCuts_u32 exampleCuts_monotone exampleCuts_nonEmpty
    exampleSparse_features 3 (by decide)).2.2 (by decide)

/-! ### The dense index: encode and decode -/

theorem rowStride_uniform (R : List Nat) (nf : Nat) (hn : 2 ≤ R.length)
    (h : ∀ i, i + 1 < R.length → R.getD (i + 1) 0 = R.getD i 0 + nf) :
    Init.rowStride R = nf := by
  unfold Init.rowStride
  have key := forLoop_induction (fun k st => st = if k ≤ 1 then 0 else nf) 1 R.length
    (fun i row_stride => max row_stride (R.getD i 0 - R.getD (i - 1) 0)) 0 (by omega)
    (by simp) ?_
  · rw [key, if_neg (by omega)]
  · intro j st hj1 hj2 hst
    have hr := h (j - 1) (by omega)
    have e : j - 1 + 1 = j := by omega
    rw [e] at hr
    dsimp only
    rw [hr]
    have e2 : R.getD (j - 1) 0 + nf - R.getD (j - 1) 0 = nf := by omega
    rw [e2, if_neg (by omega), hst]
    split <;> simp

theorem fillOffsets_spec (ix : Index) (cut : HistogramCuts) :
    (Init.fillOffsets ix cut).offset_ =
      (List.range' 0 (cut.cut_ptrs_.length - 1)).map (fun i => cut.cut_ptrs_.getD i 0) ∧
    (Init.fillOffsets ix cut).p_ = cut.cut_ptrs_.length - 1 ∧
    (Init.fillOffsets ix cut).cells = ix.cells ∧
    (Init.fillOffsets ix cut).binTypeSize_ = ix.binTypeSize_ := by
  rw [Init.fillOffsets]
  refine ⟨?_, rfl, rfl, rfl⟩
  dsimp only [Index.ResizeOffset]
  have e : (fun (i : Nat) (offsets : List Nat) => offsets.set i (cut.cut_ptrs_.getD i 0)) =
      (fun i x => x.set (0 + i) (cut.cut_ptrs_.getD i 0)) := by
    funext i x
    rw [Nat.zero_add]
  rw [e, setRange_spec _ _ 0 0 _ (Nat.zero_le _) (by rw [vecResize_length]; omega)]
  have hl := vecResize_length ix.offset_ (cut.cut_ptrs_.length - 1) 0
  rw [List.drop_of_length_le (by omega)]
  simp

theorem getD_map_range' (f : Nat → Nat) (n j : Nat) (hj : j < n) :
    ((List.range' 0 n).map f).getD j 0 = f j := by
  rw [List.getD_eq_getElem _ _ (by simpa using hj)]
  simp

/-- The width selected by `ResizeIndex` holds every feature-local bin below
`max_num_bins`. -/
theorem width_fits (mb w x : Nat) (isDense : Bool)
    (hw : w = if mb - 1 ≤ 255 ∧ isDense = true then 1
      else if (mb - 1 > 255 ∧ mb - 1 ≤ 65535) ∧ isDense = true then 2 else 4)
    (hx : x < mb) (hx32 : x < u32) : x % 2 ^ (8 * w) = x := by
  apply Nat.mod_eq_of_lt
  have hu : u32 = 4294967296 := by norm_num [u32]
  by_cases h8 : mb - 1 ≤ 255 ∧ isDense = true
  · rw [if_pos h8] at hw
    subst hw
    have : (2 : Nat) ^ (8 * 1) = 256 := by norm_num
    omega
  · rw [if_neg h8] at hw
    by_cases h16 : (mb - 1 > 255 ∧ mb - 1 ≤ 65535) ∧ isDense = true
    · rw [if_pos h16] at hw
      subst hw
      have : (2 : Nat) ^ (8 * 2) = 65536 := by norm_num
      omega
    · rw [if_neg h16] at hw
      subst hw
      have : (2 : Nat) ^ (8 * 4) = 4294967296 := by norm_num
      omega

/-- What `Init` stores for a dense matrix. -/
theorem Init_dense_eq (m : GHistIndexMatrix) (dmat : DeviceMatrix) (cut : HistogramCuts)
    (max_bins : Int) (m' : GHistIndexMatrix) (h : Init m dmat cut max_bins = some m')
    (hd : dmat.is_dense = true) :
    m'.index.cells =
      (SetIndexData (Init.resized m dmat cut max_bins).index.binTypeSize_
        (Init.resized m dmat cut max_bins).index.cells
        (Init.resized m dmat cut max_bins).hit_count dmat cut.cut_values_ cut.cut_ptrs_
        (totalBins cut.cut_ptrs_) (Init.rowStride dmat.row_ptr)
        (some ((List.range' 0 (cut.cut_ptrs_.length - 1)).map
          (fun i => cut.cut_ptrs_.getD i 0)))).1 ∧
    m'.index.offset_ =
      (List.range' 0 (cut.cut_ptrs_.length - 1)).map (fun i => cut.cut_ptrs_.getD i 0) ∧
    m'.index.p_ = cut.cut_ptrs_.length - 1 ∧
    m'.nbins = totalBins cut.cut_ptrs_ := by
  have hf := Init_resized_fields m dmat cut max_bins
  obtain ⟨f1, f2, f3, f4⟩ := fillOffsets_spec (Init.resized m dmat cut max_bins).index cut
  rw [Init] at h
  dsimp only at h
  by_cases hcv : ¬ cut.cut_values_.length > 0
  · rw [if_pos hcv] at h
    cases h
  · rw [if_neg hcv, if_pos hd] at h
    split at h
    · rw [← Option.some.inj h]
      dsimp only
      rw [f1, f3, f4, hf.2.2.1, hf.2.2.2.1]
      exact ⟨rfl, rfl, f2, rfl⟩
    · cases h

theorem toNat_size_t (max_bins : Int) (h0 : 0 < max_bins) (h1 : max_bins < 2 ^ 31) :
    (max_bins % (u64 : Int)).toNat = max_bins.toNat := by
  have hu : ((u64 : Nat) : Int) = 18446744073709551616 := by
    rw [u64_eq]
    rfl
  rw [hu, Int.emod_eq_of_lt (le_of_lt h0) (by norm_num at h1 ⊢; omega)]

/-- The width and the number of cells of the index after the first part of `Init`. -/
theorem Init_resized_index (m : GHistIndexMatrix) (dmat : DeviceMatrix) (cut : HistogramCuts)
    (max_bins : Int) (h0 : 0 < max_bins) (h1 : max_bins < 2 ^ 31)
    (hfit : 4 * ((dmat.row_ptr.length - 1) * Init.rowStride dmat.row_ptr) < u64) :
    (Init.resized m dmat cut max_bins).index.binTypeSize_ =
      (if max_bins.toNat - 1 ≤ 255 ∧ dmat.is_dense = true then 1
        else if (max_bins.toNat - 1 > 255 ∧ max_bins.toNat - 1 ≤ 65535) ∧ dmat.is_dense = true
          then 2 else 4) ∧
    (Init.resized m dmat cut max_bins).index.cells.length =
      (dmat.row_ptr.length - 1) * Init.rowStride dmat.row_ptr := by
  have hmod : ((dmat.row_ptr.length - 1) * Init.rowStride dmat.row_ptr) % u64 =
      (dmat.row_ptr.length - 1) * Init.rowStride dmat.row_ptr := Nat.mod_eq_of_lt (by omega)
  have hpos : 1 ≤ max_bins.toNat := by omega
  rw [Init.resized]
  rw [hmod, toNat_size_t max_bins h0 h1]
  rw [ResizeIndex_index _ _ _ _ hpos hfit _ rfl]
  exact ⟨rfl, vecResize_length _ _ _⟩

theorem getD_of_drop_take (l seg : List Nat) (a n j : Nat) (h : (l.drop a).take n = seg)
    (hj : j < n) : l.getD (a + j) 0 = seg.getD j 0 := by
  rw [← h]
  simp only [List.getD_eq_getElem?_getD, List.getElem?_take, List.getElem?_drop, if_pos hj]

/-- After the dense `SetIndexData` over rows of exactly `nf` entries, cell
`i * nf + j` holds the stored value of entry `j` of row `i`. -/
theorem SetIndexData_dense_cell (w : Nat) (index_data hit_count : List Nat)
    (dmat : DeviceMatrix) (cv : List ℚ) (cp : List Nat) (nbins nf : Nat) (offs : List Nat)
    (hlen : index_data.length = (dmat.row_ptr.length - 1) * nf)
    (hrows : ∀ i, i + 1 < dmat.row_ptr.length →
      dmat.row_ptr.getD (i + 1) 0 = dmat.row_ptr.getD i 0 + nf)
    (i j : Nat) (hi : i + 1 < dmat.row_ptr.length) (hj : j < nf) :
    (SetIndexData w index_data hit_count dmat cv cp nbins nf (some offs)).1.getD (i * nf + j) 0 =
      SetIndexData.stored w (some offs) j
        (SearchBin cv cp (dmat.data.getD (dmat.row_ptr.getD i 0 + j) default)) := by
  rw [SetIndexData]
  have hspec := (rows_spec (SetIndexData.rowKernel w dmat cv cp nbins nf (some offs))
    (fun i => (List.range' 0 nf).map (fun j => SetIndexData.stored w (some offs) j
      (SearchBin cv cp (dmat.data.getD (dmat.row_ptr.getD i 0 + j) default))))
    (dmat.row_ptr.length - 1) nf (index_data, hit_count) hlen (fun k _ => by simp) ?_).2 i
    (by omega)
  · rw [getD_of_drop_take _ _ _ _ _ hspec hj, getD_map_range' _ _ _ hj]
  · intro k st hk hst
    have hr := hrows k (by omega)
    have hsz : dmat.row_ptr.getD (k + 1) 0 - dmat.row_ptr.getD k 0 = nf := by omega
    have hoff := row_offset_le k (dmat.row_ptr.length - 1) nf hk
    have := rowKernel_fst_dense w dmat cv cp nbins nf offs k st (by rw [hsz]; omega)
    rw [hsz] at this
    exact this

/-- C4: for a dense matrix built by `Init` (every row has exactly `nfeatures` entries,
the `j`-th entry of a row being feature `j`) from a cut table whose feature slices
are non-empty and hold at most `max_bins` bins each, `Init` succeeds and, for every
row `i` and feature `j`, decoding position `i * nfeatures + j` with
`Index::operator[]` (stored value plus `offsets[position mod nfeatures]`) returns
exactly the global bin `SearchBin` resolved for that entry, a value below `nbins`:
the narrowed store never truncates. -/
theorem Init_dense_decode (m : GHistIndexMatrix) (dmat : DeviceMatrix) (cut : HistogramCuts)
    (max_bins : Int) (nf : Nat) (hd : dmat.is_dense = true)
    (hcp : cut.cut_ptrs_.length = nf + 1)
    (hrows : ∀ i, i + 1 < dmat.row_ptr.length →
      dmat.row_ptr.getD (i + 1) 0 = dmat.row_ptr.getD i 0 + nf)
    (hfeat : ∀ i j, i + 1 < dmat.row_ptr.length → j < nf →
      (dmat.data.getD (dmat.row_ptr.getD i 0 + j) default).index = j)
    (hu : PtrsU32 cut.cut_ptrs_) (hm : PtrsMonotone cut.cut_ptrs_)
    (hne : SlicesNonEmpty cut.cut_ptrs_)
    (h0 : 0 < max_bins) (h1 : max_bins < 2 ^ 31)
    (hslice : ∀ f, f < nf →
      cut.cut_ptrs_.getD (f + 1) 0 - cut.cut_ptrs_.getD f 0 ≤ max_bins.toNat)
    (hcv : 0 < cut.cut_values_.length)
    (hfit : 4 * ((dmat.row_ptr.length - 1) * nf) < u64) :
    ∃ m', Init m dmat cut max_bins = some m' ∧
      ∀ i j, i + 1 < dmat.row_ptr.length → j < nf →
        m'.index.get (i * nf + j) =
          SearchBin cut.cut_values_ cut.cut_ptrs_
            (dmat.data.getD (dmat.row_ptr.getD i 0 + j) default) ∧
        m'.index.get (i * nf + j) < m'.nbins := by
  obtain ⟨m', hinit⟩ := Init_succeeds m dmat cut max_bins hcv
  refine ⟨m', hinit, fun i j hi hj => ?_⟩
  obtain ⟨hcells, hoffs, hp, hnb⟩ := Init_dense_eq m dmat cut max_bins m' hinit hd
  have hrs : Init.rowStride dmat.row_ptr = nf := rowStride_uniform _ nf (by omega) hrows
  rw [hrs] at hcells
  obtain ⟨hw, hcl⟩ := Init_resized_index m dmat cut max_bins h0 h1 (by rw [hrs]; exact hfit)
  rw [hrs] at hcl
  have hnf : cut.cut_ptrs_.length - 1 = nf := by omega
  rw [hnf] at hoffs hp hcells
  -- the bin of the entry
  generalize he : dmat.data.getD (dmat.row_ptr.getD i 0 + j) default = e
  have hidx : e.index = j := by rw [← he]; exact hfeat i j hi hj
  obtain ⟨hb1, hb2, hb3⟩ := searchBin_range cut.cut_values_ cut.cut_ptrs_ e.index e.fvalue
    hu hm hne (by rw [hidx]; omega)
  have hb : SearchBin cut.cut_values_ cut.cut_ptrs_ ⟨e.index, e.fvalue⟩ =
      SearchBin cut.cut_values_ cut.cut_ptrs_ e := rfl
  rw [hb, hidx] at hb1 hb2
  rw [hb] at hb3
  generalize hI : SearchBin cut.cut_values_ cut.cut_ptrs_ e = idx at hb1 hb2 hb3 ⊢
  have hidx32 : idx < u32 := lt_trans hb3 (totalBins_lt_u32 _ hu)
  have hsl := hslice j hj
  -- the stored cell
  have hcell : m'.index.cells.getD (i * nf + j) 0 = idx - cut.cut_ptrs_.getD j 0 := by
    rw [hcells, SetIndexData_dense_cell _ _ _ dmat _ _ _ nf _ hcl hrows i j hi hj, he, hI]
    unfold SetIndexData.stored
    dsimp only
    rw [getD_map_range' _ _ _ hj, subU32, if_pos hb1]
    exact width_fits max_bins.toNat _ _ dmat.is_dense hw (by omega) (by omega)
  -- decoding
  have hdec : m'.index.get (i * nf + j) = idx := by
    unfold Index.get
    have hne' : ¬ m'.index.offset_.isEmpty = true := by
      rw [hoffs]
      intro hc
      have := List.isEmpty_iff.mp hc
      have hl : ((List.range' 0 nf).map (fun i => cut.cut_ptrs_.getD i 0)).length = nf := by simp
      rw [this] at hl
      simp at hl
      omega
    rw [if_pos hne', hcell, hp, hoffs]
    have hmod : (i * nf + j) % nf = j := by
      rw [Nat.add_comm, Nat.add_mul_mod_self_right, Nat.mod_eq_of_lt hj]
    rw [hmod, getD_map_range' _ _ _ hj, Nat.sub_add_cancel hb1, Nat.mod_eq_of_lt hidx32]
  rw [hdec, hnb]
  exact ⟨rfl, hb3⟩

/-- Witness of `Init_dense_decode` on the dense example (three rows, two features,
`max_bins = 256`, one-byte cells). -/
theorem Init_dense_decode_witness :
    ∃ m', Init {} exampleDense exampleCuts 256 = some m' ∧
      ∀ i j, i + 1 < exampleDense.row_ptr.length → j < 2 →
        m'.index.get (i * 2 + j) =
          SearchBin exampleCuts.cut_values_ exampleCuts.cut_ptrs_
            (exampleDense.data.getD (exampleDense.row_ptr.getD i 0 + j) default) ∧
        m'.index.get (i * 2 + j) < m'.nbins :=
  Init_dense_decode {} exampleDense exampleCuts 256 2 rfl rfl
    (by
      intro i hi
      have hi4 : i + 1 < 4 := hi
      have hi3 : i < 3 := by omega
      interval_cases i <;> decide)
    (by
      intro i j hi hj
      have hi4 : i + 1 < 4 := hi
      have hi3 : i < 3 := by omega
      interval_cases i <;> interval_cases j <;> decide)
    exampleCuts_u32 exampleCuts_monotone exampleCuts_nonEmpty (by decide) (by decide)
    (by
      intro f hf
      interval_cases f <;> decide)
    (by decide) (by decide)

/-! ### Strided loops, sums -/

theorem foldl_nested {α β σ : Type} (xs : List α) (g : α → List β) (f : σ → β → σ) (s : σ) :
    xs.foldl (fun st x => (g x).foldl f st) s = (xs.flatMap g).foldl f s := by
  induction xs generalizing s with
  | nil => rfl
  | cons x xs ih =>
    rw [List.foldl_cons, ih, List.flatMap_cons, List.foldl_append]

theorem sum_map_flatMap {α β : Type} (xs : List α) (g : α → List β) (f : β → ℚ) :
    ((xs.flatMap g).map f).sum = (xs.map (fun x => ((g x).map f).sum)).sum := by
  induction xs with
  | nil => rfl
  | cons x xs ih =>
    rw [List.flatMap_cons, List.map_append, List.sum_append, ih, List.map_cons, List.sum_cons]

theorem sum_map_comm {α β : Type} (xs : List α) (ys : List β) (f : α → β → ℚ) :
    (xs.map (fun x => (ys.map (fun y => f x y)).sum)).sum =
      (ys.map (fun y => (xs.map (fun x => f x y)).sum)).sum := by
  induction xs with
  | nil =>
    simp
  | cons x xs ih =>
    simp only [List.map_cons, List.sum_cons, ih]
    rw [← List.sum_map_add]

theorem sum_map_congr {α : Type} (xs : List α) (f g : α → ℚ) (h : ∀ x ∈ xs, f x = g x) :
    (xs.map f).sum = (xs.map g).sum := by
  induction xs with
  | nil => rfl
  | cons x xs ih =>
    rw [List.map_cons, List.map_cons, List.sum_cons, List.sum_cons,
      h x (List.mem_cons_self _ _), ih (fun y hy => h y (List.mem_cons_of_mem _ hy))]

theorem mem_strideList (lo hi step x : Nat) (hs : 0 < step) :
    x ∈ strideList lo hi step ↔ ∃ t, x = lo + t * step ∧ x < hi := by
  unfold strideList
  rw [List.mem_map]
  constructor
  · rintro ⟨t, ht, rfl⟩
    refine ⟨t, rfl, ?_⟩
    have ht' := List.mem_range.mp ht
    have h1 : (t + 1) * step ≤ hi - lo + step - 1 :=
      (Nat.le_div_iff_mul_le hs).mp ht'
    rw [Nat.succ_mul] at h1
    omega
  · rintro ⟨t, rfl, hlt⟩
    refine ⟨t, List.mem_range.mpr ?_, rfl⟩
    have : (t + 1) * step ≤ hi - lo + step - 1 := by
      rw [Nat.succ_mul]
      omega
    exact (Nat.le_div_iff_mul_le hs).mpr this

theorem nodup_strideList (lo hi step : Nat) (hs : 0 < step) :
    (strideList lo hi step).Nodup := by
  unfold strideList
  refine List.Nodup.map ?_ (List.nodup_range _)
  intro a b hab
  have h : a * step = b * step := by
    simp only at hab
    omega
  exact Nat.eq_of_mul_eq_mul_right hs h

/-- The strided loops of the `step` work items `0, ..., step - 1` together visit
every index below `n` exactly once. -/
theorem stride_partition_perm (n step : Nat) (hs : 0 < step) :
    ((List.range' 0 step).flatMap (fun r => strideList r n step)).Perm (List.range' 0 n) := by
  rw [List.perm_ext_iff_of_nodup]
  · intro x
    rw [List.mem_flatMap]
    constructor
    · rintro ⟨r, _, hx⟩
      obtain ⟨t, _, hlt⟩ := (mem_strideList r n step x hs).mp hx
      exact List.mem_range'_1.mpr ⟨Nat.zero_le _, by omega⟩
    · intro hx
      have hlt : x < n := by
        have := (List.mem_range'_1.mp hx).2
        omega
      refine ⟨x % step, List.mem_range'_1.mpr ⟨Nat.zero_le _, ?_⟩, ?_⟩
      · have := Nat.mod_lt x hs
        omega
      · exact (mem_strideList _ n step x hs).mpr ⟨x / step, (Nat.mod_add_div' x step).symm, hlt⟩
  · rw [List.nodup_flatMap]
    refine ⟨fun r _ => nodup_strideList r n step hs, ?_⟩
    refine List.Pairwise.imp_of_mem ?_ (List.nodup_range' 0 step)
    intro a b ha hb hab
    have ha' : a < step := by
      have := (List.mem_range'_1.mp ha).2
      omega
    have hb' : b < step := by
      have := (List.mem_range'_1.mp hb).2
      omega
    intro x hxa hxb
    obtain ⟨t, rfl, _⟩ := (mem_strideList a n step x hs).mp hxa
    obtain ⟨t', h2, _⟩ := (mem_strideList b n step _ hs).mp hxb
    apply hab
    have h3 : (a + t * step) % step = (b + t' * step) % step := by rw [h2]
    rw [Nat.add_mul_mod_self_right, Nat.add_mul_mod_self_right, Nat.mod_eq_of_lt ha',
      Nat.mod_eq_of_lt hb'] at h3
    exact h3
  · exact List.nodup_range' 0 n

theorem stride_partition_sum (n step : Nat) (hs : 0 < step) (f : Nat → ℚ) :
    ((List.range' 0 step).map (fun r => ((strideList r n step).map f).sum)).sum =
      ((List.range' 0 n).map f).sum := by
  rw [← sum_map_flatMap]
  exact ((stride_partition_perm n step hs).map f).sum_eq

/-! ### Accumulator arrays -/

theorem getD_set_eq {α : Type} (l : List α) (i : Nat) (v d : α) (h : i < l.length) :
    (l.set i v).getD i d = v := by
  rw [List.getD_eq_getElem?_getD, List.getElem?_set_self h]
  rfl

theorem getD_set_of_ne {α : Type} (l : List α) (i j : Nat) (v d : α) (h : i ≠ j) :
    (l.set i v).getD j d = l.getD j d := by
  rw [List.getD_eq_getElem?_getD, List.getElem?_set_ne h, List.getD_eq_getElem?_getD]

theorem addAt_length (buf : List ℚ) (k : Nat) (v : ℚ) : (addAt buf k v).length = buf.length := by
  simp [addAt]

theorem addAt_getD (buf : List ℚ) (k a : Nat) (v : ℚ) (h : k < buf.length) :
    (addAt buf k v).getD a 0 = buf.getD a 0 + (if k = a then v else 0) := by
  unfold addAt
  by_cases hka : k = a
  · subst hka
    rw [getD_set_eq _ _ _ _ h, if_pos rfl]
  · rw [getD_set_of_ne _ _ _ _ _ hka, if_neg hka, add_zero]

/-- A sequence of updates `buf[k] += v` adds to every accumulator the values of the
updates addressed to it. -/
theorem foldl_addAt (ops : List (Nat × ℚ)) (buf : List ℚ)
    (h : ∀ o ∈ ops, o.1 < buf.length) :
    (ops.foldl (fun b o => addAt b o.1 o.2) buf).length = buf.length ∧
    ∀ a, (ops.foldl (fun b o => addAt b o.1 o.2) buf).getD a 0 =
      buf.getD a 0 + (ops.map (fun o => if o.1 = a then o.2 else 0)).sum := by
  induction ops generalizing buf with
  | nil => simp
  | cons o ops ih =>
    have ho : o.1 < buf.length := h o (List.mem_cons_self _ _)
    obtain ⟨h1, h2⟩ := ih (addAt buf o.1 o.2) (by
      intro o' ho'
      rw [addAt_length]
      exact h o' (List.mem_cons_of_mem _ ho'))
    rw [List.foldl_cons]
    refine ⟨by rw [h1, addAt_length], fun a => ?_⟩
    rw [h2 a, addAt_getD _ _ _ _ ho, List.map_cons, List.sum_cons]
    ring

/-- A sequence of stores of `v` at the addresses `base + j`, `j ∈ L`. -/
theorem foldl_set_const (L : List Nat) (base : Nat) (v : ℚ) (buf : List ℚ) :
    (L.foldl (fun b j => b.set (base + j) v) buf).length = buf.length ∧
    (∀ a, (∀ j ∈ L, base + j ≠ a) →
      (L.foldl (fun b j => b.set (base + j) v) buf).getD a 0 = buf.getD a 0) ∧
    (∀ j ∈ L, base + j < buf.length →
      (L.foldl (fun b j => b.set (base + j) v) buf).getD (base + j) 0 = v) := by
  induction L generalizing buf with
  | nil => simp
  | cons x L ih =>
    obtain ⟨h1, h2, h3⟩ := ih (buf.set (base + x) v)
    rw [List.foldl_cons]
    refine ⟨by rw [h1, List.length_set], fun a ha => ?_, fun j hj hlt => ?_⟩
    · rw [h2 a (fun j hj => ha j (List.mem_cons_of_mem _ hj)),
        getD_set_of_ne _ _ _ _ _ (ha x (List.mem_cons_self _ _))]
    · by_cases hjL : j ∈ L
      · exact h3 j hjL (by rw [List.length_set]; exact hlt)
      · have hjx : j = x := by
          rcases List.mem_cons.mp hj with h | h
          · exact h
          · exact absurd h hjL
        subst hjx
        rw [h2 (base + j) (fun j' hj' hc => hjL (by
          have : j' = j := by omega
          rw [← this]; exact hj')), getD_set_eq _ _ _ _ hlt]

/-- The scatter phase of a work group: the region is zeroed, then the updates of the
group are applied. -/
theorem scatter_eq (pgh : List ℚ) (rid gi offs : List Nat) (B nf fl nb block : Nat)
    (buf : List ℚ) :
    BuildHistDenseKernel.scatter pgh rid gi offs B nf fl nb block buf =
      (denseOps pgh rid gi offs B nf fl nb block).foldl (fun b o => addAt b o.1 o.2)
        ((zeroList B fl).foldl (fun b j => b.set (block * B * 2 + j) 0) buf) := by
  unfold BuildHistDenseKernel.scatter denseOps zeroList forLoop forStride
  simp only [Nat.sub_zero]
  rw [← foldl_nested, ← foldl_nested]
  congr 1
  funext st feat
  rw [← foldl_nested]
  congr 1
  funext st i
  rw [← foldl_nested]
  rfl

theorem mem_zeroList (B fl c : Nat) (hfl : 0 < fl) : c ∈ zeroList B fl ↔ c < 2 * B := by
  unfold zeroList
  rw [(stride_partition_perm (2 * B) fl hfl).mem_iff, List.mem_range'_1]
  omega

theorem mul_u32_bin (bin B : Nat) (hbin : bin < B) (hB32 : 2 * B ≤ u32) :
    (2 * (bin % u32)) % u32 = 2 * bin := by
  have h1 : bin % u32 = bin := Nat.mod_eq_of_lt (by omega)
  rw [h1, Nat.mod_eq_of_lt (by omega)]

/-- The sum, over the updates of a work group, of the values addressed to one
accumulator of its region, as a sum over rows and features; `sel` says which of
the two updates of a `(row, feature)` pair can hit the accumulator. -/
theorem denseOps_sum (pgh : List ℚ) (rid gi offs : List Nat) (B nf fl nb block : Nat)
    (hfl : 0 < fl) (hnb : 0 < nb) (hB32 : 2 * B ≤ u32)
    (hbins : ∀ i j, i < rid.length → j < nf → denseBin rid gi offs nf i j < B)
    (a : Nat) (F : Nat → Nat → ℚ)
    (hF : ∀ i j, i < rid.length → j < nf →
      (if block * B * 2 + 2 * denseBin rid gi offs nf i j = a then pgh.getD (2 * rid.getD i 0) 0
        else 0) +
      (if block * B * 2 + (2 * denseBin rid gi offs nf i j + 1) = a
        then pgh.getD (2 * rid.getD i 0 + 1) 0 else 0) = F i j) :
    ((denseOps pgh rid gi offs B nf fl nb block).map (fun o => if o.1 = a then o.2 else 0)).sum =
      ((strideList block rid.length nb).map (fun i =>
        ((List.range' 0 nf).map (fun j => F i j)).sum)).sum := by
  unfold denseOps
  rw [sum_map_flatMap]
  have hinner : ∀ feat, ∀ i ∈ strideList block rid.length nb,
      (((strideList feat nf fl).flatMap (fun j =>
        [(block * B * 2 +
            (2 * ((gi.getD (nf * rid.getD i 0 + j) 0 + offs.getD j 0) % u32)) % u32,
          pgh.getD (2 * rid.getD i 0) 0),
         (block * B * 2 +
            ((2 * ((gi.getD (nf * rid.getD i 0 + j) 0 + offs.getD j 0) % u32)) % u32 + 1),
          pgh.getD (2 * rid.getD i 0 + 1) 0)])).map
        (fun o => if o.1 = a then o.2 else 0)).sum =
      ((strideList feat nf fl).map (fun j => F i j)).sum := by
    intro feat i hi
    have hi' : i < rid.length := by
      obtain ⟨_, _, h⟩ := (mem_strideList block rid.length nb i hnb).mp hi
      exact h
    rw [sum_map_flatMap]
    apply sum_map_congr
    intro j hj
    have hj' : j < nf := by
      obtain ⟨_, _, h⟩ := (mem_strideList feat nf fl j hfl).mp hj
      exact h
    have hb := hbins i j hi' hj'
    have hmul := mul_u32_bin _ B hb hB32
    unfold denseBin at hb hmul
    simp only [List.map_cons, List.map_nil, List.sum_cons, List.sum_nil, add_zero]
    rw [hmul]
    exact hF i j hi' hj'
  have hmid : ∀ feat,
      (((strideList block rid.length nb).flatMap (fun i =>
        (strideList feat nf fl).flatMap (fun j =>
        [(block * B * 2 +
            (2 * ((gi.getD (nf * rid.getD i 0 + j) 0 + offs.getD j 0) % u32)) % u32,
          pgh.getD (2 * rid.getD i 0) 0),
         (block * B * 2 +
            ((2 * ((gi.getD (nf * rid.getD i 0 + j) 0 + offs.getD j 0) % u32)) % u32 + 1),
          pgh.getD (2 * rid.getD i 0 + 1) 0)]))).map
        (fun o => if o.1 = a then o.2 else 0)).sum =
      ((strideList block rid.length nb).map (fun i =>
        ((strideList feat nf fl).map (fun j => F i j)).sum)).sum := by
    intro feat
    rw [sum_map_flatMap]
    exact sum_map_congr _ _ _ (hinner feat)
  rw [sum_map_congr _ _ _ (fun feat _ => hmid feat)]
  rw [sum_map_comm (List.range' 0 fl) (strideList block rid.length nb)
    (fun feat i => ((strideList feat nf fl).map (fun j => F i j)).sum)]
  apply sum_map_congr
  intro i _
  exact stride_partition_sum nf fl hfl (fun j => F i j)

theorem denseOps_addr (pgh : List ℚ) (rid gi offs : List Nat) (B nf fl nb block : Nat)
    (hfl : 0 < fl) (hnb : 0 < nb) (hB32 : 2 * B ≤ u32)
    (hbins : ∀ i j, i < rid.length → j < nf → denseBin rid gi offs nf i j < B) :
    ∀ o ∈ denseOps pgh rid gi offs B nf fl nb block,
      block * B * 2 ≤ o.1 ∧ o.1 < block * B * 2 + 2 * B := by
  intro o ho
  unfold denseOps at ho
  simp only [List.mem_flatMap] at ho
  obtain ⟨feat, _, i, hi, j, hj, ho⟩ := ho
  have hi' : i < rid.length := by
    obtain ⟨_, _, h⟩ := (mem_strideList block rid.length nb i hnb).mp hi
    exact h
  have hj' : j < nf := by
    obtain ⟨_, _, h⟩ := (mem_strideList feat nf fl j hfl).mp hj
    exact h
  have hb := hbins i j hi' hj'
  have hmul := mul_u32_bin _ B hb hB32
  unfold denseBin at hb hmul
  rw [hmul] at ho
  simp only [List.mem_cons, List.mem_singleton, List.mem_nil_iff, or_false] at ho
  rcases ho with rfl | rfl
  · constructor <;> simp only <;> omega
  · constructor <;> simp only <;> omega

theorem sum_map_eq_zero {α : Type} (xs : List α) (f : α → ℚ) (h : ∀ x ∈ xs, f x = 0) :
    (xs.map f).sum = 0 := by
  rw [sum_map_congr xs f (fun _ => 0) h]
  simp

theorem block_base_le (k k' B : Nat) (h : k < k') : k * B * 2 + 2 * B ≤ k' * B * 2 := by
  have := row_offset_le k k' (B * 2) h
  rw [Nat.mul_assoc, Nat.mul_assoc]
  omega

/-- The scatter phase of work group `block` leaves the other regions alone and puts,
in every accumulator of its own region, the sum of the updates addressed to it,
whatever the region held before. -/
theorem scatter_getD (pgh : List ℚ) (rid gi offs : List Nat) (B nf fl nb block : Nat)
    (buf : List ℚ) (hfl : 0 < fl) (hnb : 0 < nb) (hB32 : 2 * B ≤ u32)
    (hbins : ∀ i j, i < rid.length → j < nf → denseBin rid gi offs nf i j < B)
    (hlen : block * B * 2 + 2 * B ≤ buf.length) :
    (BuildHistDenseKernel.scatter pgh rid gi offs B nf fl nb block buf).length = buf.length ∧
    (∀ a, (a < block * B * 2 ∨ block * B * 2 + 2 * B ≤ a) →
      (BuildHistDenseKernel.scatter pgh rid gi offs B nf fl nb block buf).getD a 0 =
        buf.getD a 0) ∧
    (∀ c, c < 2 * B →
      (BuildHistDenseKernel.scatter pgh rid gi offs B nf fl nb block buf).getD
        (block * B * 2 + c) 0 =
      ((denseOps pgh rid gi offs B nf fl nb block).map
        (fun o => if o.1 = block * B * 2 + c then o.2 else 0)).sum) := by
  obtain ⟨z1, z2, z3⟩ := foldl_set_const (zeroList B fl) (block * B * 2) 0 buf
  have haddr := denseOps_addr pgh rid gi offs B nf fl nb block hfl hnb hB32 hbins
  obtain ⟨a1, a2⟩ := foldl_addAt (denseOps pgh rid gi offs B nf fl nb block)
    ((zeroList B fl).foldl (fun b j => b.set (block * B * 2 + j) 0) buf)
    (fun o ho => by rw [z1]; have := haddr o ho; omega)
  rw [scatter_eq]
  refine ⟨by rw [a1, z1], fun a ha => ?_, fun c hc => ?_⟩
  · rw [a2 a, z2 a (fun j hj => by
      have := (mem_zeroList B fl j hfl).mp hj
      omega)]
    rw [sum_map_eq_zero _ _ (fun o ho => by
      have := haddr o ho
      rw [if_neg (by omega)]), add_zero]
  · rw [a2, z3 c ((mem_zeroList B fl c hfl).mpr hc) (by omega), zero_add]

/-- After the scatter phase of all work groups, every accumulator of every region
holds the sum of the updates its group addressed to it. -/
theorem scatter_all_getD (pgh : List ℚ) (rid gi offs : List Nat) (B nf fl nb : Nat)
    (buf : List ℚ) (hfl : 0 < fl) (hnb : 0 < nb) (hB32 : 2 * B ≤ u32)
    (hbins : ∀ i j, i < rid.length → j < nf → denseBin rid gi offs nf i j < B)
    (hlen : nb * B * 2 ≤ buf.length) :
    ∀ k c, k < nb → c < 2 * B →
      (forLoop 0 nb (BuildHistDenseKernel.scatter pgh rid gi offs B nf fl nb) buf).getD
        (k * B * 2 + c) 0 =
      ((denseOps pgh rid gi offs B nf fl nb k).map
        (fun o => if o.1 = k * B * 2 + c then o.2 else 0)).sum := by
  have key := forLoop_induction
    (fun n st => st.length = buf.length ∧ ∀ k c, k < n → c < 2 * B →
      st.getD (k * B * 2 + c) 0 =
        ((denseOps pgh rid gi offs B nf fl nb k).map
          (fun o => if o.1 = k * B * 2 + c then o.2 else 0)).sum)
    0 nb (BuildHistDenseKernel.scatter pgh rid gi offs B nf fl nb) buf (Nat.zero_le _)
    ⟨rfl, fun k c hk _ => absurd hk (Nat.not_lt_zero k)⟩ ?_
  · exact fun k c hk hc => key.2 k c hk hc
  · intro j st _ hj ⟨h1, h2⟩
    have hjb : j * B * 2 + 2 * B ≤ buf.length := by
      have := block_base_le j nb B hj
      omega
    obtain ⟨s1, s2, s3⟩ := scatter_getD pgh rid gi offs B nf fl nb j st hfl hnb hB32 hbins
      (by omega)
    refine ⟨by rw [s1, h1], fun k c hk hc => ?_⟩
    by_cases hkj : k = j
    · subst hkj
      exact s3 c hc
    · have hlt : k < j := by omega
      have := block_base_le k j B hlt
      rw [s2 _ (Or.inl (by omega))]
      exact h2 k c hlt hc

theorem sumLoop_eq (n : Nat) (F : Nat → ℚ) :
    forLoop 0 n (fun j acc => acc + F j) 0 = ((List.range' 0 n).map F).sum := by
  induction n with
  | zero => simp [forLoop]
  | succ k ih =>
    rw [forLoop_succ _ _ _ _ (Nat.zero_le k), ih, List.range'_concat, List.map_append,
      List.sum_append]
    simp

/-- The reduction phase writes, for every bin, the sums over the blocks of the two
accumulators of the bin. -/
theorem reduce_getD (B nb : Nat) (buf hist : List ℚ) (hh : 2 * B ≤ hist.length) :
    ∀ b, b < B →
      (BuildHist.reduce B nb buf hist).getD (2 * b) 0 =
        ((List.range' 0 nb).map (fun k => buf.getD (k * B * 2 + 2 * b) 0)).sum ∧
      (BuildHist.reduce B nb buf hist).getD (2 * b + 1) 0 =
        ((List.range' 0 nb).map (fun k => buf.getD (k * B * 2 + 2 * b + 1) 0)).sum := by
  unfold BuildHist.reduce
  intro b hb
  refine (forLoop_induction
    (fun n st => st.length = hist.length ∧ ∀ b, b < n →
      st.getD (2 * b) 0 =
        ((List.range' 0 nb).map (fun k => buf.getD (k * B * 2 + 2 * b) 0)).sum ∧
      st.getD (2 * b + 1) 0 =
        ((List.range' 0 nb).map (fun k => buf.getD (k * B * 2 + 2 * b + 1) 0)).sum)
    0 B _ hist (Nat.zero_le _) ⟨rfl, fun b hb => absurd hb (Nat.not_lt_zero b)⟩ ?_).2 b hb
  intro j st _ hj ⟨h1, h2⟩
  dsimp only
  rw [sumLoop_eq, sumLoop_eq]
  refine ⟨by simp [h1], fun b hb => ?_⟩
  by_cases hbj : b = j
  · subst hbj
    constructor
    · rw [getD_set_of_ne _ _ _ _ _ (by omega), getD_set_eq _ _ _ _ (by omega)]
    · rw [getD_set_eq _ _ _ _ (by rw [List.length_set]; omega)]
  · have hlt : b < j := by omega
    obtain ⟨g1, g2⟩ := h2 b hlt
    constructor
    · rw [getD_set_of_ne _ _ _ _ _ (by omega), getD_set_of_ne _ _ _ _ _ (by omega), g1]
    · rw [getD_set_of_ne _ _ _ _ _ (by omega), getD_set_of_ne _ _ _ _ _ (by omega), g2]

theorem numBlocks_bounds (S B size : Nat) (hB : 0 < B) (hroom : 2 * B ≤ S) (hsize : 0 < size) :
    0 < numBlocks S B size ∧ numBlocks S B size * B * 2 ≤ S := by
  unfold numBlocks
  have h1 : 1 ≤ S / (B * 2) := (Nat.le_div_iff_mul_le (by omega)).mpr (by omega)
  have h2 : 1 ≤ size / 128 + (if size % 128 ≠ 0 then 1 else 0) := by
    split <;> omega
  have h3 : S / (B * 2) * (B * 2) ≤ S := Nat.div_mul_le_self S (B * 2)
  constructor
  · exact lt_min (by omega) (by omega)
  · have h4 : min (S / (B * 2)) (size / 128 + (if size % 128 ≠ 0 then 1 else 0)) * (B * 2) ≤
        S / (B * 2) * (B * 2) := Nat.mul_le_mul_right _ (Nat.min_le_left _ _)
    rw [Nat.mul_assoc]
    omega

/-- The destination row of the dense kernel: for every bin and both channels, the
sum over subset positions and features whose decoded bin is the bin. -/
theorem denseKernel_getD (pgh : List ℚ) (rid gi offs : List Nat)
    (B nf mfl : Nat) (hist hbuf : List ℚ)
    (hsize : 0 < rid.length) (hB : 0 < B) (hB32 : 2 * B ≤ u32) (hnf : 0 < nf)
    (hmfl : 0 < mfl) (hroom : 2 * B ≤ hbuf.length / 2) (hhist : hist.length = 2 * B)
    (hbins : ∀ i j, i < rid.length → j < nf → denseBin rid gi offs nf i j < B)
    (b : Nat) (hb : b < B) :
    (BuildHistDenseKernel.kernels pgh rid gi offs B nf mfl hist hbuf).1.getD (2 * b) 0 =
      ((List.range rid.length).map (fun i => ((List.range nf).map (fun j =>
        if denseBin rid gi offs nf i j = b then pgh.getD (2 * rid.getD i 0) 0 else 0)).sum)).sum
    ∧
    (BuildHistDenseKernel.kernels pgh rid gi offs B nf mfl hist hbuf).1.getD (2 * b + 1) 0 =
      ((List.range rid.length).map (fun i => ((List.range nf).map (fun j =>
        if denseBin rid gi offs nf i j = b then pgh.getD (2 * rid.getD i 0 + 1) 0
        else 0)).sum)).sum := by
  obtain ⟨hnb, hnbl⟩ := numBlocks_bounds (hbuf.length / 2) B rid.length hB hroom hsize
  have hfl : 0 < (if nf < mfl then nf else mfl) := by split <;> omega
  have hlen : numBlocks (hbuf.length / 2) B rid.length * B * 2 ≤ hbuf.length := by omega
  unfold BuildHistDenseKernel.kernels
  dsimp only
  generalize numBlocks (hbuf.length / 2) B rid.length = nb at hnb hlen
  generalize (if nf < mfl then nf else mfl) = fl at hfl
  obtain ⟨r1, r2⟩ := reduce_getD B nb
    (forLoop 0 nb (BuildHistDenseKernel.scatter pgh rid gi offs B nf fl nb) hbuf) hist
    (by omega) b hb
  have hall := scatter_all_getD pgh rid gi offs B nf fl nb hbuf hfl hnb hB32 hbins hlen
  rw [r1, r2, List.range_eq_range', List.range_eq_range']
  constructor
  · rw [← stride_partition_sum rid.length nb hnb]
    apply sum_map_congr
    intro k hk
    have hk' : k < nb := by
      have := (List.mem_range'_1.mp hk).2
      omega
    rw [hall k (2 * b) hk' (by omega)]
    refine denseOps_sum pgh rid gi offs B nf fl nb k hfl hnb hB32 hbins _ _ ?_
    intro i j _ _
    by_cases hbin : denseBin rid gi offs nf i j = b
    · rw [if_pos (by rw [hbin]), if_neg (by omega), if_pos hbin, add_zero]
    · rw [if_neg (by omega), if_neg (by omega), if_neg hbin, add_zero]
  · rw [← stride_partition_sum rid.length nb hnb]
    apply sum_map_congr
    intro k hk
    have hk' : k < nb := by
      have := (List.mem_range'_1.mp hk).2
      omega
    rw [Nat.add_assoc, hall k (2 * b + 1) hk' (by omega)]
    refine denseOps_sum pgh rid gi offs B nf fl nb k hfl hnb hB32 hbins _ _ ?_
    intro i j _ _
    by_cases hbin : denseBin rid gi offs nf i j = b
    · rw [if_neg (by omega), if_pos (by rw [hbin]), if_pos hbin, zero_add]
    · rw [if_neg (by omega), if_neg (by omega), if_neg hbin, add_zero]

theorem denseKernel_some (pgh : List ℚ) (rid gi offs : List Nat) (B nf mfl : Nat)
    (hist hbuf : List ℚ) (hsize : 0 < rid.length) (hB : 0 < B)
    (hroom : 2 * B ≤ hbuf.length / 2) :
    BuildHistDenseKernel pgh rid gi offs B nf mfl hist hbuf =
      some (BuildHistDenseKernel.kernels pgh rid gi offs B nf mfl hist hbuf) := by
  have hnb := (numBlocks_bounds (hbuf.length / 2) B rid.length hB hroom hsize).1
  rw [BuildHistDenseKernel]
  dsimp only
  rw [if_neg (by omega), if_neg (by omega)]

/-- C10: dense path, in exact arithmetic. For a dense matrix (every decoded bin of the
rows in `rid` is below `nbins`, with `2 * nbins ≤ 2 ^ 32` and at least one
feature), a non-empty list `rid` of row ids and a scratch buffer with room for at
least one block, `BuildHistDenseKernel` returns and leaves in the destination row,
for every bin `b` and both channels, the sum over subset positions `i` and
features `j` with `stored_index[nfeatures * rid[i] + j] + offsets[j] = b` of the
gradient (resp. hessian) of row `rid[i]`: each position contributes once per
feature, whatever the block count and the work-group size. -/
theorem BuildHistDenseKernel_sums (pgh : List ℚ) (rid gi offs : List Nat)
    (B nf mfl : Nat) (hist hbuf : List ℚ)
    (hsize : 0 < rid.length) (hB : 0 < B) (hB32 : 2 * B ≤ u32) (hnf : 0 < nf)
    (hmfl : 0 < mfl) (hroom : 2 * B ≤ hbuf.length / 2) (hhist : hist.length = 2 * B)
    (hbins : ∀ i j, i < rid.length → j < nf → denseBin rid gi offs nf i j < B)
    (b : Nat) (hb : b < B) :
    ∃ r, BuildHistDenseKernel pgh rid gi offs B nf mfl hist hbuf = some r ∧
      r.1.getD (2 * b) 0 =
        ((List.range rid.length).map (fun i => ((List.range nf).map (fun j =>
          if denseBin rid gi offs nf i j = b then pgh.getD (2 * rid.getD i 0) 0
          else 0)).sum)).sum ∧
      r.1.getD (2 * b + 1) 0 =
        ((List.range rid.length).map (fun i => ((List.range nf).map (fun j =>
          if denseBin rid gi offs nf i j = b then pgh.getD (2 * rid.getD i 0 + 1) 0
          else 0)).sum)).sum :=
  ⟨_, denseKernel_some pgh rid gi offs B nf mfl hist hbuf hsize hB hroom,
    denseKernel_getD pgh rid gi offs B nf mfl hist hbuf hsize hB hB32 hnf hmfl hroom hhist
      hbins b hb⟩

/-- Witness of `BuildHistDenseKernel_sums`: rows `0` and `2` of the dense example, one
work item per group, bin `1`. -/
theorem BuildHistDenseKernel_sums_witness :
    ∃ r, BuildHistDenseKernel [1, 1, 2, 1, 3, 1] [0, 2] [0, 0, 1, 0, 1, 0] [0, 2] 3 2 1
        (List.replicate 6 7) (List.replicate 24 9) = some r ∧
      r.1.getD (2 * 1) 0 =
        ((List.range ([0, 2] : List Nat).length).map (fun i => ((List.range 2).map (fun j =>
          if denseBin [0, 2] [0, 0, 1, 0, 1, 0] [0, 2] 2 i j = 1
          then ([1, 1, 2, 1, 3, 1] : List ℚ).getD (2 * ([0, 2] : List Nat).getD i 0) 0
          else 0)).sum)).sum ∧
      r.1.getD (2 * 1 + 1) 0 =
        ((List.range ([0, 2] : List Nat).length).map (fun i => ((List.range 2).map (fun j =>
          if denseBin [0, 2] [0, 0, 1, 0, 1, 0] [0, 2] 2 i j = 1
          then ([1, 1, 2, 1, 3, 1] : List ℚ).getD (2 * ([0, 2] : List Nat).getD i 0 + 1) 0
          else 0)).sum)).sum :=
  BuildHistDenseKernel_sums [1, 1, 2, 1, 3, 1] [0, 2] [0, 0, 1, 0, 1, 0] [0, 2] 3 2 1
    (List.replicate 6 7) (List.replicate 24 9) (by decide) (by decide) (by decide) (by decide)
    (by decide) (by decide) (by decide)
    (by
      intro i j hi hj
      have hi2 : i < 2 := hi
      interval_cases i <;> interval_cases j <;> decide)
    1 (by decide)

/-! ### `SubtractionTrick` -/

theorem SubtractionHist_spec (rows : List (List ℚ)) (dst src1 src2 size : Nat)
    (hd : dst < rows.length) (hsz : 2 * size ≤ (rows.getD dst []).length) :
    (SubtractionHist rows dst src1 src2 size).length = rows.length ∧
    (∀ r, r ≠ dst → (SubtractionHist rows dst src1 src2 size).getD r [] = rows.getD r []) ∧
    ((SubtractionHist rows dst src1 src2 size).getD dst []).length = (rows.getD dst []).length ∧
    ∀ k, ((SubtractionHist rows dst src1 src2 size).getD dst []).getD k 0 =
      if k < 2 * size then (rows.getD src1 []).getD k 0 - (rows.getD src2 []).getD k 0
      else (rows.getD dst []).getD k 0 := by
  rw [SubtractionHist]
  have key := forLoop_induction
    (fun i (rs : List (List ℚ)) => rs.length = rows.length ∧
      (∀ r, r ≠ dst → rs.getD r [] = rows.getD r []) ∧
      (rs.getD dst []).length = (rows.getD dst []).length ∧
      ∀ k, (rs.getD dst []).getD k 0 =
        if k < i then (rows.getD src1 []).getD k 0 - (rows.getD src2 []).getD k 0
        else (rows.getD dst []).getD k 0) 0 (2 * size)
    (fun i rows => rows.set dst ((rows.getD dst []).set i
      ((rows.getD src1 []).getD i 0 - (rows.getD src2 []).getD i 0))) rows (Nat.zero_le _)
    ⟨rfl, fun _ _ => rfl, rfl, fun k => by simp⟩ ?_
  · exact key
  · intro i rs _ hi ⟨h1, h2, h3, h4⟩
    have hd' : dst < rs.length := by omega
    have hcur : ∀ s, (rs.getD s []).getD i 0 = (rows.getD s []).getD i 0 := by
      intro s
      by_cases hs : s = dst
      · subst hs
        rw [h4 i, if_neg (Nat.lt_irrefl i)]
      · rw [h2 s hs]
    refine ⟨by simp [h1], ?_, ?_, ?_⟩
    · intro r hr
      rw [getD_set_of_ne _ _ _ _ _ (Ne.symm hr)]
      exact h2 r hr
    · rw [getD_set_eq _ _ _ _ hd', List.length_set]
      exact h3
    · intro k
      rw [getD_set_eq _ _ _ _ hd', hcur src1, hcur src2]
      by_cases hk : k = i
      · subst hk
        rw [getD_set_eq _ _ _ _ (by omega), if_pos (Nat.lt_succ_self k)]
      · rw [getD_set_of_ne _ _ _ _ _ (Ne.symm hk), h4 k]
        by_cases hlt : k < i
        · rw [if_pos hlt, if_pos (by omega)]
        · rw [if_neg hlt, if_neg (by omega)]

/-- On rows of the same size the subtraction runs to completion, writes the
differences into `self` and touches no other row. -/
theorem subtractionTrick_ok (rows : List (List ℚ))
    (self sibling parent n : Nat)
    (hself : (rows.getD self []).length = 2 * n)
    (hsib : (rows.getD sibling []).length = 2 * n)
    (hpar : (rows.getD parent []).length = 2 * n) :
    ∃ rows', SubtractionTrick rows self sibling parent = Checked.ok rows' ∧
      (∀ b, b < n →
        (rows'.getD self []).getD (2 * b) 0 =
          (rows.getD parent []).getD (2 * b) 0 - (rows.getD sibling []).getD (2 * b) 0 ∧
        (rows'.getD self []).getD (2 * b + 1) 0 =
          (rows.getD parent []).getD (2 * b + 1) 0 -
            (rows.getD sibling []).getD (2 * b + 1) 0) ∧
      (rows'.getD self []).length = 2 * n ∧
      ∀ r, r ≠ self → rows'.getD r [] = rows.getD r [] := by
  have hsz : ∀ l : List ℚ, l.length = 2 * n → GHistRow.Size l = n := by
    intro l hl
    rw [GHistRow.Size, hl]
    omega
  rw [SubtractionTrick]
  rw [hsz _ hself, hsz _ hsib, hsz _ hpar, if_neg (by simp), if_neg (by simp)]
  refine ⟨_, rfl, ?_⟩
  by_cases hn : n = 0
  · subst hn
    rw [SubtractionHist, forLoop_empty _ _ _ _ (by omega)]
    exact ⟨fun b hb => absurd hb (Nat.not_lt_zero b), hself, fun _ _ => rfl⟩
  · have hd : self < rows.length := by
      by_contra hge
      rw [List.getD_eq_default _ _ (by omega)] at hself
      simp at hself
      omega
    obtain ⟨_, h2, h3, h4⟩ := SubtractionHist_spec rows self parent sibling n hd (by omega)
    refine ⟨fun b hb => ⟨?_, ?_⟩, by rw [h3, hself], h2⟩
    · rw [h4, if_pos (by omega)]
    · rw [h4, if_pos (by omega)]

/-- **C14.** For histogram rows `self`, `sibling`, `parent` of the same number `n` of
gradient pairs, `SubtractionTrick` runs to completion and writes, for every bin
`b < n`, `parent[b] - sibling[b]` into `self[b]` in both channels (the operands
being the rows before the call); `self` keeps its length and every row other than
`self`, in particular `parent` and `sibling` when they are distinct from `self`, is
unchanged. -/
theorem SubtractionTrick_writes_difference (rows : List (List ℚ))
    (self sibling parent n : Nat)
    (hself : (rows.getD self []).length = 2 * n)
    (hsib : (rows.getD sibling []).length = 2 * n)
    (hpar : (rows.getD parent []).length = 2 * n) :
    ∃ rows', SubtractionTrick rows self sibling parent = Checked.ok rows' ∧
      (∀ b, b < n →
        (rows'.getD self []).getD (2 * b) 0 =
          (rows.getD parent []).getD (2 * b) 0 - (rows.getD sibling []).getD (2 * b) 0 ∧
        (rows'.getD self []).getD (2 * b + 1) 0 =
          (rows.getD parent []).getD (2 * b + 1) 0 -
            (rows.getD sibling []).getD (2 * b + 1) 0) ∧
      (rows'.getD self []).length = 2 * n ∧
      ∀ r, r ≠ self → rows'.getD r [] = rows.getD r [] :=
  subtractionTrick_ok rows self sibling parent n hself hsib hpar

/-- Witness of `SubtractionTrick_writes_difference` on three rows of two bins. -/
theorem SubtractionTrick_writes_difference_witness :
    ∃ rows', SubtractionTrick [[9, 9, 9, 9], [1, 2, 3, 4], [5, 7, 9, 11]] 0 1 2 =
        Checked.ok rows' ∧
      (∀ b, b < 2 →
        (rows'.getD 0 []).getD (2 * b) 0 =
          (([[9, 9, 9, 9], [1, 2, 3, 4], [5, 7, 9, 11]] : List (List ℚ)).getD 2 []).getD
              (2 * b) 0 -
            (([[9, 9, 9, 9], [1, 2, 3, 4], [5, 7, 9, 11]] : List (List ℚ)).getD 1 []).getD
              (2 * b) 0 ∧
        (rows'.getD 0 []).getD (2 * b + 1) 0 =
          (([[9, 9, 9, 9], [1, 2, 3, 4], [5, 7, 9, 11]] : List (List ℚ)).getD 2 []).getD
              (2 * b + 1) 0 -
            (([[9, 9, 9, 9], [1, 2, 3, 4], [5, 7, 9, 11]] : List (List ℚ)).getD 1 []).getD
              (2 * b + 1) 0) ∧
      (rows'.getD 0 []).length = 2 * 2 ∧
      ∀ r, r ≠ 0 →
        rows'.getD r [] =
          ([[9, 9, 9, 9], [1, 2, 3, 4], [5, 7, 9, 11]] : List (List ℚ)).getD r [] :=
  SubtractionTrick_writes_difference [[9, 9, 9, 9], [1, 2, 3, 4], [5, 7, 9, 11]] 0 1 2 2
    rfl rfl rfl

/-- **C15.** `SubtractionTrick` fails on a fatal check exactly when
`sibling.Size() != self.Size()` or `parent.Size() != self.Size()`, and the state at
the failure is the state before the call: no row has been modified. -/
theorem SubtractionTrick_fatal_iff (rows : List (List ℚ)) (self sibling parent : Nat) :
    ((∃ s, SubtractionTrick rows self sibling parent = Checked.fatal s) ↔
      (GHistRow.Size (rows.getD sibling []) ≠ GHistRow.Size (rows.getD self []) ∨
        GHistRow.Size (rows.getD parent []) ≠ GHistRow.Size (rows.getD self []))) ∧
    ∀ s, SubtractionTrick rows self sibling parent = Checked.fatal s → s = rows := by
  rw [SubtractionTrick]
  by_cases h1 : GHistRow.Size (rows.getD sibling []) ≠ GHistRow.Size (rows.getD self [])
  · rw [if_pos h1]
    refine ⟨⟨fun _ => Or.inl h1, fun _ => ⟨rows, rfl⟩⟩, ?_⟩
    intro s hs
    exact (Checked.fatal.inj hs).symm
  · rw [if_neg h1]
    by_cases h2 : GHistRow.Size (rows.getD parent []) ≠ GHistRow.Size (rows.getD self [])
    · rw [if_pos h2]
      refine ⟨⟨fun _ => Or.inr h2, fun _ => ⟨rows, rfl⟩⟩, ?_⟩
      intro s hs
      exact (Checked.fatal.inj hs).symm
    · rw [if_neg h2]
      refine ⟨⟨?_, ?_⟩, ?_⟩
      · rintro ⟨s, hs⟩
        cases hs
      · rintro (h | h)
        · exact absurd h h1
        · exact absurd h h2
      · intro s hs
        cases hs

/-! ### The sparse kernel -/

theorem stride_partition_sum_or (n step : Nat) (hs : 0 < step ∨ n = 0) (f : Nat → ℚ) :
    ((List.range' 0 step).map (fun r => ((strideList r n step).map f).sum)).sum =
      ((List.range' 0 n).map f).sum := by
  rcases Nat.eq_zero_or_pos step with h0 | hpos
  · have hn : n = 0 := by omega
    subst h0
    subst hn
    rfl
  · exact stride_partition_sum n step hpos f

/-- The end of the rows of block `k` when the positions `[0, size)` are cut into
blocks of `bs` positions. -/
theorem block_rows_eq (size bs k : Nat) :
    List.range' (k * bs) ((if (k + 1) * bs > size then size else (k + 1) * bs) - k * bs) =
      List.range' (min (k * bs) size) (min ((k + 1) * bs) size - min (k * bs) size) := by
  have hle : k * bs ≤ (k + 1) * bs := Nat.mul_le_mul_right bs (Nat.le_succ k)
  by_cases h1 : (k + 1) * bs > size
  · rw [if_pos h1, Nat.min_eq_right (Nat.le_of_lt h1)]
    by_cases h2 : k * bs ≤ size
    · rw [Nat.min_eq_left h2]
    · rw [Nat.min_eq_right (by omega), Nat.sub_self, Nat.sub_eq_zero_of_le (by omega)]
      rfl
  · rw [if_neg h1, Nat.min_eq_left (by omega), Nat.min_eq_left (by omega)]

/-- Cutting the positions `[0, size)` into `nb` contiguous blocks of `bs` positions
that cover them loses and repeats no position. -/
theorem block_partition_sum (size bs nb : Nat) (hcover : size ≤ nb * bs) (f : Nat → ℚ) :
    ((List.range' 0 nb).map (fun k =>
      ((List.range' (k * bs)
        ((if (k + 1) * bs > size then size else (k + 1) * bs) - k * bs)).map f).sum)).sum =
      ((List.range' 0 size).map f).sum := by
  have key : ∀ n, ((List.range' 0 n).map (fun k =>
      ((List.range' (k * bs)
        ((if (k + 1) * bs > size then size else (k + 1) * bs) - k * bs)).map f).sum)).sum =
      ((List.range' 0 (min (n * bs) size)).map f).sum := by
    intro n
    induction n with
    | zero => simp
    | succ n ih =>
      have hle : n * bs ≤ (n + 1) * bs := Nat.mul_le_mul_right bs (Nat.le_succ n)
      have hsplit : List.range' 0 (min ((n + 1) * bs) size) =
          List.range' 0 (min (n * bs) size) ++
            List.range' (min (n * bs) size) (min ((n + 1) * bs) size - min (n * bs) size) := by
        have := List.range'_append_1 0 (min (n * bs) size)
          (min ((n + 1) * bs) size - min (n * bs) size)
        rw [Nat.zero_add] at this
        rw [this]
        congr 1
        have : min (n * bs) size ≤ min ((n + 1) * bs) size := by
          simp only [Nat.min_def]
          split_ifs <;> omega
        omega
      rw [List.range'_concat, List.map_append, List.sum_append, ih, hsplit, List.map_append,
        List.sum_append, ← block_rows_eq]
      simp
  rw [key nb, Nat.min_eq_right hcover]

theorem block_size_cover (size nb : Nat) (hnb : 0 < nb) :
    size ≤ nb * (size / nb + (if size % nb ≠ 0 then 1 else 0)) := by
  have h1 := Nat.div_add_mod size nb
  have h2 := Nat.mod_lt size hnb
  rw [Nat.mul_add]
  split
  · omega
  · omega

theorem getD_set_zero (l : List ℚ) (i a : Nat) (h : l.getD a 0 = 0 ∨ a = i) :
    (l.set i 0).getD a 0 = 0 := by
  by_cases hai : a = i
  · subst hai
    by_cases hlt : a < l.length
    · exact getD_set_eq _ _ _ _ hlt
    · rw [List.getD_eq_default _ _ (by rw [List.length_set]; omega)]
  · rw [getD_set_of_ne _ _ _ _ _ (Ne.symm hai)]
    rcases h with h | h
    · exact h
    · exact absurd h hai

/-- The zeroing kernel clears the regions of all blocks. -/
theorem zero_spec (B nb : Nat) (buf : List ℚ) :
    (BuildHistSparseKernel.zero B nb buf).length = buf.length ∧
    ∀ a, a < nb * B * 2 → (BuildHistSparseKernel.zero B nb buf).getD a 0 = 0 := by
  unfold BuildHistSparseKernel.zero
  have key := forLoop_induction
    (fun i (st : List ℚ) => st.length = buf.length ∧ ∀ a, a < i * B * 2 → st.getD a 0 = 0)
    0 nb (fun i buf => forLoop 0 B (fun j buf =>
      (buf.set (2 * (i * B + j)) 0).set (2 * (i * B + j) + 1) 0) buf) buf (Nat.zero_le _)
    ⟨rfl, fun a ha => by omega⟩ ?_
  · exact key
  · intro i st _ _ ⟨h1, h2⟩
    have inner := forLoop_induction
      (fun j (s : List ℚ) => s.length = buf.length ∧ ∀ a, a < 2 * (i * B + j) → s.getD a 0 = 0)
      0 B (fun j buf => (buf.set (2 * (i * B + j)) 0).set (2 * (i * B + j) + 1) 0) st
      (Nat.zero_le _) ⟨h1, fun a ha => h2 a (by omega)⟩ ?_
    · refine ⟨inner.1, fun a ha => inner.2 a ?_⟩
      rw [Nat.succ_mul] at ha
      omega
    · intro j s _ _ ⟨g1, g2⟩
      refine ⟨by rw [List.length_set, List.length_set, g1], fun a ha => ?_⟩
      apply getD_set_zero
      by_cases h3 : a = 2 * (i * B + j) + 1
      · exact Or.inr h3
      · left
        apply getD_set_zero
        by_cases h4 : a = 2 * (i * B + j)
        · exact Or.inr h4
        · exact Or.inl (g2 a (by omega))

/-- The scatter phase of a work group of the sparse kernel applies the updates of
the group. -/
theorem sparse_scatter_eq (pgh : List ℚ) (rid gi : List Nat) (B rs fl bs block : Nat)
    (buf : List ℚ) :
    BuildHistSparseKernel.scatter pgh rid gi B rs fl bs block buf =
      (sparseOps pgh rid gi B rs fl bs block).foldl (fun b o => addAt b o.1 o.2) buf := by
  unfold BuildHistSparseKernel.scatter sparseOps forLoop forStride
  simp only [Nat.sub_zero]
  rw [← foldl_nested]
  congr 1
  funext st col_id
  rw [← foldl_nested]
  congr 1
  funext st i
  rw [← foldl_nested]
  congr 1
  funext st j
  dsimp only
  split <;> rfl

theorem mul_two_u32 (bin B : Nat) (hbin : bin < B) (hB32 : 2 * B ≤ u32) :
    (bin * 2) % u32 = 2 * bin := by
  rw [Nat.mod_eq_of_lt (by omega)]
  omega

theorem sparseOps_addr (pgh : List ℚ) (rid gi : List Nat) (B rs fl bs block : Nat)
    (hB32 : 2 * B ≤ u32) :
    ∀ o ∈ sparseOps pgh rid gi B rs fl bs block,
      block * B * 2 ≤ o.1 ∧ o.1 < block * B * 2 + 2 * B := by
  intro o ho
  unfold sparseOps at ho
  simp only [List.mem_flatMap] at ho
  obtain ⟨col, _, i, _, j, _, ho⟩ := ho
  by_cases hb : gi.getD (rs * rid.getD i 0 + j) 0 < B
  · rw [if_pos hb, mul_two_u32 _ B hb hB32] at ho
    simp only [List.mem_cons, List.mem_singleton, List.mem_nil_iff, or_false] at ho
    rcases ho with rfl | rfl
    · constructor <;> simp only <;> omega
    · constructor <;> simp only <;> omega
  · rw [if_neg hb] at ho
    exact absurd ho (List.not_mem_nil o)

/-- The sum, over the updates of a work group of the sparse kernel, of the values
addressed to one accumulator, as a sum over the rows of the block and the slots of
a row. -/
theorem sparseOps_sum (pgh : List ℚ) (rid gi : List Nat) (B rs fl bs block : Nat)
    (hfl : 0 < fl ∨ rs = 0) (hB32 : 2 * B ≤ u32) (a : Nat) (F : Nat → Nat → ℚ)
    (hF : ∀ i j, gi.getD (rs * rid.getD i 0 + j) 0 < B →
      (if block * B * 2 + 2 * gi.getD (rs * rid.getD i 0 + j) 0 = a
        then pgh.getD (2 * rid.getD i 0) 0 else 0) +
      (if block * B * 2 + (2 * gi.getD (rs * rid.getD i 0 + j) 0 + 1) = a
        then pgh.getD (2 * rid.getD i 0 + 1) 0 else 0) = F i j)
    (hF0 : ∀ i j, ¬ gi.getD (rs * rid.getD i 0 + j) 0 < B → F i j = 0) :
    ((sparseOps pgh rid gi B rs fl bs block).map (fun o => if o.1 = a then o.2 else 0)).sum =
      ((List.range' (block * bs)
        ((if (block + 1) * bs > rid.length then rid.length else (block + 1) * bs) -
          block * bs)).map (fun i => ((List.range' 0 rs).map (fun j => F i j)).sum)).sum := by
  unfold sparseOps
  rw [sum_map_flatMap]
  have hcell : ∀ i j,
      ((if gi.getD (rs * rid.getD i 0 + j) 0 < B then
          [(block * B * 2 + (gi.getD (rs * rid.getD i 0 + j) 0 * 2) % u32,
            pgh.getD (2 * rid.getD i 0) 0),
           (block * B * 2 + ((gi.getD (rs * rid.getD i 0 + j) 0 * 2) % u32 + 1),
            pgh.getD (2 * rid.getD i 0 + 1) 0)]
        else []).map (fun o => if o.1 = a then o.2 else 0)).sum = F i j := by
    intro i j
    by_cases hb : gi.getD (rs * rid.getD i 0 + j) 0 < B
    · rw [if_pos hb, mul_two_u32 _ B hb hB32]
      simp only [List.map_cons, List.map_nil, List.sum_cons, List.sum_nil, add_zero]
      exact hF i j hb
    · rw [if_neg hb, hF0 i j hb]
      rfl
  have hmid : ∀ col,
      (((List.range' (block * bs)
        ((if (block + 1) * bs > rid.length then rid.length else (block + 1) * bs) -
          block * bs)).flatMap (fun i =>
        (strideList col rs fl).flatMap (fun j =>
          if gi.getD (rs * rid.getD i 0 + j) 0 < B then
            [(block * B * 2 + (gi.getD (rs * rid.getD i 0 + j) 0 * 2) % u32,
              pgh.getD (2 * rid.getD i 0) 0),
             (block * B * 2 + ((gi.getD (rs * rid.getD i 0 + j) 0 * 2) % u32 + 1),
              pgh.getD (2 * rid.getD i 0 + 1) 0)]
          else []))).map (fun o => if o.1 = a then o.2 else 0)).sum =
      ((List.range' (block * bs)
        ((if (block + 1) * bs > rid.length then rid.length else (block + 1) * bs) -
          block * bs)).map (fun i => ((strideList col rs fl).map (fun j => F i j)).sum)).sum := by
    intro col
    rw [sum_map_flatMap]
    apply sum_map_congr
    intro i _
    rw [sum_map_flatMap]
    exact sum_map_congr _ _ _ (fun j _ => hcell i j)
  rw [sum_map_congr _ _ _ (fun col _ => hmid col)]
  rw [sum_map_comm (List.range' 0 fl) _
    (fun col i => ((strideList col rs fl).map (fun j => F i j)).sum)]
  apply sum_map_congr
  intro i _
  exact stride_partition_sum_or rs fl hfl (fun j => F i j)

/-- The scatter phase of work group `block` of the sparse kernel leaves the other
regions alone and adds, to every accumulator of its own region, the sum of the
updates addressed to it. -/
theorem sparse_scatter_getD (pgh : List ℚ) (rid gi : List Nat) (B rs fl bs block : Nat)
    (buf : List ℚ) (hB32 : 2 * B ≤ u32) (hlen : block * B * 2 + 2 * B ≤ buf.length) :
    (BuildHistSparseKernel.scatter pgh rid gi B rs fl bs block buf).length = buf.length ∧
    (∀ a, (a < block * B * 2 ∨ block * B * 2 + 2 * B ≤ a) →
      (BuildHistSparseKernel.scatter pgh rid gi B rs fl bs block buf).getD a 0 =
        buf.getD a 0) ∧
    (∀ a, (BuildHistSparseKernel.scatter pgh rid gi B rs fl bs block buf).getD a 0 =
      buf.getD a 0 +
        ((sparseOps pgh rid gi B rs fl bs block).map
          (fun o => if o.1 = a then o.2 else 0)).sum) := by
  have haddr := sparseOps_addr pgh rid gi B rs fl bs block hB32
  obtain ⟨a1, a2⟩ := foldl_addAt (sparseOps pgh rid gi B rs fl bs block) buf
    (fun o ho => by have := haddr o ho; omega)
  rw [sparse_scatter_eq]
  refine ⟨a1, fun a ha => ?_, a2⟩
  rw [a2 a, sum_map_eq_zero _ _ (fun o ho => by
    have := haddr o ho
    rw [if_neg (by omega)]), add_zero]

/-- After the scatter phase of all work groups of the sparse kernel on cleared
regions, every accumulator of every region holds the sum of the updates its group
addressed to it. -/
theorem sparse_scatter_all_getD (pgh : List ℚ) (rid gi : List Nat) (B rs fl bs nb : Nat)
    (buf : List ℚ) (hB32 : 2 * B ≤ u32) (hlen : nb * B * 2 ≤ buf.length)
    (hzero : ∀ a, a < nb * B * 2 → buf.getD a 0 = 0) :
    ∀ k c, k < nb → c < 2 * B →
      (forLoop 0 nb (BuildHistSparseKernel.scatter pgh rid gi B rs fl bs) buf).getD
        (k * B * 2 + c) 0 =
      ((sparseOps pgh rid gi B rs fl bs k).map
        (fun o => if o.1 = k * B * 2 + c then o.2 else 0)).sum := by
  have key := forLoop_induction
    (fun n st => st.length = buf.length ∧ ∀ k c, k < nb → c < 2 * B →
      st.getD (k * B * 2 + c) 0 =
        if k < n then ((sparseOps pgh rid gi B rs fl bs k).map
          (fun o => if o.1 = k * B * 2 + c then o.2 else 0)).sum else 0)
    0 nb (BuildHistSparseKernel.scatter pgh rid gi B rs fl bs) buf (Nat.zero_le _)
    ⟨rfl, fun k c hk hc => by
      have := block_base_le k nb B hk
      rw [if_neg (Nat.not_lt_zero k)]
      exact hzero _ (by omega)⟩ ?_
  · intro k c hk hc
    rw [key.2 k c hk hc, if_pos hk]
  · intro j st _ hj ⟨h1, h2⟩
    have hjb : j * B * 2 + 2 * B ≤ buf.length := by
      have := block_base_le j nb B hj
      omega
    obtain ⟨s1, s2, s3⟩ := sparse_scatter_getD pgh rid gi B rs fl bs j st hB32 (by omega)
    refine ⟨by rw [s1, h1], fun k c hk hc => ?_⟩
    by_cases hkj : k = j
    · subst hkj
      rw [s3, h2 k c hk hc, if_neg (Nat.lt_irrefl k), if_pos (Nat.lt_succ_self k), zero_add]
    · rcases Nat.lt_or_gt_of_ne hkj with hlt | hgt
      · have := block_base_le k j B hlt
        rw [s2 _ (Or.inl (by omega)), h2 k c hk hc, if_pos hlt, if_pos (by omega)]
      · have := block_base_le j k B hgt
        rw [s2 _ (Or.inr (by omega)), h2 k c hk hc, if_neg (by omega), if_neg (by omega)]

/-- The destination row of the sparse kernel: for every bin and both channels, the
sum over subset positions and slots holding the bin. -/
theorem sparseKernel_getD (pgh : List ℚ) (rid gi : List Nat) (B rs mfl : Nat)
    (hist hbuf : List ℚ)
    (hsize : 0 < rid.length) (hB : 0 < B) (hB32 : 2 * B ≤ u32) (hmfl : 0 < mfl)
    (hroom : 2 * B ≤ hbuf.length / 2) (hhist : 2 * B ≤ hist.length)
    (b : Nat) (hb : b < B) :
    (BuildHistSparseKernel.kernels pgh rid gi B rs mfl hist hbuf).1.getD (2 * b) 0 =
      ((List.range rid.length).map (fun i => ((List.range rs).map (fun j =>
        if gi.getD (rs * rid.getD i 0 + j) 0 = b then pgh.getD (2 * rid.getD i 0) 0
        else 0)).sum)).sum
    ∧
    (BuildHistSparseKernel.kernels pgh rid gi B rs mfl hist hbuf).1.getD (2 * b + 1) 0 =
      ((List.range rid.length).map (fun i => ((List.range rs).map (fun j =>
        if gi.getD (rs * rid.getD i 0 + j) 0 = b then pgh.getD (2 * rid.getD i 0 + 1) 0
        else 0)).sum)).sum := by
  obtain ⟨hnb, hnbl⟩ := numBlocks_bounds (hbuf.length / 2) B rid.length hB hroom hsize
  have hfl : 0 < (if rs < mfl then rs else mfl) ∨ rs = 0 := by
    split <;> omega
  have hlen : numBlocks (hbuf.length / 2) B rid.length * B * 2 ≤ hbuf.length := by omega
  unfold BuildHistSparseKernel.kernels
  dsimp only
  generalize numBlocks (hbuf.length / 2) B rid.length = nb at hnb hlen
  generalize (if rs < mfl then rs else mfl) = fl at hfl
  have hcover := block_size_cover rid.length nb hnb
  generalize rid.length / nb + (if rid.length % nb ≠ 0 then 1 else 0) = bs at hcover
  obtain ⟨z1, z2⟩ := zero_spec B nb hbuf
  obtain ⟨r1, r2⟩ := reduce_getD B nb
    (forLoop 0 nb (BuildHistSparseKernel.scatter pgh rid gi B rs fl bs)
      (BuildHistSparseKernel.zero B nb hbuf)) hist hhist b hb
  have hall := sparse_scatter_all_getD pgh rid gi B rs fl bs nb
    (BuildHistSparseKernel.zero B nb hbuf) hB32 (by rw [z1]; exact hlen) z2
  rw [r1, r2, List.range_eq_range', List.range_eq_range']
  constructor
  · rw [← block_partition_sum rid.length bs nb hcover]
    apply sum_map_congr
    intro k hk
    have hk' : k < nb := by
      have := (List.mem_range'_1.mp hk).2
      omega
    rw [hall k (2 * b) hk' (by omega)]
    refine sparseOps_sum pgh rid gi B rs fl bs k hfl hB32 _ _ ?_ ?_
    · intro i j _
      by_cases hbin : gi.getD (rs * rid.getD i 0 + j) 0 = b
      · rw [if_pos (by rw [hbin]), if_neg (by omega), if_pos hbin, add_zero]
      · rw [if_neg (by omega), if_neg (by omega), if_neg hbin, add_zero]
    · intro i j hge
      rw [if_neg (by omega)]
  · rw [← block_partition_sum rid.length bs nb hcover]
    apply sum_map_congr
    intro k hk
    have hk' : k < nb := by
      have := (List.mem_range'_1.mp hk).2
      omega
    rw [Nat.add_assoc, hall k (2 * b + 1) hk' (by omega)]
    refine sparseOps_sum pgh rid gi B rs fl bs k hfl hB32 _ _ ?_ ?_
    · intro i j _
      by_cases hbin : gi.getD (rs * rid.getD i 0 + j) 0 = b
      · rw [if_neg (by omega), if_pos (by rw [hbin]), if_pos hbin, zero_add]
      · rw [if_neg (by omega), if_neg (by omega), if_neg hbin, add_zero]
    · intro i j hge
      rw [if_neg (by omega)]

theorem sparseKernel_some (pgh : List ℚ) (rid gi : List Nat) (B rs mfl : Nat)
    (hist hbuf : List ℚ) (hsize : 0 < rid.length) (hB : 0 < B)
    (hroom : 2 * B ≤ hbuf.length / 2) :
    BuildHistSparseKernel pgh rid gi B rs mfl hist hbuf =
      some (BuildHistSparseKernel.kernels pgh rid gi B rs mfl hist hbuf) := by
  have hnb := (numBlocks_bounds (hbuf.length / 2) B rid.length hB hroom hsize).1
  rw [BuildHistSparseKernel]
  dsimp only
  rw [if_neg (by omega), if_neg (by omega)]

/-- **C11.** Sparse path, in exact arithmetic. For a sparse index of `row_stride`
slots per row read as `uint32_t` cells, with `2 * nbins ≤ 2 ^ 32`, a non-empty list
`rid` of row ids and a scratch buffer with room for at least one block,
`BuildHistSparseKernel` returns and leaves in the destination row, for every bin
`b < nbins` and both channels, the sum over subset positions `i` and slots
`j < row_stride` with `index[row_stride * rid[i] + j] = b` of the gradient (resp.
hessian) of row `rid[i]`. A slot holding the padding value `nbins` (or any value
not below `nbins`) equals no such `b`, so it adds nothing, and a row of padding
slots only changes no bin. -/
theorem BuildHistSparseKernel_sums (pgh : List ℚ) (rid gi : List Nat) (B rs mfl : Nat)
    (hist hbuf : List ℚ)
    (hsize : 0 < rid.length) (hB : 0 < B) (hB32 : 2 * B ≤ u32) (hmfl : 0 < mfl)
    (hroom : 2 * B ≤ hbuf.length / 2) (hhist : hist.length = 2 * B)
    (b : Nat) (hb : b < B) :
    ∃ r, BuildHistSparseKernel pgh rid gi B rs mfl hist hbuf = some r ∧
      r.1.getD (2 * b) 0 =
        ((List.range rid.length).map (fun i => ((List.range rs).map (fun j =>
          if gi.getD (rs * rid.getD i 0 + j) 0 = b then pgh.getD (2 * rid.getD i 0) 0
          else 0)).sum)).sum ∧
      r.1.getD (2 * b + 1) 0 =
        ((List.range rid.length).map (fun i => ((List.range rs).map (fun j =>
          if gi.getD (rs * rid.getD i 0 + j) 0 = b then pgh.getD (2 * rid.getD i 0 + 1) 0
          else 0)).sum)).sum :=
  ⟨_, sparseKernel_some pgh rid gi B rs mfl hist hbuf hsize hB hroom,
    sparseKernel_getD pgh rid gi B rs mfl hist hbuf hsize hB hB32 hmfl hroom (by omega) b hb⟩

/-- Witness of `BuildHistSparseKernel_sums`: the four rows of the scenario, the last
one of padding only, one work item per group, bin `1`. -/
theorem BuildHistSparseKernel_sums_witness :
    ∃ r, BuildHistSparseKernel scenarioGpair [0, 1, 2, 3] [0, 2, 1, 3, 1, 2, 3, 3] 3 2 1
        (List.replicate 6 0) (List.replicate 12 7) = some r ∧
      r.1.getD (2 * 1) 0 =
        ((List.range ([0, 1, 2, 3] : List Nat).length).map (fun i =>
          ((List.range 2).map (fun j =>
            if ([0, 2, 1, 3, 1, 2, 3, 3] : List Nat).getD
                (2 * ([0, 1, 2, 3] : List Nat).getD i 0 + j) 0 = 1
            then scenarioGpair.getD (2 * ([0, 1, 2, 3] : List Nat).getD i 0) 0
            else 0)).sum)).sum ∧
      r.1.getD (2 * 1 + 1) 0 =
        ((List.range ([0, 1, 2, 3] : List Nat).length).map (fun i =>
          ((List.range 2).map (fun j =>
            if ([0, 2, 1, 3, 1, 2, 3, 3] : List Nat).getD
                (2 * ([0, 1, 2, 3] : List Nat).getD i 0 + j) 0 = 1
            then scenarioGpair.getD (2 * ([0, 1, 2, 3] : List Nat).getD i 0 + 1) 0
            else 0)).sum)).sum :=
  BuildHistSparseKernel_sums scenarioGpair [0, 1, 2, 3] [0, 2, 1, 3, 1, 2, 3, 3] 3 2 1
    (List.replicate 6 0) (List.replicate 12 7) (by decide) (by decide) (by decide) (by decide)
    (by decide) (by decide) 1 (by decide)

/-! ### What `Init` checks -/

/-- Counterexample to C18: feature `0` has an empty slice (`cut_ptrs = [0, 0, 1]`)
while feature `1` has the cut `5`; `Init` does not fail but builds a matrix of one
bin, with the single entry of the input in bin `0`. -/
theorem Init_empty_slice_counterexample :
    (⟨[5], [0, 0, 1], [0, 0]⟩ : HistogramCuts).cut_ptrs_.getD 0 0 =
      (⟨[5], [0, 0, 1], [0, 0]⟩ : HistogramCuts).cut_ptrs_.getD 1 0 ∧
    (Init {} ⟨[⟨1, 3⟩], [0, 1], 2, false⟩ ⟨[5], [0, 0, 1], [0, 0]⟩ 256).map
      (fun m => (m.nbins, m.index.cells)) = some (1, [0]) := by
  with_unfolding_all decide

/-- **C18 (amended).** `Init` fails with a fatal check exactly when the cut table
holds no cut value at all (`cut.Values().size() == 0`); an empty slice of one
feature does not make it fail when another feature has a cut. -/
theorem Init_fails_iff_no_cut_value (m : GHistIndexMatrix) (dmat : DeviceMatrix)
    (cut : HistogramCuts) (max_bins : Int) :
    Init m dmat cut max_bins = none ↔ cut.cut_values_.length = 0 := by
  constructor
  · intro h
    by_contra hne
    obtain ⟨m', hm'⟩ := Init_succeeds m dmat cut max_bins (by omega)
    rw [h] at hm'
    cases hm'
  · intro h
    rw [Init]
    dsimp only
    rw [if_pos (by omega)]

theorem ResizeIndex_width (m : GHistIndexMatrix) (n_offsets n_index : Nat) (isDense : Bool) :
    (ResizeIndex m n_offsets n_index isDense).index.binTypeSize_ =
      if predU64 m.max_num_bins ≤ 255 ∧ isDense = true then kUint8BinsTypeSize
      else if (predU64 m.max_num_bins > 255 ∧ predU64 m.max_num_bins ≤ 65535) ∧ isDense = true
        then kUint16BinsTypeSize else kUint32BinsTypeSize := by
  rw [ResizeIndex]
  split
  · rfl
  · split
    · rfl
    · rfl

/-- The width and `max_num_bins` of the matrix that `Init` returns are those set by
its call of `ResizeIndex`. -/
theorem Init_width (m : GHistIndexMatrix) (dmat : DeviceMatrix) (cut : HistogramCuts)
    (max_bins : Int) (m' : GHistIndexMatrix) (h : Init m dmat cut max_bins = some m') :
    m'.index.binTypeSize_ = (Init.resized m dmat cut max_bins).index.binTypeSize_ ∧
    m'.max_num_bins = (Init.resized m dmat cut max_bins).max_num_bins := by
  obtain ⟨f1, f2, f3, f4⟩ := fillOffsets_spec (Init.resized m dmat cut max_bins).index cut
  rw [Init] at h
  dsimp only at h
  split at h
  · cases h
  · split at h
    · split at h
      · rw [← Option.some.inj h]
        dsimp only
        exact ⟨f4, rfl⟩
      · cases h
    · rw [← Option.some.inj h]
      exact ⟨rfl, rfl⟩

/-- Counterexample to C19: with `max_num_bins = 1` on the dense example and with
`max_num_bins = 0` on the sparse one `Init` is not rejected; it selects the widths
of 1 and 4 bytes and builds the index. -/
theorem Init_small_max_bins_counterexample :
    (Init {} exampleDense exampleCuts 1).map
        (fun m => (m.max_num_bins, m.index.binTypeSize_, m.index.cells)) =
      some (1, 1, [0, 0, 1, 0, 1, 0]) ∧
    (Init {} exampleSparse exampleCuts 0).map
        (fun m => (m.max_num_bins, m.index.binTypeSize_, m.index.cells)) =
      some (0, 4, [0, 2, 1, 3, 1, 2, 3, 3]) := by
  with_unfolding_all decide

/-- **C19 (amended).** For `max_num_bins` `0` or `1`, `Init` (through `ResizeIndex`)
does not reject: whenever the cut table holds a cut value it returns a matrix with
that `max_num_bins`, whose cells are 1 byte wide for `max_num_bins = 1` on a dense
input and 4 bytes wide otherwise (for `0`, `max_num_bins - 1` wraps to
`2 ^ 64 - 1`). -/
theorem Init_accepts_small_max_bins (m : GHistIndexMatrix) (dmat : DeviceMatrix)
    (cut : HistogramCuts) (max_bins : Int) (hmb : max_bins = 0 ∨ max_bins = 1)
    (hcv : 0 < cut.cut_values_.length) :
    ∃ m', Init m dmat cut max_bins = some m' ∧ m'.max_num_bins = max_bins.toNat ∧
      m'.index.binTypeSize_ =
        if max_bins = 1 ∧ dmat.is_dense = true then kUint8BinsTypeSize
        else kUint32BinsTypeSize := by
  obtain ⟨m', hm'⟩ := Init_succeeds m dmat cut max_bins hcv
  obtain ⟨w1, w2⟩ := Init_width m dmat cut max_bins m' hm'
  have hf := Init_resized_fields m dmat cut max_bins
  have hmax : (Init.resized m dmat cut max_bins).max_num_bins = max_bins.toNat := by
    rw [hf.2.2.2.2.2.2.2.1]
    rcases hmb with h | h
    · subst h
      rfl
    · subst h
      rw [u64_eq]
      rfl
  refine ⟨m', hm', by rw [w2, hmax], ?_⟩
  rw [w1, Init.resized, ResizeIndex_width]
  dsimp only
  rcases hmb with h | h
  · subst h
    have h0 : ((0 : Int) % (u64 : Int)).toNat = 0 := rfl
    have hp : predU64 0 = 18446744073709551615 := by
      rw [predU64, if_pos rfl, u64_eq]
    rw [h0, hp, if_neg (by omega), if_neg (by omega), if_neg (by simp)]
  · subst h
    have h1 : ((1 : Int) % (u64 : Int)).toNat = 1 := by
      rw [u64_eq]
      rfl
    have hp : predU64 1 = 0 := by
      rw [predU64, if_neg (by omega)]
    rw [h1, hp]
    by_cases hd : dmat.is_dense = true
    · rw [if_pos ⟨by omega, hd⟩, if_pos ⟨rfl, hd⟩]
    · rw [if_neg (fun hc => hd hc.2), if_neg (fun hc => hd hc.2), if_neg (fun hc => hd hc.2)]

/-- Witness of `Init_accepts_small_max_bins`: the dense example with
`max_num_bins = 1`. -/
theorem Init_accepts_small_max_bins_witness :
    ∃ m', Init {} exampleDense exampleCuts 1 = some m' ∧ m'.max_num_bins = (1 : Int).toNat ∧
      m'.index.binTypeSize_ =
        if (1 : Int) = 1 ∧ exampleDense.is_dense = true then kUint8BinsTypeSize
        else kUint32BinsTypeSize :=
  Init_accepts_small_max_bins {} exampleDense exampleCuts 1 (Or.inr rfl) (by decide)

/-! ### `mergeSort`: stability -/

/-- Counterexample to C20: two elements with the same key, compared on the key
only, leave `mergeSort` in the reverse of their input order. -/
theorem mergeSort_unstable_counterexample :
    (mergeSort (fun x y : Nat × Nat => decide (x.1 < y.1)) [(1, 0), (1, 1)]
      [(0, 0), (0, 0)]).1 = [(1, 1), (1, 0)] ∧
    ¬ StableFor (fun x y : Nat × Nat => decide (x.1 < y.1)) [(1, 0), (1, 1)]
      (mergeSort (fun x y : Nat × Nat => decide (x.1 < y.1)) [(1, 0), (1, 1)]
        [(0, 0), (0, 0)]).1 := by
  refine ⟨by decide, fun h => ?_⟩
  have h1 := h (1, 0)
  revert h1
  decide

/-- **C20 (amended).** On a linearly ordered element type, where two elements that
compare equal are the same element (as for the integer bin ids `mergeSort` is used
on), the output of `mergeSort` is a sorted permutation of the input in which
elements that compare equal keep their relative order. On other element types a
tie is resolved in favour of the right block, which reverses the order. -/
theorem mergeSort_stable_on_linear_order {α : Type} [Inhabited α] [LinearOrder α]
    (a buf : List α) (h : a.length ≤ buf.length) :
    (mergeSort (fun x y => decide (x < y)) a buf).1.Perm a ∧
    (mergeSort (fun x y => decide (x < y)) a buf).1.Pairwise (· ≤ ·) ∧
    StableFor (fun x y => decide (x < y)) a (mergeSort (fun x y => decide (x < y)) a buf).1 := by
  have hp := mergeSort_perm (fun x y : α => decide (x < y)) a buf h
  refine ⟨hp, mergeSort_sorted a buf h, fun x => ?_⟩
  have hfilter : ∀ l : List α, l.filter (fun y => !decide (x < y) && !decide (y < x)) =
      List.replicate (l.count x) x := by
    intro l
    have hfun : (fun y => !decide (x < y) && !decide (y < x)) = (fun y => y == x) := by
      funext y
      rcases lt_trichotomy x y with hlt | heq | hgt
      · have hne : ¬ y = x := fun hc => by rw [hc] at hlt; exact lt_irrefl _ hlt
        simp [hlt, hne]
      · subst heq
        simp
      · have hne : ¬ y = x := fun hc => by rw [hc] at hgt; exact lt_irrefl _ hgt
        simp [hgt, hne, not_lt_of_gt hgt]
    rw [hfun]
    exact List.filter_beq l x
  rw [hfilter, hfilter, hp.count_eq]

/-- Witness of `mergeSort_stable_on_linear_order` on bin ids with a repeated value. -/
theorem mergeSort_stable_on_linear_order_witness :
    (mergeSort (fun x y : Nat => decide (x < y)) [2, 1, 2, 0] [0, 0, 0, 0]).1.Perm [2, 1, 2, 0] ∧
    (mergeSort (fun x y : Nat => decide (x < y)) [2, 1, 2, 0] [0, 0, 0, 0]).1.Pairwise
      (· ≤ ·) ∧
    StableFor (fun x y : Nat => decide (x < y)) [2, 1, 2, 0]
      (mergeSort (fun x y : Nat => decide (x < y)) [2, 1, 2, 0] [0, 0, 0, 0]).1 :=
  mergeSort_stable_on_linear_order [2, 1, 2, 0] [0, 0, 0, 0] (by decide)

/-! ### `BuildHist` -/

theorem sum_range_getD (l : List Nat) (f : Nat → ℚ) :
    ((List.range l.length).map (fun i => f (l.getD i 0))).sum = (l.map f).sum := by
  induction l with
  | nil => rfl
  | cons x xs ih =>
    rw [List.length_cons, List.range_succ_eq_map, List.map_cons, List.sum_cons, List.map_map,
      List.map_cons, List.sum_cons, ← ih]
    rfl

theorem list_eq_of_getD (l1 l2 : List ℚ) (hlen : l1.length = l2.length)
    (h : ∀ k, k < l1.length → l1.getD k 0 = l2.getD k 0) : l1 = l2 := by
  apply List.ext_getElem hlen
  intro k h1 h2
  have := h k h1
  rw [List.getD_eq_getElem _ _ h1, List.getD_eq_getElem _ _ h2] at this
  exact this

theorem reduce_length (B nb : Nat) (buf hist : List ℚ) :
    (BuildHist.reduce B nb buf hist).length = hist.length := by
  unfold BuildHist.reduce
  refine forLoop_induction (fun _ (st : List ℚ) => st.length = hist.length) 0 B _ hist
    (Nat.zero_le _) rfl ?_
  intro j st _ _ h
  dsimp only
  rw [List.length_set, List.length_set, h]

theorem BuildHistKernel_some (pgh : List ℚ) (rid : List Nat) (gmat : GHistIndexMatrix)
    (isDense : Bool) (mfl : Nat) (hist hbuf : List ℚ)
    (hw : gmat.index.binTypeSize_ = kUint8BinsTypeSize ∨
      gmat.index.binTypeSize_ = kUint16BinsTypeSize ∨
      gmat.index.binTypeSize_ = kUint32BinsTypeSize) :
    BuildHist pgh rid gmat isDense mfl hist hbuf =
      BuildHistDispatchKernel pgh rid gmat isDense mfl hist hbuf := by
  rw [BuildHist, BuildHistKernel]
  split_ifs with h1 h2 h3
  · rfl
  · rfl
  · rfl
  · rcases hw with h | h | h
    · exact absurd h h1
    · exact absurd h h2
    · exact absurd h h3

/-- The scratch buffer keeps its size through the dense kernel. -/
theorem denseKernel_buffer_length (pgh : List ℚ) (rid gi offs : List Nat) (B nf mfl : Nat)
    (hist hbuf : List ℚ)
    (hsize : 0 < rid.length) (hB : 0 < B) (hB32 : 2 * B ≤ u32) (hnf : 0 < nf)
    (hmfl : 0 < mfl) (hroom : 2 * B ≤ hbuf.length / 2)
    (hbins : ∀ i j, i < rid.length → j < nf → denseBin rid gi offs nf i j < B) :
    (BuildHistDenseKernel.kernels pgh rid gi offs B nf mfl hist hbuf).2.length = hbuf.length := by
  obtain ⟨hnb, hnbl⟩ := numBlocks_bounds (hbuf.length / 2) B rid.length hB hroom hsize
  have hfl : 0 < (if nf < mfl then nf else mfl) := by split <;> omega
  have hlen : numBlocks (hbuf.length / 2) B rid.length * B * 2 ≤ hbuf.length := by omega
  unfold BuildHistDenseKernel.kernels
  dsimp only
  generalize numBlocks (hbuf.length / 2) B rid.length = nb at hnb hlen
  generalize (if nf < mfl then nf else mfl) = fl at hfl
  refine forLoop_induction (fun _ (st : List ℚ) => st.length = hbuf.length) 0 nb _ hbuf
    (Nat.zero_le _) rfl ?_
  intro j st _ hj h
  have := block_base_le j nb B hj
  rw [(scatter_getD pgh rid gi offs B nf fl nb j st hfl hnb hB32 hbins (by omega)).1, h]

/-- The scratch buffer keeps its size through the sparse kernel. -/
theorem sparseKernel_buffer_length (pgh : List ℚ) (rid gi : List Nat) (B rs mfl : Nat)
    (hist hbuf : List ℚ)
    (hsize : 0 < rid.length) (hB : 0 < B) (hB32 : 2 * B ≤ u32)
    (hroom : 2 * B ≤ hbuf.length / 2) :
    (BuildHistSparseKernel.kernels pgh rid gi B rs mfl hist hbuf).2.length = hbuf.length := by
  obtain ⟨hnb, hnbl⟩ := numBlocks_bounds (hbuf.length / 2) B rid.length hB hroom hsize
  have hlen : numBlocks (hbuf.length / 2) B rid.length * B * 2 ≤ hbuf.length := by omega
  unfold BuildHistSparseKernel.kernels
  dsimp only
  generalize numBlocks (hbuf.length / 2) B rid.length = nb at hnb hlen
  generalize (if rs < mfl then rs else mfl) = fl
  generalize rid.length / nb + (if rid.length % nb ≠ 0 then 1 else 0) = bs
  obtain ⟨z1, _⟩ := zero_spec B nb hbuf
  refine forLoop_induction (fun _ (st : List ℚ) => st.length = hbuf.length) 0 nb _ _
    (Nat.zero_le _) z1 ?_
  intro j st _ hj h
  have := block_base_le j nb B hj
  rw [(sparse_scatter_getD pgh rid gi B rs fl bs j st hB32 (by omega)).1, h]

/-- `BuildHist` on valid inputs: it returns, the destination row and the scratch
buffer keep their sizes, and every bin of the destination row holds the sums of
what the listed rows add to it. -/
theorem BuildHist_getD (pgh : List ℚ) (rid : List Nat) (gmat : GHistIndexMatrix)
    (isDense : Bool) (mfl : Nat) (hist hbuf : List ℚ)
    (hv : BuildValid gmat isDense rid) (hsize : 0 < rid.length) (hmfl : 0 < mfl)
    (hroom : 2 * gmat.nbins ≤ hbuf.length / 2) (hhist : hist.length = 2 * gmat.nbins) :
    ∃ r, BuildHist pgh rid gmat isDense mfl hist hbuf = some r ∧
      r.1.length = 2 * gmat.nbins ∧ r.2.length = hbuf.length ∧
      ∀ b, b < gmat.nbins →
        r.1.getD (2 * b) 0 = histValue pgh gmat isDense rid b 0 ∧
        r.1.getD (2 * b + 1) 0 = histValue pgh gmat isDense rid b 1 := by
  obtain ⟨hw, hB, hB32, hd⟩ := hv
  rw [BuildHistKernel_some pgh rid gmat isDense mfl hist hbuf hw]
  unfold BuildHistDispatchKernel histValue
  by_cases hdense : isDense = true
  · obtain ⟨hnf, hcells⟩ := hd hdense
    have hbins : ∀ i j, i < rid.length → j < gmat.nfeatures →
        denseBin rid gmat.index.cells gmat.index.offset_ gmat.nfeatures i j < gmat.nbins := by
      intro i j hi hj
      unfold denseBin
      refine hcells _ ?_ j hj
      rw [List.getD_eq_getElem _ _ hi]
      exact List.getElem_mem hi
    simp only [if_pos hdense]
    refine ⟨_, denseKernel_some pgh rid _ _ _ _ mfl hist hbuf hsize hB hroom, ?_⟩
    refine ⟨?_, denseKernel_buffer_length pgh rid _ _ _ _ mfl hist hbuf hsize hB hB32 hnf hmfl
      hroom hbins, fun b hb => ?_⟩
    · unfold BuildHistDenseKernel.kernels
      dsimp only
      rw [reduce_length, hhist]
    · obtain ⟨h1, h2⟩ := denseKernel_getD pgh rid gmat.index.cells gmat.index.offset_
        gmat.nbins gmat.nfeatures mfl hist hbuf hsize hB hB32 hnf hmfl hroom hhist hbins b hb
      rw [h1, h2]
      exact ⟨sum_range_getD rid (fun r => denseRowTerm pgh gmat.index.cells gmat.index.offset_
          gmat.nfeatures b 0 r),
        sum_range_getD rid (fun r => denseRowTerm pgh gmat.index.cells gmat.index.offset_
          gmat.nfeatures b 1 r)⟩
  · simp only [if_neg hdense]
    refine ⟨_, sparseKernel_some pgh rid _ _ _ mfl hist hbuf hsize hB hroom, ?_⟩
    refine ⟨?_, sparseKernel_buffer_length pgh rid _ _ _ mfl hist hbuf hsize hB hB32 hroom,
      fun b hb => ?_⟩
    · unfold BuildHistSparseKernel.kernels
      dsimp only
      rw [reduce_length, hhist]
    · obtain ⟨h1, h2⟩ := sparseKernel_getD pgh rid gmat.index.cells gmat.nbins gmat.row_stride
        mfl hist hbuf hsize hB hB32 hmfl hroom (by omega) b hb
      rw [h1, h2]
      exact ⟨sum_range_getD rid (fun r => sparseRowTerm pgh gmat.index.cells gmat.row_stride
          b 0 r),
        sum_range_getD rid (fun r => sparseRowTerm pgh gmat.index.cells gmat.row_stride
          b 1 r)⟩

theorem BuildValid_subset (gmat : GHistIndexMatrix) (isDense : Bool) (P A : List Nat)
    (h : ∀ r, r ∈ A → r ∈ P) (hv : BuildValid gmat isDense P) : BuildValid gmat isDense A := by
  obtain ⟨h1, h2, h3, h4⟩ := hv
  exact ⟨h1, h2, h3, fun hd => ⟨(h4 hd).1, fun r hr => (h4 hd).2 r (h r hr)⟩⟩

theorem histValue_perm (pgh : List ℚ) (gmat : GHistIndexMatrix) (isDense : Bool)
    (A B P : List Nat) (hperm : (A ++ B).Perm P) (b ch : Nat) :
    histValue pgh gmat isDense A b ch + histValue pgh gmat isDense B b ch =
      histValue pgh gmat isDense P b ch := by
  unfold histValue
  rw [← List.sum_append, ← List.map_append]
  exact (hperm.map _).sum_eq

theorem scenarioBinned_valid (rid : List Nat) : BuildValid scenarioBinned false rid :=
  ⟨Or.inr (Or.inr rfl), by decide, by decide, fun h => absurd h (by decide)⟩

theorem exampleDense_binned : Init {} exampleDense exampleCuts 256 = some exampleDenseBinned := by
  with_unfolding_all decide

theorem exampleDenseBinned_valid : BuildValid exampleDenseBinned true [0, 2] :=
  ⟨Or.inl rfl, by decide, by decide, fun _ => ⟨by decide, by decide⟩⟩

/-- **C12.** Histogram additivity, in exact arithmetic. For a matrix and a parent row
list `P` on which `BuildHist` is valid (dense or sparse path), and non-empty row
lists `A` and `B` whose concatenation is a permutation of `P`, the three builds
return, whatever their destination rows, scratch buffers (hence block counts) and
the work-group size, and `BuildHist(A)[b] + BuildHist(B)[b] = BuildHist(P)[b]` for
every bin `b` and both channels. -/
theorem BuildHist_additive (pgh : List ℚ) (gmat : GHistIndexMatrix) (isDense : Bool)
    (A B P : List Nat) (mfl : Nat) (histA bufA histB bufB histP bufP : List ℚ)
    (hperm : (A ++ B).Perm P) (hA : 0 < A.length) (hB : 0 < B.length)
    (hv : BuildValid gmat isDense P) (hmfl : 0 < mfl)
    (hroomA : 2 * gmat.nbins ≤ bufA.length / 2) (hroomB : 2 * gmat.nbins ≤ bufB.length / 2)
    (hroomP : 2 * gmat.nbins ≤ bufP.length / 2)
    (hhA : histA.length = 2 * gmat.nbins) (hhB : histB.length = 2 * gmat.nbins)
    (hhP : histP.length = 2 * gmat.nbins) :
    ∃ rA rB rP, BuildHist pgh A gmat isDense mfl histA bufA = some rA ∧
      BuildHist pgh B gmat isDense mfl histB bufB = some rB ∧
      BuildHist pgh P gmat isDense mfl histP bufP = some rP ∧
      ∀ b, b < gmat.nbins →
        rA.1.getD (2 * b) 0 + rB.1.getD (2 * b) 0 = rP.1.getD (2 * b) 0 ∧
        rA.1.getD (2 * b + 1) 0 + rB.1.getD (2 * b + 1) 0 = rP.1.getD (2 * b + 1) 0 := by
  have hP : 0 < P.length := by
    rw [← hperm.length_eq, List.length_append]
    omega
  have hvA := BuildValid_subset gmat isDense P A
    (fun r hr => hperm.subset (List.mem_append_left B hr)) hv
  have hvB := BuildValid_subset gmat isDense P B
    (fun r hr => hperm.subset (List.mem_append_right A hr)) hv
  obtain ⟨rA, eA, _, _, gA⟩ := BuildHist_getD pgh A gmat isDense mfl histA bufA hvA hA hmfl
    hroomA hhA
  obtain ⟨rB, eB, _, _, gB⟩ := BuildHist_getD pgh B gmat isDense mfl histB bufB hvB hB hmfl
    hroomB hhB
  obtain ⟨rP, eP, _, _, gP⟩ := BuildHist_getD pgh P gmat isDense mfl histP bufP hv hP hmfl
    hroomP hhP
  refine ⟨rA, rB, rP, eA, eB, eP, fun b hb => ?_⟩
  rw [(gA b hb).1, (gA b hb).2, (gB b hb).1, (gB b hb).2, (gP b hb).1, (gP b hb).2]
  exact ⟨histValue_perm pgh gmat isDense A B P hperm b 0,
    histValue_perm pgh gmat isDense A B P hperm b 1⟩

/-- Witness of `BuildHist_additive`: the scenario's rows split into `[0, 2]` and
`[3, 1]`, with scratch buffers of different sizes. -/
theorem BuildHist_additive_witness :
    ∃ rA rB rP,
      BuildHist scenarioGpair [0, 2] scenarioBinned false 1 (List.replicate 6 0)
        (List.replicate 12 0) = some rA ∧
      BuildHist scenarioGpair [3, 1] scenarioBinned false 1 (List.replicate 6 7)
        (List.replicate 24 7) = some rB ∧
      BuildHist scenarioGpair [0, 1, 2, 3] scenarioBinned false 1 (List.replicate 6 9)
        (List.replicate 36 9) = some rP ∧
      ∀ b, b < scenarioBinned.nbins →
        rA.1.getD (2 * b) 0 + rB.1.getD (2 * b) 0 = rP.1.getD (2 * b) 0 ∧
        rA.1.getD (2 * b + 1) 0 + rB.1.getD (2 * b + 1) 0 = rP.1.getD (2 * b + 1) 0 :=
  BuildHist_additive scenarioGpair scenarioBinned false [0, 2] [3, 1] [0, 1, 2, 3] 1
    (List.replicate 6 0) (List.replicate 12 0) (List.replicate 6 7) (List.replicate 24 7)
    (List.replicate 6 9) (List.replicate 36 9) (by decide) (by decide) (by decide)
    (scenarioBinned_valid _) (by decide) (by decide) (by decide) (by decide) (by decide)
    (by decide) (by decide)

/-- **C13.** Subtraction equivalence, in exact arithmetic. For a matrix and a parent
row list `P` on which `BuildHist` is valid, and non-empty row lists `A` and `B`
whose concatenation is a permutation of `P`, `SubtractionTrick` with
`sibling = BuildHist(A)` and `parent = BuildHist(P)` runs to completion and the row
it writes into `self` is the row `BuildHist(B)`. -/
theorem SubtractionTrick_recovers_sibling (pgh : List ℚ) (gmat : GHistIndexMatrix)
    (isDense : Bool) (A B P : List Nat) (mfl : Nat)
    (histA bufA histB bufB histP bufP self0 : List ℚ)
    (hperm : (A ++ B).Perm P) (hA : 0 < A.length) (hB : 0 < B.length)
    (hv : BuildValid gmat isDense P) (hmfl : 0 < mfl)
    (hroomA : 2 * gmat.nbins ≤ bufA.length / 2) (hroomB : 2 * gmat.nbins ≤ bufB.length / 2)
    (hroomP : 2 * gmat.nbins ≤ bufP.length / 2)
    (hhA : histA.length = 2 * gmat.nbins) (hhB : histB.length = 2 * gmat.nbins)
    (hhP : histP.length = 2 * gmat.nbins) (hself : self0.length = 2 * gmat.nbins) :
    ∃ rA rB rP rows', BuildHist pgh A gmat isDense mfl histA bufA = some rA ∧
      BuildHist pgh B gmat isDense mfl histB bufB = some rB ∧
      BuildHist pgh P gmat isDense mfl histP bufP = some rP ∧
      SubtractionTrick [self0, rA.1, rP.1] 0 1 2 = Checked.ok rows' ∧
      rows'.getD 0 [] = rB.1 := by
  have hP : 0 < P.length := by
    rw [← hperm.length_eq, List.length_append]
    omega
  have hvA := BuildValid_subset gmat isDense P A
    (fun r hr => hperm.subset (List.mem_append_left B hr)) hv
  have hvB := BuildValid_subset gmat isDense P B
    (fun r hr => hperm.subset (List.mem_append_right A hr)) hv
  obtain ⟨rA, eA, lA, _, gA⟩ := BuildHist_getD pgh A gmat isDense mfl histA bufA hvA hA hmfl
    hroomA hhA
  obtain ⟨rB, eB, lB, _, gB⟩ := BuildHist_getD pgh B gmat isDense mfl histB bufB hvB hB hmfl
    hroomB hhB
  obtain ⟨rP, eP, lP, _, gP⟩ := BuildHist_getD pgh P gmat isDense mfl histP bufP hv hP hmfl
    hroomP hhP
  obtain ⟨rows', hok, hval, hlen, _⟩ := subtractionTrick_ok [self0, rA.1, rP.1] 0 1 2
    gmat.nbins hself lA lP
  refine ⟨rA, rB, rP, rows', eA, eB, eP, hok, ?_⟩
  apply list_eq_of_getD _ _ (by rw [hlen, lB])
  intro k hk
  rw [hlen] at hk
  have hb : k / 2 < gmat.nbins := by omega
  obtain ⟨v0, v1⟩ := hval (k / 2) hb
  have a0 := histValue_perm pgh gmat isDense A B P hperm (k / 2) 0
  have a1 := histValue_perm pgh gmat isDense A B P hperm (k / 2) 1
  rw [← (gA _ hb).1, ← (gB _ hb).1, ← (gP _ hb).1] at a0
  rw [← (gA _ hb).2, ← (gB _ hb).2, ← (gP _ hb).2] at a1
  have e1 : ([self0, rA.1, rP.1] : List (List ℚ)).getD 1 [] = rA.1 := rfl
  have e2 : ([self0, rA.1, rP.1] : List (List ℚ)).getD 2 [] = rP.1 := rfl
  rw [e1, e2] at v0 v1
  rcases Nat.mod_two_eq_zero_or_one k with hk0 | hk1
  · have hk2 : k = 2 * (k / 2) := by omega
    rw [hk2, v0, ← a0]
    ring
  · have hk2 : k = 2 * (k / 2) + 1 := by omega
    rw [hk2, v1, ← a1]
    ring

/-- Witness of `SubtractionTrick_recovers_sibling` on the scenario's rows split into
`[0, 2]` and `[3, 1]`. -/
theorem SubtractionTrick_recovers_sibling_witness :
    ∃ rA rB rP rows',
      BuildHist scenarioGpair [0, 2] scenarioBinned false 1 (List.replicate 6 0)
        (List.replicate 12 0) = some rA ∧
      BuildHist scenarioGpair [3, 1] scenarioBinned false 1 (List.replicate 6 7)
        (List.replicate 24 7) = some rB ∧
      BuildHist scenarioGpair [0, 1, 2, 3] scenarioBinned false 1 (List.replicate 6 9)
        (List.replicate 36 9) = some rP ∧
      SubtractionTrick [List.replicate 6 5, rA.1, rP.1] 0 1 2 = Checked.ok rows' ∧
      rows'.getD 0 [] = rB.1 :=
  SubtractionTrick_recovers_sibling scenarioGpair scenarioBinned false [0, 2] [3, 1]
    [0, 1, 2, 3] 1
    (List.replicate 6 0) (List.replicate 12 0) (List.replicate 6 7) (List.replicate 24 7)
    (List.replicate 6 9) (List.replicate 36 9) (List.replicate 6 5) (by decide) (by decide)
    (by decide) (scenarioBinned_valid _) (by decide) (by decide) (by decide) (by decide)
    (by decide) (by decide) (by decide) (by decide)

/-- **C16.** Rebuild idempotence, in exact arithmetic. For a matrix and a non-empty
row list on which `BuildHist` is valid, the destination row that `BuildHist`
produces is the same whatever the destination row and the scratch buffer held
before and whatever the size of the scratch buffer (with room for one block); in
particular a second build that starts from the destination row and the scratch
buffer left by the first one yields the same row. -/
theorem BuildHist_rebuild_idempotent (pgh : List ℚ) (rid : List Nat)
    (gmat : GHistIndexMatrix) (isDense : Bool) (mfl : Nat) (hist hbuf : List ℚ)
    (hv : BuildValid gmat isDense rid) (hsize : 0 < rid.length) (hmfl : 0 < mfl)
    (hroom : 2 * gmat.nbins ≤ hbuf.length / 2) (hhist : hist.length = 2 * gmat.nbins) :
    ∃ r, BuildHist pgh rid gmat isDense mfl hist hbuf = some r ∧
      (∀ hist' hbuf', hist'.length = 2 * gmat.nbins → 2 * gmat.nbins ≤ hbuf'.length / 2 →
        ∃ r', BuildHist pgh rid gmat isDense mfl hist' hbuf' = some r' ∧ r'.1 = r.1) ∧
      ∃ r2, BuildHist pgh rid gmat isDense mfl r.1 r.2 = some r2 ∧ r2.1 = r.1 := by
  obtain ⟨r, e, l1, l2, g⟩ := BuildHist_getD pgh rid gmat isDense mfl hist hbuf hv hsize hmfl
    hroom hhist
  have hindep : ∀ hist' hbuf', hist'.length = 2 * gmat.nbins →
      2 * gmat.nbins ≤ hbuf'.length / 2 →
      ∃ r', BuildHist pgh rid gmat isDense mfl hist' hbuf' = some r' ∧ r'.1 = r.1 := by
    intro hist' hbuf' hh' hr'
    obtain ⟨r', e', l1', _, g'⟩ := BuildHist_getD pgh rid gmat isDense mfl hist' hbuf' hv hsize
      hmfl hr' hh'
    refine ⟨r', e', list_eq_of_getD _ _ (by rw [l1', l1]) (fun k hk => ?_)⟩
    rw [l1'] at hk
    have hb : k / 2 < gmat.nbins := by omega
    rcases Nat.mod_two_eq_zero_or_one k with hk0 | hk1
    · have hk2 : k = 2 * (k / 2) := by omega
      rw [hk2, (g' _ hb).1, (g _ hb).1]
    · have hk2 : k = 2 * (k / 2) + 1 := by omega
      rw [hk2, (g' _ hb).2, (g _ hb).2]
  exact ⟨r, e, hindep, hindep r.1 r.2 l1 (by rw [l2]; exact hroom)⟩

/-- Witness of `BuildHist_rebuild_idempotent`: rows `0` and `2` of the dense example,
starting from a destination row and a scratch buffer that hold leftovers. -/
theorem BuildHist_rebuild_idempotent_witness :
    ∃ r, BuildHist [1, 1, 2, 1, 3, 1] [0, 2] exampleDenseBinned true 1 (List.replicate 6 9)
        (List.replicate 12 7) = some r ∧
      (∀ hist' hbuf', hist'.length = 2 * exampleDenseBinned.nbins →
        2 * exampleDenseBinned.nbins ≤ hbuf'.length / 2 →
        ∃ r', BuildHist [1, 1, 2, 1, 3, 1] [0, 2] exampleDenseBinned true 1 hist' hbuf' =
          some r' ∧ r'.1 = r.1) ∧
      ∃ r2, BuildHist [1, 1, 2, 1, 3, 1] [0, 2] exampleDenseBinned true 1 r.1 r.2 = some r2 ∧
        r2.1 = r.1 :=
  BuildHist_rebuild_idempotent [1, 1, 2, 1, 3, 1] [0, 2] exampleDenseBinned true 1
    (List.replicate 6 9) (List.replicate 12 7) exampleDenseBinned_valid (by decide)
    (by decide) (by decide) (by decide)

/-! ### The end-to-end scenario -/

/-- Counterexample to C17: on the scenario the matrix has three bins, not five, and
the gradient sums are `1`, `5`, `4`: the value `2.5` above both cuts of `f0` falls
in the last bin of `f0` together with `1.5`, and both values of `f1` fall in its
only bin. -/
theorem scenario_counterexample :
    Init {} scenarioMatrix scenarioCuts 256 = some scenarioBinned ∧
    scenarioBinned.nbins = 3 ∧
    ∃ r, BuildHist scenarioGpair [0, 1, 2, 3] scenarioBinned false 256 (List.replicate 6 0)
        (List.replicate 12 0) = some r ∧
      r.1 = [1, 1, 5, 2, 4, 2] ∧
      ¬ (r.1.getD (2 * 0) 0 = 1 ∧ r.1.getD (2 * 1) 0 = 2 ∧ r.1.getD (2 * 2) 0 = 3 ∧
        r.1.getD (2 * 3) 0 = 3 ∧ r.1.getD (2 * 4) 0 = 1) := by
  refine ⟨by with_unfolding_all decide, rfl, _, rfl, ?_⟩
  with_unfolding_all decide

/-- **C17 (amended).** End-to-end scenario: binning the four rows against the cuts
`f0: [1.0, 2.0]`, `f1: [5.0]` gives a sparse matrix of three bins, and building the
histogram over all four rows with the gradient pairs `(1,1), (2,1), (3,1), (4,1)`
yields, for every work-group size, destination row of three bins and scratch
buffer with room for one block, the gradient sums `bin0 = 1`, `bin1 = 5`,
`bin2 = 4` and the hessian sums `1`, `2`, `2`; the empty fourth row contributes to
no bin: the build over the first three rows yields the same row. -/
theorem scenario_histogram (mfl : Nat) (hist hbuf : List ℚ) (hmfl : 0 < mfl)
    (hhist : hist.length = 6) (hroom : 6 ≤ hbuf.length / 2) :
    Init {} scenarioMatrix scenarioCuts 256 = some scenarioBinned ∧
    ∃ r, BuildHist scenarioGpair [0, 1, 2, 3] scenarioBinned false mfl hist hbuf = some r ∧
      r.1 = [1, 1, 5, 2, 4, 2] ∧
      ∃ r3, BuildHist scenarioGpair [0, 1, 2] scenarioBinned false mfl hist hbuf = some r3 ∧
        r3.1 = r.1 := by
  have hrow : ∀ rid : List Nat, 0 < rid.length →
      (∀ b, b < 3 → histValue scenarioGpair scenarioBinned false rid b 0 =
          ([1, 1, 5, 2, 4, 2] : List ℚ).getD (2 * b) 0 ∧
        histValue scenarioGpair scenarioBinned false rid b 1 =
          ([1, 1, 5, 2, 4, 2] : List ℚ).getD (2 * b + 1) 0) →
      ∃ r, BuildHist scenarioGpair rid scenarioBinned false mfl hist hbuf = some r ∧
        r.1 = [1, 1, 5, 2, 4, 2] := by
    intro rid hrid hval
    obtain ⟨r, e, l1, _, g⟩ := BuildHist_getD scenarioGpair rid scenarioBinned false mfl hist
      hbuf (scenarioBinned_valid rid) hrid hmfl hroom hhist
    refine ⟨r, e, list_eq_of_getD _ _ l1 (fun k hk => ?_)⟩
    rw [l1] at hk
    have hb : k / 2 < 3 := by
      have : 2 * scenarioBinned.nbins = 6 := rfl
      omega
    rcases Nat.mod_two_eq_zero_or_one k with hk0 | hk1
    · have hk2 : k = 2 * (k / 2) := by omega
      rw [hk2, (g _ hb).1, (hval _ hb).1]
    · have hk2 : k = 2 * (k / 2) + 1 := by omega
      rw [hk2, (g _ hb).2, (hval _ hb).2]
  obtain ⟨r, e, hr⟩ := hrow [0, 1, 2, 3] (by decide) (by
    intro b hb
    interval_cases b <;> exact ⟨by with_unfolding_all decide, by with_unfolding_all decide⟩)
  obtain ⟨r3, e3, hr3⟩ := hrow [0, 1, 2] (by decide) (by
    intro b hb
    interval_cases b <;> exact ⟨by with_unfolding_all decide, by with_unfolding_all decide⟩)
  exact ⟨by with_unfolding_all decide, r, e, hr, r3, e3, by rw [hr3, hr]⟩

/-- Witness of `scenario_histogram`: one work item per group, a destination row and
a scratch buffer holding leftovers. -/
theorem scenario_histogram_witness :
    Init {} scenarioMatrix scenarioCuts 256 = some scenarioBinned ∧
    ∃ r, BuildHist scenarioGpair [0, 1, 2, 3] scenarioBinned false 1 (List.replicate 6 9)
        (List.replicate 12 7) = some r ∧
      r.1 = [1, 1, 5, 2, 4, 2] ∧
      ∃ r3, BuildHist scenarioGpair [0, 1, 2] scenarioBinned false 1 (List.replicate 6 9)
          (List.replicate 12 7) = some r3 ∧
        r3.1 = r.1 :=
  scenario_histogram 1 (List.replicate 6 9) (List.replicate 12 7) (by decide) (by decide)
    (by decide)

/-! ### The block count -/

theorem numBlocks_eq (S nbins n : Nat) :
    numBlocks S nbins n = min (S / (2 * nbins)) ((n + 127) / 128) := by
  unfold numBlocks
  rw [Nat.mul_comm nbins 2]
  congr 1
  split <;> omega

theorem numBlocks_le (S nbins n : Nat) (hn : 1 ≤ n) : numBlocks S nbins n ≤ n := by
  rw [numBlocks_eq]
  exact le_trans (Nat.min_le_right _ _) (by omega)

theorem numBlocks_pos (S nbins n : Nat) (hn : 1 ≤ n) (hM : 1 ≤ S / (2 * nbins)) :
    1 ≤ numBlocks S nbins n := by
  rw [numBlocks_eq]
  exact le_min hM (by omega)

/-- **C22.** For a subset of `n ≥ 1` rows, `nbins > 0` and a scratch buffer holding
`M = hist_buffer.Size() / (2 * nbins) ≥ 1` blocks, both build kernels run with
`B = min(M, ceil(n / 128))` blocks, where `1 ≤ B ≤ n`, so that neither
`hist_buffer.Size() / (nbins * two)` nor `size / nblocks` divides by zero and both
functions return; `B = 1` when `n ≤ 128`. -/
theorem build_kernels_block_count (pgh : List ℚ) (rid gi offs : List Nat)
    (nbins nf rs mfl : Nat) (hist hbuf : List ℚ)
    (hn : 1 ≤ rid.length) (hnbins : 0 < nbins) (hM : 1 ≤ hbuf.length / 2 / (2 * nbins)) :
    ∃ B, B = min (hbuf.length / 2 / (2 * nbins)) ((rid.length + 127) / 128) ∧
      1 ≤ B ∧ B ≤ rid.length ∧ (rid.length ≤ 128 → B = 1) ∧
      BuildHistDenseKernel pgh rid gi offs nbins nf mfl hist hbuf =
        some (BuildHist.reduce nbins B
            (forLoop 0 B (BuildHistDenseKernel.scatter pgh rid gi offs nbins nf
              (if nf < mfl then nf else mfl) B) hbuf) hist,
          forLoop 0 B (BuildHistDenseKernel.scatter pgh rid gi offs nbins nf
            (if nf < mfl then nf else mfl) B) hbuf) ∧
      BuildHistSparseKernel pgh rid gi nbins rs mfl hist hbuf =
        some (BuildHist.reduce nbins B
            (forLoop 0 B (BuildHistSparseKernel.scatter pgh rid gi nbins rs
              (if rs < mfl then rs else mfl)
              (rid.length / B + (if rid.length % B ≠ 0 then 1 else 0)))
              (BuildHistSparseKernel.zero nbins B hbuf)) hist,
          forLoop 0 B (BuildHistSparseKernel.scatter pgh rid gi nbins rs
            (if rs < mfl then rs else mfl)
            (rid.length / B + (if rid.length % B ≠ 0 then 1 else 0)))
            (BuildHistSparseKernel.zero nbins B hbuf)) := by
  have heq := numBlocks_eq (hbuf.length / 2) nbins rid.length
  have hpos := numBlocks_pos (hbuf.length / 2) nbins rid.length hn hM
  have hle := numBlocks_le (hbuf.length / 2) nbins rid.length hn
  refine ⟨numBlocks (hbuf.length / 2) nbins rid.length, heq, hpos, hle, ?_, ?_, ?_⟩
  · intro h128
    have h1 : (rid.length + 127) / 128 = 1 := by omega
    rw [heq, h1]
    exact Nat.min_eq_right hM
  · rw [BuildHistDenseKernel]
    dsimp only
    rw [if_neg (by omega), if_neg (by omega)]
    rfl
  · rw [BuildHistSparseKernel]
    dsimp only
    rw [if_neg (by omega), if_neg (by omega)]
    rfl

/-- Witness of `build_kernels_block_count`: two rows, a scratch buffer of four
blocks. -/
theorem build_kernels_block_count_witness :
    ∃ B, B = min ((List.replicate 48 (9 : ℚ)).length / 2 / (2 * 3))
        ((([0, 2] : List Nat).length + 127) / 128) ∧
      1 ≤ B ∧ B ≤ ([0, 2] : List Nat).length ∧ (([0, 2] : List Nat).length ≤ 128 → B = 1) ∧
      BuildHistDenseKernel [1, 1, 2, 1, 3, 1] [0, 2] [0, 0, 1, 0, 1, 0] [0, 2] 3 2 1
          (List.replicate 6 7) (List.replicate 48 9) =
        some (BuildHist.reduce 3 B
            (forLoop 0 B (BuildHistDenseKernel.scatter [1, 1, 2, 1, 3, 1] [0, 2]
              [0, 0, 1, 0, 1, 0] [0, 2] 3 2 (if 2 < 1 then 2 else 1) B)
              (List.replicate 48 9)) (List.replicate 6 7),
          forLoop 0 B (BuildHistDenseKernel.scatter [1, 1, 2, 1, 3, 1] [0, 2]
            [0, 0, 1, 0, 1, 0] [0, 2] 3 2 (if 2 < 1 then 2 else 1) B)
            (List.replicate 48 9)) ∧
      BuildHistSparseKernel [1, 1, 2, 1, 3, 1] [0, 2] [0, 0, 1, 0, 1, 0] 3 2 1
          (List.replicate 6 7) (List.replicate 48 9) =
        some (BuildHist.reduce 3 B
            (forLoop 0 B (BuildHistSparseKernel.scatter [1, 1, 2, 1, 3, 1] [0, 2]
              [0, 0, 1, 0, 1, 0] 3 2 (if 2 < 1 then 2 else 1)
              (([0, 2] : List Nat).length / B +
                (if ([0, 2] : List Nat).length % B ≠ 0 then 1 else 0)))
              (BuildHistSparseKernel.zero 3 B (List.replicate 48 9))) (List.replicate 6 7),
          forLoop 0 B (BuildHistSparseKernel.scatter [1, 1, 2, 1, 3, 1] [0, 2]
            [0, 0, 1, 0, 1, 0] 3 2 (if 2 < 1 then 2 else 1)
            (([0, 2] : List Nat).length / B +
              (if ([0, 2] : List Nat).length % B ≠ 0 then 1 else 0)))
            (BuildHistSparseKernel.zero 3 B (List.replicate 48 9))) :=
  build_kernels_block_count [1, 1, 2, 1, 3, 1] [0, 2] [0, 0, 1, 0, 1, 0] [0, 2] 3 2 2 1
    (List.replicate 6 7) (List.replicate 48 9) (by decide) (by decide) (by decide)

/-- **C28.** On an empty row subset both kernel functions divide by zero, whatever the
other arguments: the block count is `min(max_nblocks, 0 / 128 + !!(0 % 128)) = 0`
and the host evaluates `size / nblocks + !!(size % nblocks)`. `BuildHist` does
not return normally. -/
theorem BuildHist_empty_subset_fails (pgh : List ℚ) (gmat : GHistIndexMatrix)
    (isDense : Bool) (mfl : Nat) (hist hbuf : List ℚ) :
    numBlocks (hbuf.length / 2) gmat.nbins ([] : List Nat).length = 0 ∧
    BuildHistDenseKernel pgh [] gmat.index.cells gmat.index.offset_ gmat.nbins gmat.nfeatures
      mfl hist hbuf = none ∧
    BuildHistSparseKernel pgh [] gmat.index.cells gmat.nbins gmat.row_stride mfl hist hbuf =
      none ∧
    BuildHist pgh [] gmat isDense mfl hist hbuf = none := by
  have h0 : ∀ S B, numBlocks S B ([] : List Nat).length = 0 := by
    intro S B
    rw [numBlocks_eq]
    exact Nat.min_eq_right (Nat.zero_le _)
  have hd : ∀ gi offs B nf, BuildHistDenseKernel pgh [] gi offs B nf mfl hist hbuf = none := by
    intro gi offs B nf
    rw [BuildHistDenseKernel]
    dsimp only
    split
    · rfl
    · rw [if_pos (h0 _ _)]
  have hs : ∀ gi B rs, BuildHistSparseKernel pgh [] gi B rs mfl hist hbuf = none := by
    intro gi B rs
    rw [BuildHistSparseKernel]
    dsimp only
    split
    · rfl
    · rw [if_pos (h0 _ _)]
  refine ⟨h0 _ _, hd _ _ _ _, hs _ _ _, ?_⟩
  have hdisp : BuildHistDispatchKernel pgh [] gmat isDense mfl hist hbuf = none := by
    rw [BuildHistDispatchKernel]
    split
    · exact hd _ _ _ _
    · exact hs _ _ _
  rw [BuildHist, BuildHistKernel, hdisp]
  split_ifs <;> rfl

/-! ### Private regions -/

theorem region_of_bounds (nbins len nb k a : Nat) (hk : k < nb) (hlen : nb * nbins * 2 ≤ len)
    (h1 : k * nbins * 2 ≤ a) (h2 : a < k * nbins * 2 + 2 * nbins) :
    InBlockRegion nbins len k a := by
  have hb := block_base_le k nb nbins hk
  have e1 : k * (2 * nbins) = k * nbins * 2 := by ring
  have e2 : (k + 1) * (2 * nbins) = k * nbins * 2 + 2 * nbins := by ring
  unfold InBlockRegion
  rw [e1, e2]
  omega

/-- **C23.** For a dense index whose decoded bins of the listed rows are below `nbins`
(on the sparse path the kernel itself skips the cells not below `nbins`), a
non-empty row list and a scratch buffer sized by `Reset(M)`, `M ≥ 1`: the scatter
phase of block `k` of the dense kernel is the sequence of the stores that clear
its region followed by the accumulator updates `denseOps`, that of the sparse
kernel is the sequence `sparseOps`, and the cells that the sparse zeroing kernel
clears for block `k` are those of the pairs `k * nbins + j`; every one of these
accumulator indices lies in `[k * 2 * nbins, (k + 1) * 2 * nbins)` and within the
scratch buffer, and the scatter phase of block `k` leaves every accumulator outside
this region as it was. -/
theorem scatter_stays_in_region (pgh : List ℚ) (rid gi offs : List Nat)
    (nbins nf rs mfl M : Nat) (buf0 : List ℚ)
    (hsize : 0 < rid.length) (hnbins : 0 < nbins) (hB32 : 2 * nbins ≤ u32) (hnf : 0 < nf)
    (hmfl : 0 < mfl) (hM : 1 ≤ M)
    (hbins : ∀ i j, i < rid.length → j < nf → denseBin rid gi offs nf i j < nbins)
    (k : Nat)
    (hk : k < numBlocks ((ParallelGHistBuilder.Reset nbins buf0 M).length / 2) nbins
      rid.length) :
    (∀ st, BuildHistDenseKernel.scatter pgh rid gi offs nbins nf (if nf < mfl then nf else mfl)
        (numBlocks ((ParallelGHistBuilder.Reset nbins buf0 M).length / 2) nbins rid.length)
        k st =
      (denseOps pgh rid gi offs nbins nf (if nf < mfl then nf else mfl)
        (numBlocks ((ParallelGHistBuilder.Reset nbins buf0 M).length / 2) nbins rid.length)
        k).foldl (fun b o => addAt b o.1 o.2)
        ((zeroList nbins (if nf < mfl then nf else mfl)).foldl
          (fun b j => b.set (k * nbins * 2 + j) 0) st)) ∧
    (∀ j ∈ zeroList nbins (if nf < mfl then nf else mfl),
      InBlockRegion nbins (ParallelGHistBuilder.Reset nbins buf0 M).length k
        (k * nbins * 2 + j)) ∧
    (∀ o ∈ denseOps pgh rid gi offs nbins nf (if nf < mfl then nf else mfl)
        (numBlocks ((ParallelGHistBuilder.Reset nbins buf0 M).length / 2) nbins rid.length) k,
      InBlockRegion nbins (ParallelGHistBuilder.Reset nbins buf0 M).length k o.1) ∧
    (∀ bs st, BuildHistSparseKernel.scatter pgh rid gi nbins rs (if rs < mfl then rs else mfl)
        bs k st =
      (sparseOps pgh rid gi nbins rs (if rs < mfl then rs else mfl) bs k).foldl
        (fun b o => addAt b o.1 o.2) st) ∧
    (∀ bs, ∀ o ∈ sparseOps pgh rid gi nbins rs (if rs < mfl then rs else mfl) bs k,
      InBlockRegion nbins (ParallelGHistBuilder.Reset nbins buf0 M).length k o.1) ∧
    (∀ j, j < nbins →
      InBlockRegion nbins (ParallelGHistBuilder.Reset nbins buf0 M).length k
        (2 * (k * nbins + j)) ∧
      InBlockRegion nbins (ParallelGHistBuilder.Reset nbins buf0 M).length k
        (2 * (k * nbins + j) + 1)) ∧
    (∀ bs st a, st.length = (ParallelGHistBuilder.Reset nbins buf0 M).length →
      ¬ InBlockRegion nbins (ParallelGHistBuilder.Reset nbins buf0 M).length k a →
      (BuildHistDenseKernel.scatter pgh rid gi offs nbins nf (if nf < mfl then nf else mfl)
        (numBlocks ((ParallelGHistBuilder.Reset nbins buf0 M).length / 2) nbins rid.length)
        k st).getD a 0 = st.getD a 0 ∧
      (BuildHistSparseKernel.scatter pgh rid gi nbins rs (if rs < mfl then rs else mfl)
        bs k st).getD a 0 = st.getD a 0) := by
  have hL : (ParallelGHistBuilder.Reset nbins buf0 M).length = 2 * (M * nbins * 2) := by
    rw [ParallelGHistBuilder.Reset, vecResize_length]
  have hMn : nbins ≤ M * nbins := Nat.le_mul_of_pos_left nbins hM
  have hroom : 2 * nbins ≤ (ParallelGHistBuilder.Reset nbins buf0 M).length / 2 := by
    rw [hL]
    omega
  obtain ⟨hnb, hnbl⟩ := numBlocks_bounds _ nbins rid.length hnbins hroom hsize
  have hfl : 0 < (if nf < mfl then nf else mfl) := by split <;> omega
  generalize ParallelGHistBuilder.Reset nbins buf0 M = hbuf at *
  generalize numBlocks (hbuf.length / 2) nbins rid.length = nb at *
  generalize (if nf < mfl then nf else mfl) = fl at *
  generalize (if rs < mfl then rs else mfl) = sfl at *
  have hlen : nb * nbins * 2 ≤ hbuf.length := by omega
  have hbase := block_base_le k nb nbins hk
  have hda := denseOps_addr pgh rid gi offs nbins nf fl nb k hfl hnb hB32 hbins
  refine ⟨fun st => scatter_eq pgh rid gi offs nbins nf fl nb k st, ?_, ?_,
    fun bs st => sparse_scatter_eq pgh rid gi nbins rs sfl bs k st, ?_, ?_, ?_⟩
  · intro j hj
    have := (mem_zeroList nbins fl j hfl).mp hj
    exact region_of_bounds nbins hbuf.length nb k _ hk hlen (by omega) (by omega)
  · intro o ho
    exact region_of_bounds nbins hbuf.length nb k _ hk hlen (hda o ho).1 (hda o ho).2
  · intro bs o ho
    have := sparseOps_addr pgh rid gi nbins rs sfl bs k hB32 o ho
    exact region_of_bounds nbins hbuf.length nb k _ hk hlen this.1 this.2
  · intro j hj
    have e : 2 * (k * nbins + j) = k * nbins * 2 + 2 * j := by ring
    rw [e]
    exact ⟨region_of_bounds nbins hbuf.length nb k _ hk hlen (by omega) (by omega),
      region_of_bounds nbins hbuf.length nb k _ hk hlen (by omega) (by omega)⟩
  · intro bs st a hst hout
    have hcases : a < k * nbins * 2 ∨ k * nbins * 2 + 2 * nbins ≤ a := by
      by_contra hc
      exact hout (region_of_bounds nbins hbuf.length nb k a hk hlen (by omega) (by omega))
    exact ⟨(scatter_getD pgh rid gi offs nbins nf fl nb k st hfl hnb hB32 hbins
        (by omega)).2.1 a hcases,
      (sparse_scatter_getD pgh rid gi nbins rs sfl bs k st hB32 (by omega)).2.1 a hcases⟩

/-- Witness of `scatter_stays_in_region`: block `0` of the build over rows `0` and `2`
of the dense example, with a scratch buffer sized by `Reset(2)`; the two
accumulators of bin `1` lie in the region of the block. -/
theorem scatter_stays_in_region_witness :
    InBlockRegion 3 (ParallelGHistBuilder.Reset 3 [] 2).length 0 (2 * (0 * 3 + 1)) ∧
    InBlockRegion 3 (ParallelGHistBuilder.Reset 3 [] 2).length 0 (2 * (0 * 3 + 1) + 1) :=
  (scatter_stays_in_region [1, 1, 2, 1, 3, 1] [0, 2] [0, 0, 1, 0, 1, 0] [0, 2] 3 2 2 1 2 []
    (by decide) (by decide) (by decide) (by decide) (by decide) (by decide)
    (by
      intro i j hi hj
      have hi2 : i < 2 := hi
      interval_cases i <;> interval_cases j <;> decide)
    0 (by decide)).2.2.2.2.2.1 1 (by decide)

/-! ### `SearchBin`: monotonicity, bins of different features -/

/-- **C27.** `SearchBin` is monotone in the value: for a feature `f` with a non-empty
slice sorted ascending (and `cut_ptrs` within `uint32_t`) and values `v1 ≤ v2`,
`SearchBin(f, v1) ≤ SearchBin(f, v2)`. -/
theorem SearchBin_monotone (cv : List ℚ) (cut_ptrs : List Nat) (f : Nat) (v1 v2 : ℚ)
    (hu : PtrsU32 cut_ptrs) (hf : f + 1 < cut_ptrs.length)
    (hne : cut_ptrs.getD f 0 < cut_ptrs.getD (f + 1) 0)
    (hs : SliceSorted cv (cut_ptrs.getD f 0) (cut_ptrs.getD (f + 1) 0))
    (hv : v1 ≤ v2) :
    SearchBin cv cut_ptrs ⟨f, v1⟩ ≤ SearchBin cv cut_ptrs ⟨f, v2⟩ := by
  have hr1 := upperBoundLoop_range cv v1
    (cut_ptrs.getD (f + 1) 0 - cut_ptrs.getD f 0) (cut_ptrs.getD f 0)
    (cut_ptrs.getD (f + 1) 0 - cut_ptrs.getD f 0) le_rfl
  have hr2 := upperBoundLoop_range cv v2
    (cut_ptrs.getD (f + 1) 0 - cut_ptrs.getD f 0) (cut_ptrs.getD f 0)
    (cut_ptrs.getD (f + 1) 0 - cut_ptrs.getD f 0) le_rfl
  have hs1 := upperBoundLoop_sorted cv v1
    (cut_ptrs.getD (f + 1) 0 - cut_ptrs.getD f 0) (cut_ptrs.getD f 0)
    (cut_ptrs.getD (f + 1) 0 - cut_ptrs.getD f 0) le_rfl
    (by rw [Nat.add_sub_cancel' (le_of_lt hne)]; exact hs)
  have hs2 := upperBoundLoop_sorted cv v2
    (cut_ptrs.getD (f + 1) 0 - cut_ptrs.getD f 0) (cut_ptrs.getD f 0)
    (cut_ptrs.getD (f + 1) 0 - cut_ptrs.getD f 0) le_rfl
    (by rw [Nat.add_sub_cancel' (le_of_lt hne)]; exact hs)
  rw [SearchBin_eq cv cut_ptrs ⟨f, v1⟩ (getD_lt_u32 hu hf) hne,
    SearchBin_eq cv cut_ptrs ⟨f, v2⟩ (getD_lt_u32 hu hf) hne]
  simp only
  unfold upper_bound
  generalize upperBoundLoop cv v1 _ _ _ = p1 at hr1 hs1
  generalize upperBoundLoop cv v2 _ _ _ = p2 at hr2 hs2
  generalize cut_ptrs.getD (f + 1) 0 = hi at *
  generalize cut_ptrs.getD f 0 = lo at *
  rw [Nat.add_sub_cancel' (le_of_lt hne)] at hr1 hr2 hs1 hs2
  have hp : p1 ≤ p2 := by
    by_contra hc
    have hlt : p2 < p1 := by omega
    have h1 := hs1.1 p2 hr2.1 hlt
    have h2 := hs2.2 p2 le_rfl (by omega)
    exact absurd (lt_of_le_of_lt (le_trans h1 hv) h2) (lt_irrefl _)
  split_ifs <;> omega

/-- Witness of `SearchBin_monotone` on feature `0` of the example cuts. -/
theorem SearchBin_monotone_witness :
    SearchBin exampleCuts.cut_values_ exampleCuts.cut_ptrs_ ⟨0, 0⟩ ≤
      SearchBin exampleCuts.cut_values_ exampleCuts.cut_ptrs_ ⟨0, 3⟩ :=
  SearchBin_monotone exampleCuts.cut_values_ exampleCuts.cut_ptrs_ 0 0 3 exampleCuts_u32
    (by decide) (by decide)
    (by
      intro i j h1 h2 h3
      have hj : j < 2 := h3
      interval_cases j <;> interval_cases i <;> decide)
    (by decide)

/-- Entries of different features resolve to different bins: the bin ranges of the
features are disjoint. -/
theorem searchBin_ne (cv : List ℚ) (cp : List Nat) (e1 e2 : Entry)
    (hu : PtrsU32 cp) (hm : PtrsMonotone cp) (hne : SlicesNonEmpty cp)
    (h1 : e1.index + 1 < cp.length) (h2 : e2.index + 1 < cp.length)
    (hd : e1.index ≠ e2.index) : SearchBin cv cp e1 ≠ SearchBin cv cp e2 := by
  have r1 := searchBin_range cv cp e1.index e1.fvalue hu hm hne h1
  have r2 := searchBin_range cv cp e2.index e2.fvalue hu hm hne h2
  rcases Nat.lt_or_gt_of_ne hd with hlt | hgt
  · have := hm (e1.index + 1) e2.index (by omega) (by omega)
    exact fun hc => by
      have hc' : SearchBin cv cp ⟨e1.index, e1.fvalue⟩ = SearchBin cv cp ⟨e2.index, e2.fvalue⟩ :=
        hc
      omega
  · have := hm (e2.index + 1) e1.index (by omega) (by omega)
    exact fun hc => by
      have hc' : SearchBin cv cp ⟨e1.index, e1.fvalue⟩ = SearchBin cv cp ⟨e2.index, e2.fvalue⟩ :=
        hc
      omega

/-- **C24.** For a sparse matrix built by `SetIndexData` over 32-bit cells, under a cut
table with monotone `cut_ptrs` (within `uint32_t`) and non-empty slices, and a row
whose entries carry pairwise distinct, valid feature indices: the bins that
`SearchBin` resolves for the entries of the row are pairwise distinct, the row's
first `size` cells after the sort are strictly increasing, and each of them is
below the padding value `nbins`. -/
theorem SetIndexData_sparse_row_strict (index_data hit_count : List Nat)
    (dmat : DeviceMatrix) (cv : List ℚ) (cp : List Nat) (rs : Nat)
    (hlen : index_data.length = (dmat.row_ptr.length - 1) * rs)
    (hsize : ∀ i, i + 1 < dmat.row_ptr.length → rowSize dmat i ≤ rs)
    (hv : RowPtrValid dmat) (hu : PtrsU32 cp) (hm : PtrsMonotone cp) (hne : SlicesNonEmpty cp)
    (hfeat : ∀ e ∈ allEntries dmat, e.index + 1 < cp.length)
    (i : Nat) (hi : i + 1 < dmat.row_ptr.length)
    (hdist : ∀ j1 j2, j1 < rowSize dmat i → j2 < rowSize dmat i → j1 ≠ j2 →
      (dmat.data.getD (dmat.row_ptr.getD i 0 + j1) default).index ≠
        (dmat.data.getD (dmat.row_ptr.getD i 0 + j2) default).index) :
    ((List.range' 0 (rowSize dmat i)).map (fun j =>
      SearchBin cv cp (dmat.data.getD (dmat.row_ptr.getD i 0 + j) default))).Nodup ∧
    (((SetIndexData kUint32BinsTypeSize index_data hit_count dmat cv cp (totalBins cp) rs
      none).1.drop (i * rs)).take (rowSize dmat i)).Pairwise (· < ·) ∧
    ∀ x ∈ ((SetIndexData kUint32BinsTypeSize index_data hit_count dmat cv cp (totalBins cp) rs
      none).1.drop (i * rs)).take (rowSize dmat i), x < totalBins cp := by
  have hrow := SetIndexData_sparse_rows kUint32BinsTypeSize index_data hit_count dmat cv cp
    (totalBins cp) rs hlen hsize i hi
  have hks := hsize i hi
  have hin : ∀ j, j ∈ List.range' 0 (rowSize dmat i) → j < rowSize dmat i := by
    intro j hj
    have := (List.mem_range'_1.mp hj).2
    omega
  have hfj : ∀ j, j < rowSize dmat i →
      (dmat.data.getD (dmat.row_ptr.getD i 0 + j) default).index + 1 < cp.length :=
    fun j hj => hfeat _ (row_entry_mem dmat hv i j hi hj)
  have hnodup : ((List.range' 0 (rowSize dmat i)).map (fun j =>
      SearchBin cv cp (dmat.data.getD (dmat.row_ptr.getD i 0 + j) default))).Nodup := by
    refine List.Nodup.map_on ?_ (List.nodup_range' 0 _)
    intro j1 h1 j2 h2 heq
    by_contra hj
    exact searchBin_ne cv cp _ _ hu hm hne (hfj j1 (hin j1 h1)) (hfj j2 (hin j2 h2))
      (hdist j1 j2 (hin j1 h1) (hin j2 h2) hj) heq
  have hstored : (List.range' 0 (rowSize dmat i)).map (fun j => SetIndexData.stored
      kUint32BinsTypeSize none j
      (SearchBin cv cp (dmat.data.getD (dmat.row_ptr.getD i 0 + j) default))) =
      (List.range' 0 (rowSize dmat i)).map (fun j =>
        SearchBin cv cp (dmat.data.getD (dmat.row_ptr.getD i 0 + j) default)) := by
    apply List.map_congr_left
    intro j hj
    have hb := (searchBin_range cv cp _
      (dmat.data.getD (dmat.row_ptr.getD i 0 + j) default).fvalue hu hm hne
      (hfj j (hin j hj))).2.2
    unfold SetIndexData.stored
    exact mod_u32_width _ (lt_trans hb (totalBins_lt_u32 cp hu))
  rw [hstored] at hrow
  generalize hB : (List.range' 0 (rowSize dmat i)).map (fun j =>
      SearchBin cv cp (dmat.data.getD (dmat.row_ptr.getD i 0 + j) default)) = B
    at hrow hnodup
  have hBl : B.length = rowSize dmat i := by rw [← hB]; simp
  have hperm := mergeSort_perm (fun x y : Nat => decide (x < y)) B
    (List.replicate (rowSize dmat i) 0) (by simp [hBl])
  have hsorted := mergeSort_sorted B (List.replicate (rowSize dmat i) 0) (by simp [hBl])
  generalize hS : (mergeSort (fun x y : Nat => decide (x < y)) B
    (List.replicate (rowSize dmat i) 0)).1 = S at hrow hperm hsorted
  have hSl : S.length = rowSize dmat i := by rw [hperm.length_eq, hBl]
  have htake : ((SetIndexData kUint32BinsTypeSize index_data hit_count dmat cv cp
      (totalBins cp) rs none).1.drop (i * rs)).take (rowSize dmat i) = S := by
    have e : ((SetIndexData kUint32BinsTypeSize index_data hit_count dmat cv cp
        (totalBins cp) rs none).1.drop (i * rs)).take (rowSize dmat i) =
        (((SetIndexData kUint32BinsTypeSize index_data hit_count dmat cv cp
          (totalBins cp) rs none).1.drop (i * rs)).take rs).take (rowSize dmat i) := by
      rw [List.take_take, Nat.min_eq_left hks]
    rw [e, hrow, List.take_left' hSl]
  rw [htake]
  refine ⟨hnodup, ?_, ?_⟩
  · have hSn : S.Nodup := hperm.nodup_iff.mpr hnodup
    exact (hsorted.and hSn).imp (fun h => lt_of_le_of_ne h.1 h.2)
  · intro x hx
    have hxB := hperm.mem_iff.mp hx
    rw [← hB, List.mem_map] at hxB
    obtain ⟨j, hj, rfl⟩ := hxB
    exact (searchBin_range cv cp _
      (dmat.data.getD (dmat.row_ptr.getD i 0 + j) default).fvalue hu hm hne
      (hfj j (hin j hj))).2.2

/-- Witness of `SetIndexData_sparse_row_strict`: the third row of the sparse example,
with one entry of feature `1` and one of feature `0`. -/
theorem SetIndexData_sparse_row_strict_witness :
    (((SetIndexData kUint32BinsTypeSize (List.replicate 8 0) [0, 0, 0] exampleSparse
        exampleCuts.cut_values_ exampleCuts.cut_ptrs_ (totalBins exampleCuts.cut_ptrs_) 2
        none).1.drop (2 * 2)).take (rowSize exampleSparse 2)).Pairwise (· < ·) :=
  (SetIndexData_sparse_row_strict (List.replicate 8 0) [0, 0, 0] exampleSparse
    exampleCuts.cut_values_ exampleCuts.cut_ptrs_ 2 (by decide) exampleSparse_stride
    exampleSparse_valid exampleCuts_u32 exampleCuts_monotone exampleCuts_nonEmpty
    exampleSparse_features 2 (by decide)
    (by
      intro j1 j2 h1 h2 hne
      have h1' : j1 < 2 := h1
      have h2' : j2 < 2 := h2
      interval_cases j1 <;> interval_cases j2 <;> first | exact absurd rfl hne | decide)).2.1

/-! ### `Init` on a matrix that was initialised before -/

theorem sumList_append (a b : List Nat) : sumList (a ++ b) = sumList a + sumList b := by
  induction a with
  | nil => simp [sumList]
  | cons x xs ih => rw [List.cons_append, sumList_cons, sumList_cons, ih, Nat.add_assoc]

theorem sumList_vecResize (l : List Nat) (n : Nat) :
    sumList (vecResize l n 0) = sumList (l.take n) := by
  rw [vecResize, sumList_append, sumList_replicate_zero, Nat.add_zero]

/-- The hit counts after `Init` from any prior state: the counters kept by
`hit_count.resize(nbins, 0)` plus one increment per entry. -/
theorem Init_hit_count_sum (m : GHistIndexMatrix) (dmat : DeviceMatrix)
    (cut : HistogramCuts) (max_bins : Int) (m' : GHistIndexMatrix)
    (hinit : Init m dmat cut max_bins = some m')
    (hv : RowPtrValid dmat) (hu : PtrsU32 cut.cut_ptrs_) (hm : PtrsMonotone cut.cut_ptrs_)
    (hne : SlicesNonEmpty cut.cut_ptrs_)
    (hfeat : ∀ e ∈ allEntries dmat, e.index + 1 < cut.cut_ptrs_.length) :
    sumList m'.hit_count =
      sumList (m.hit_count.take (totalBins cut.cut_ptrs_)) + (allEntries dmat).length := by
  obtain ⟨_, _, hhc⟩ := Init_hit_count m dmat cut max_bins m' hinit hv
  have hf := foldl_hitAdd (fun e => SearchBin cut.cut_values_ cut.cut_ptrs_ e) (allEntries dmat)
    (vecResize m.hit_count (totalBins cut.cut_ptrs_) 0) (by
      intro e he
      rw [vecResize_length]
      exact (searchBin_range cut.cut_values_ cut.cut_ptrs_ e.index e.fvalue hu hm hne
        (hfeat e he)).2.2)
  rw [hhc, hf.2.2, sumList_vecResize]

/-- Counterexample to C25: a second `Init` of the sparse example on the matrix that
the first `Init` returned leaves hit counts that sum to `10`, while the matrix has
`5` non-padding entries. -/
theorem Init_twice_counterexample :
    (Init {} exampleSparse exampleCuts 256).map (fun m => sumList m.hit_count) = some 5 ∧
    ((Init {} exampleSparse exampleCuts 256).bind
      (fun m1 => Init m1 exampleSparse exampleCuts 256)).map
        (fun m2 => (sumList m2.hit_count, m2.index.cells)) =
      some (10, [0, 2, 1, 3, 1, 2, 3, 3]) ∧
    (allEntries exampleSparse).length = 5 := by
  with_unfolding_all decide

/-- **C25 (amended).** For a CSR input with valid feature indices and a cut table with
monotone `cut_ptrs` and non-empty slices (holding a cut value), `Init` returns from
every prior state of the matrix object, and the sum of the hit counts is then the
sum of the first `nbins` counters the object held before plus the number of
non-padding entries: `hit_count.resize(nbins, 0)` keeps the counters that exist.
The invariant `sum(hit_count) == number of non-padding entries` is established
when those counters sum to zero, in particular on a freshly constructed matrix. -/
theorem Init_hit_count_from_prior_state (m : GHistIndexMatrix) (dmat : DeviceMatrix)
    (cut : HistogramCuts) (max_bins : Int)
    (hcv : 0 < cut.cut_values_.length)
    (hv : RowPtrValid dmat) (hu : PtrsU32 cut.cut_ptrs_) (hm : PtrsMonotone cut.cut_ptrs_)
    (hne : SlicesNonEmpty cut.cut_ptrs_)
    (hfeat : ∀ e ∈ allEntries dmat, e.index + 1 < cut.cut_ptrs_.length) :
    ∃ m', Init m dmat cut max_bins = some m' ∧
      sumList m'.hit_count =
        sumList (m.hit_count.take (totalBins cut.cut_ptrs_)) + (allEntries dmat).length ∧
      (sumList (m.hit_count.take (totalBins cut.cut_ptrs_)) = 0 →
        sumList m'.hit_count = (allEntries dmat).length) ∧
      (m.hit_count = [] → sumList m'.hit_count = (allEntries dmat).length) := by
  obtain ⟨m', hm'⟩ := Init_succeeds m dmat cut max_bins hcv
  have hs := Init_hit_count_sum m dmat cut max_bins m' hm' hv hu hm hne hfeat
  refine ⟨m', hm', hs, fun h0 => by rw [hs, h0, Nat.zero_add], fun hnil => ?_⟩
  rw [hs, hnil]
  simp [sumList]

/-- Witness of `Init_hit_count_from_prior_state`: `Init` of the sparse example on the
matrix object of the scenario, whose counters are `[1, 2, 2]`. -/
theorem Init_hit_count_from_prior_state_witness :
    ∃ m', Init scenarioBinned exampleSparse exampleCuts 256 = some m' ∧
      sumList m'.hit_count =
        sumList (scenarioBinned.hit_count.take (totalBins exampleCuts.cut_ptrs_)) +
          (allEntries exampleSparse).length ∧
      (sumList (scenarioBinned.hit_count.take (totalBins exampleCuts.cut_ptrs_)) = 0 →
        sumList m'.hit_count = (allEntries exampleSparse).length) ∧
      (scenarioBinned.hit_count = [] →
        sumList m'.hit_count = (allEntries exampleSparse).length) :=
  Init_hit_count_from_prior_state scenarioBinned exampleSparse exampleCuts 256 (by decide)
    exampleSparse_valid exampleCuts_u32 exampleCuts_monotone exampleCuts_nonEmpty
    exampleSparse_features

/-! ### `HistCollection` -/

theorem ResizeAsync_nil (n : Nat) :
    USMVector.ResizeAsync [] n (0, 0) = List.replicate (2 * n) 0 := by
  unfold USMVector.ResizeAsync
  simp only [List.take_nil, List.nil_append, List.length_nil, Nat.zero_div, Nat.sub_zero]
  induction n with
  | zero => rfl
  | succ k ih =>
    rw [List.replicate_succ, List.flatten_cons, ih]
    have e : 2 * (k + 1) = (2 * k + 1) + 1 := by ring
    rw [e, List.replicate_succ, List.replicate_succ]
    rfl

/-- **C21.** For a `HistCollection` initialised with `nbins` and a node id `nid` not
yet referenced (`nid ≥` the current number of rows; `nid + 1` within `bst_uint`),
`AddHistRow(nid)` makes `operator[](nid)` a row of exactly `nbins` pairs, all of
whose values are `0`, and the number of rows becomes `nid + 1`, which is not
smaller than before. -/
theorem AddHistRow_fresh_row (hc0 : HistCollection) (nbins nid : Nat)
    (hnid : (hc0.Init nbins).data_.length ≤ nid) (hmax : nid + 1 < u32) :
    GHistRow.Size (((hc0.Init nbins).AddHistRow nid).get nid) = nbins ∧
    (((hc0.Init nbins).AddHistRow nid).get nid).length = 2 * nbins ∧
    (∀ x ∈ ((hc0.Init nbins).AddHistRow nid).get nid, x = 0) ∧
    ((hc0.Init nbins).AddHistRow nid).data_.length = nid + 1 ∧
    (hc0.Init nbins).data_.length ≤ ((hc0.Init nbins).AddHistRow nid).data_.length := by
  have hnb : (hc0.Init nbins).nbins_ = nbins := by
    unfold HistCollection.Init
    split
    · rfl
    · rename_i h
      exact not_not.mp h
  generalize hc0.Init nbins = hc at hnid hnb
  have hmod : (nid + 1) % u32 = nid + 1 := Nat.mod_eq_of_lt hmax
  have hrow : ((hc.AddHistRow nid).get nid) = List.replicate (2 * nbins) 0 := by
    unfold HistCollection.AddHistRow HistCollection.get
    dsimp only
    rw [if_pos hnid, hmod, hnb]
    have hget : (vecResize hc.data_ (nid + 1) ([] : List ℚ)).getD nid [] = [] := by
      unfold vecResize
      rw [List.getD_eq_getElem?_getD, List.getElem?_append_right (by
        rw [List.length_take]; omega)]
      rw [List.getElem?_replicate]
      split <;> rfl
    rw [hget, ResizeAsync_nil, getD_set_eq _ _ _ _ (by rw [vecResize_length]; omega)]
  have hlen : (hc.AddHistRow nid).data_.length = nid + 1 := by
    unfold HistCollection.AddHistRow
    dsimp only
    rw [if_pos hnid, hmod, List.length_set, vecResize_length]
  refine ⟨?_, ?_, ?_, hlen, by omega⟩
  · rw [hrow, GHistRow.Size, List.length_replicate]
    omega
  · rw [hrow, List.length_replicate]
  · intro x hx
    rw [hrow] at hx
    exact List.eq_of_mem_replicate hx

/-- Witness of `AddHistRow_fresh_row`: node `2` of a collection of three bins that
holds one row. -/
theorem AddHistRow_fresh_row_witness :
    GHistRow.Size ((((⟨3, [[1, 1, 2, 1, 3, 1]]⟩ : HistCollection).Init 3).AddHistRow 2).get 2)
      = 3 ∧
    ((((⟨3, [[1, 1, 2, 1, 3, 1]]⟩ : HistCollection).Init 3).AddHistRow 2).get 2).length
      = 2 * 3 ∧
    (∀ x ∈ (((⟨3, [[1, 1, 2, 1, 3, 1]]⟩ : HistCollection).Init 3).AddHistRow 2).get 2,
      x = 0) ∧
    (((⟨3, [[1, 1, 2, 1, 3, 1]]⟩ : HistCollection).Init 3).AddHistRow 2).data_.length = 2 + 1 ∧
    ((⟨3, [[1, 1, 2, 1, 3, 1]]⟩ : HistCollection).Init 3).data_.length ≤
      (((⟨3, [[1, 1, 2, 1, 3, 1]]⟩ : HistCollection).Init 3).AddHistRow 2).data_.length :=
  AddHistRow_fresh_row ⟨3, [[1, 1, 2, 1, 3, 1]]⟩ 3 2 (by decide) (by decide)

/-! ### `mergeSort`: accesses and termination -/

theorem mergeLoopChecked_eq {α : Type} [Inhabited α] (lt : α → α → Bool) (n : Nat)
    (a : List α) (mid finish : Nat) (hmn : mid ≤ n) (hfn : finish ≤ n) :
    ∀ fuel left right pos (buf : List α),
      left ≤ mid → right ≤ finish → (mid - left) + (finish - right) ≤ fuel →
      pos + (mid - left) + (finish - right) ≤ n →
      mergeLoopChecked lt n a mid finish fuel left right pos buf =
        some (mergeLoop lt a mid finish fuel left right pos buf) := by
  intro fuel
  induction fuel with
  | zero =>
    intro left right pos buf hl hr hfuel hpos
    rw [mergeLoopChecked, mergeLoop, if_neg (by omega)]
  | succ k ih =>
    intro left right pos buf hl hr hfuel hpos
    rw [mergeLoopChecked, mergeLoop]
    by_cases hc : left < mid ∨ right < finish
    · rw [if_pos hc, if_pos hc, if_neg (by omega)]
      by_cases hb : left < mid ∧
          (right = finish ∨ lt (a.getD left default) (a.getD right default) = true)
      · rw [if_pos hb, if_pos hb, if_pos (by omega)]
        exact ih _ _ _ _ (by omega) hr (by omega) (by omega)
      · rw [if_neg hb, if_neg hb]
        have hrf : right < finish := by
          by_contra hge
          have hrq : right = finish := by omega
          rcases hc with h | h
          · exact hb ⟨h, Or.inl hrq⟩
          · omega
        rw [if_pos (by omega)]
        exact ih _ _ _ _ hl (by omega) (by omega) (by omega)
    · rw [if_neg hc, if_neg hc]

theorem copyBackChecked_eq {α : Type} [Inhabited α] (n start finish : Nat) (a buf : List α)
    (hfn : finish ≤ n) :
    copyBackChecked n start finish a buf =
      some (forLoop start finish (fun i a => a.set i (buf.getD i default)) a) := by
  unfold copyBackChecked
  by_cases hsf : start ≤ finish
  · refine forLoop_induction
      (fun k (st : Option (List α)) =>
        st = some (forLoop start k (fun i a => a.set i (buf.getD i default)) a))
      start finish _ (some a) hsf (by dsimp only; rw [forLoop_empty _ _ _ _ le_rfl]) ?_
    intro j st hj1 hj2 hst
    dsimp only at hst ⊢
    rw [hst]
    dsimp only
    rw [if_pos (by omega), forLoop_succ _ _ _ _ hj1]
  · rw [forLoop_empty _ _ _ _ (by omega), forLoop_empty _ _ _ _ (by omega)]

theorem mergeBlocksChecked_eq {α : Type} [Inhabited α] (lt : α → α → Bool) (n bl : Nat)
    (hbl : 0 < bl) :
    ∀ fuel cur (s : List α × List α), n ≤ cur + fuel →
      mergeBlocksChecked lt n bl fuel cur s = some (mergeBlocks lt n bl fuel cur s) := by
  intro fuel
  induction fuel with
  | zero =>
    intro cur s hfuel
    rw [mergeBlocksChecked, mergeBlocks, if_neg (by omega)]
  | succ k ih =>
    intro cur s hfuel
    rw [mergeBlocksChecked, mergeBlocks]
    by_cases hc : cur + bl < n
    · rw [if_pos hc, if_pos hc]
      dsimp only
      have hfin : (if cur + bl + bl < n then cur + bl + bl else n) ≤ n := by
        split <;> omega
      have hfin2 : cur + bl ≤ (if cur + bl + bl < n then cur + bl + bl else n) := by
        split <;> omega
      generalize (if cur + bl + bl < n then cur + bl + bl else n) = finish at hfin hfin2
      rw [mergeLoopChecked_eq lt n s.1 (cur + bl) finish (by omega) hfin (finish - cur) cur
        (cur + bl) cur s.2 (by omega) hfin2 (by omega) (by omega)]
      dsimp only
      rw [copyBackChecked_eq n cur finish s.1 _ hfin]
      dsimp only
      exact ih _ _ (by omega)
    · rw [if_neg hc, if_neg hc]

theorem mergePassesChecked_eq {α : Type} [Inhabited α] (lt : α → α → Bool) (n : Nat) :
    ∀ fuel bl (s : List α × List α), 0 < bl → n ≤ bl + fuel →
      mergePassesChecked lt n fuel bl s = some (mergePasses lt n fuel bl s) := by
  intro fuel
  induction fuel with
  | zero =>
    intro bl s hbl hfuel
    rw [mergePassesChecked, mergePasses, if_neg (by omega)]
  | succ k ih =>
    intro bl s hbl hfuel
    rw [mergePassesChecked, mergePasses]
    by_cases hc : bl < n
    · rw [if_pos hc, if_pos hc, mergeBlocksChecked_eq lt n bl hbl n 0 s (by omega)]
      dsimp only
      exact ih _ _ (by omega) (by omega)
    · rw [if_neg hc, if_neg hc]

/-- Every loop of `mergeSort` ends within its bound and every access stays in the
range: the checked run returns what the unchecked one computes. -/
theorem mergeSortChecked_eq {α : Type} [Inhabited α] (lt : α → α → Bool) (a buf : List α) :
    mergeSortChecked lt a buf = some (mergeSort lt a buf) := by
  unfold mergeSortChecked mergeSort
  exact mergePassesChecked_eq lt a.length a.length 1 (a, buf) (by decide) (by omega)

/-- **C26.** For an input range `a` of any length (`0`, `1`, a power of two or not)
and a scratch range `buf` of at least as many elements, whatever the comparison:
`mergeSort` terminates and reads and writes `begin` and `buf` only at indices in
`[0, end - begin)` (the run with checked loops and accesses returns), and it
leaves in `[begin, end)` a permutation of the input, of the same length. -/
theorem mergeSort_perm_in_range {α : Type} [Inhabited α] (lt : α → α → Bool)
    (a buf : List α) (h : a.length ≤ buf.length) :
    ∃ r, mergeSortChecked lt a buf = some r ∧ r.1.Perm a ∧ r.1.length = a.length :=
  ⟨mergeSort lt a buf, mergeSortChecked_eq lt a buf, mergeSort_perm lt a buf h,
    (mergeSort_perm lt a buf h).length_eq⟩

/-- Witness of `mergeSort_perm_in_range` on a range of five elements with a repeated
value. -/
theorem mergeSort_perm_in_range_witness :
    ∃ r, mergeSortChecked (fun x y : Nat => decide (x < y)) [3, 1, 2, 1, 0] [0, 0, 0, 0, 0] =
        some r ∧ r.1.Perm [3, 1, 2, 1, 0] ∧ r.1.length = ([3, 1, 2, 1, 0] : List Nat).length :=
  mergeSort_perm_in_range (fun x y : Nat => decide (x < y)) [3, 1, 2, 1, 0] [0, 0, 0, 0, 0]
    (by decide)

end xgboost
